import Mathlib

/-!
Skip-list ordered map (`pkg/skiplist/skiplist.go`).

A shallow embedding of the generic skip list.  Go pointers `*node[K, V]` are
addresses into an explicit heap (a list of nodes, the address being the index),
`nil` is `none`.  A dereference of `nil` (a Go panic) and an exhausted loop
budget both make an operation return `none`.  The pointers `*K` and `*V` held by
a node are only ever compared with `nil` or dereferenced, and every `&k`, `&v`
taken by `Add` refers to a variable that is never assigned afterwards, so they
are embedded as `Option K` and `Option V`.  Go `int` values (`levels`, `size`,
the results of the comparator and of `randomLevel`) are integers: every unit
of `levels` or `size` stands for a node of the heap, so no counter comes near
the range of a machine word.  A method returns the map it leaves next to its
result, and a traversal returns the list of the entries it called the visitor
on.

The file has two parts: the definitions (the program, then the vocabulary of
its specification), and the theorems.
-/

namespace Skiplist

variable {K V : Type}

/-! # Definitions -/

/-! ## The program -/

/-- The Go struct `node[K, V]`. -/
structure node (K V : Type) where
  right : Option Nat
  down : Option Nat
  key : Option K
  value : Option V

/-- The Go type `Comparator[T]`: a three-way comparison. -/
abbrev Comparator (T : Type) := T → T → Int

/-- The Go struct `mapImpl[K, V]`, together with the heap its pointers refer to.
`head` and `zeroLevel` are never `nil` (every assignment to them in the source
stores a pointer that was just allocated or just tested against `nil`), so they
are plain addresses. -/
structure mapImpl (K V : Type) where
  cmp : Comparator K
  head : Nat
  zeroLevel : Nat
  levels : Int
  emptyValue : V
  size : Int
  heap : List (node K V)

/-- Read the node stored at address `p`. -/
def rd (h : List (node K V)) (p : Nat) : Option (node K V) := h[p]?

/-- Overwrite the node stored at address `p`. -/
def wr (h : List (node K V)) (p : Nat) (n : node K V) : Option (List (node K V)) :=
  if p < h.length then some (h.set p n) else none

/-- The assignment `p.right = x`. -/
def setRight (h : List (node K V)) (p : Nat) (x : Option Nat) : Option (List (node K V)) :=
  (rd h p).bind fun c => wr h p { c with right := x }

/-- The assignment `p.down = x`. -/
def setDown (h : List (node K V)) (p : Nat) (x : Option Nat) : Option (List (node K V)) :=
  (rd h p).bind fun c => wr h p { c with down := x }

/-- The assignment `p.value = x`. -/
def setValue (h : List (node K V)) (p : Nat) (x : Option V) : Option (List (node K V)) :=
  (rd h p).bind fun c => wr h p { c with value := x }

/-- The statement `if up != nil { up.down = x }` of `Add`. -/
def linkUp (h : List (node K V)) (up : Option Nat) (x : Option Nat) :
    Option (List (node K V)) :=
  match up with
  | none => some h
  | some u => setDown h u x

/-- Function `NewMap`: one header node, which is both the head and the zero level.
`emptyValue` is the zero value of `V`, which Go leaves in the field. -/
def NewMap (cmp : Comparator K) (emptyValue : V) : mapImpl K V :=
  { cmp := cmp, head := 0, zeroLevel := 0, levels := 0, emptyValue := emptyValue,
    size := 0, heap := [{ right := none, down := none, key := none, value := none }] }

/-- First loop of `getLt`: `for cur.down != nil { ... }`. -/
def getLtDown (cmp : Comparator K) (k : K) (h : List (node K V)) : Nat → Nat → Option Nat
  | 0, _ => none
  | fuel + 1, cur =>
    (rd h cur).bind fun c =>
      match c.down with
      | none => some cur
      | some d =>
        match c.right with
        | none => getLtDown cmp k h fuel d
        | some r =>
          (rd h r).bind fun rn =>
            rn.key.bind fun rk =>
              if cmp k rk ≤ 0 then getLtDown cmp k h fuel d
              else getLtDown cmp k h fuel r

/-- Second loop of `getLt`: `for cur.right != nil { ... }`. -/
def getLtRight (cmp : Comparator K) (k : K) (h : List (node K V)) : Nat → Nat → Option Nat
  | 0, _ => none
  | fuel + 1, cur =>
    (rd h cur).bind fun c =>
      match c.right with
      | none => some cur
      | some r =>
        (rd h r).bind fun rn =>
          rn.key.bind fun rk =>
            if cmp k rk ≤ 0 then some cur
            else getLtRight cmp k h fuel r

/-- Method `mapImpl.getLt`.  The result is an address: the source returns `cur`, which
it has just dereferenced. -/
def getLt (m : mapImpl K V) (k : K) : Option Nat :=
  (getLtDown m.cmp k m.heap (m.heap.length + 1) m.head).bind fun c =>
    getLtRight m.cmp k m.heap (m.heap.length + 1) c

/-- Method `mapImpl.Get`; the map is returned along with the result. -/
def Get (m : mapImpl K V) (k : K) : Option ((V × Bool) × mapImpl K V) :=
  (getLt m k).bind fun lt =>
  (rd m.heap lt).bind fun ltn =>
    match ltn.right with
    | none => some ((m.emptyValue, false), m)
    | some r =>
      (rd m.heap r).bind fun rn =>
        match rn.key with
        | none => some ((m.emptyValue, false), m)
        | some rk =>
          if m.cmp k rk = 0 then rn.value.bind fun v => some ((v, true), m)
          else some ((m.emptyValue, false), m)

/-- Method `mapImpl.Lt`. -/
def Lt (m : mapImpl K V) (k : K) : Option ((V × Bool) × mapImpl K V) :=
  (getLt m k).bind fun lt =>
  (rd m.heap lt).bind fun ltn =>
    match ltn.key with
    | none => some ((m.emptyValue, false), m)
    | some _ => ltn.value.bind fun v => some ((v, true), m)

/-- Method `mapImpl.Gt`. -/
def Gt (m : mapImpl K V) (k : K) : Option ((V × Bool) × mapImpl K V) :=
  (getLt m k).bind fun lt =>
  (rd m.heap lt).bind fun ltn =>
    match ltn.right with
    | none => some ((m.emptyValue, false), m)
    | some r =>
      (rd m.heap r).bind fun rn =>
        match rn.key with
        | none => some ((m.emptyValue, false), m)
        | some rk =>
          if m.cmp k rk = 0 then
            match rn.right with
            | none => some ((m.emptyValue, false), m)
            | some rr =>
              (rd m.heap rr).bind fun rrn =>
                match rrn.key with
                | none => some ((m.emptyValue, false), m)
                | some _ => rrn.value.bind fun v => some ((v, true), m)
          else rn.value.bind fun v => some ((v, true), m)

/-- Method `mapImpl.LtEq`. -/
def LtEq (m : mapImpl K V) (k : K) : Option ((V × Bool) × mapImpl K V) :=
  (getLt m k).bind fun lt =>
  (rd m.heap lt).bind fun ltn =>
    let tail : Option ((V × Bool) × mapImpl K V) :=
      match ltn.key with
      | none => some ((m.emptyValue, false), m)
      | some _ => ltn.value.bind fun v => some ((v, true), m)
    match ltn.right with
    | none => tail
    | some r =>
      (rd m.heap r).bind fun rn =>
        match rn.key with
        | none => tail
        | some rk =>
          if m.cmp k rk = 0 then rn.value.bind fun v => some ((v, true), m)
          else tail

/-- Method `mapImpl.GtEq`. -/
def GtEq (m : mapImpl K V) (k : K) : Option ((V × Bool) × mapImpl K V) :=
  (getLt m k).bind fun lt =>
  (rd m.heap lt).bind fun ltn =>
    match ltn.right with
    | none => some ((m.emptyValue, false), m)
    | some r =>
      (rd m.heap r).bind fun rn =>
        match rn.key with
        | none => some ((m.emptyValue, false), m)
        | some rk =>
          if m.cmp k rk = 0 then rn.value.bind fun v => some ((v, true), m)
          else if m.cmp k rk = 0 then
            match rn.right with
            | none => some ((m.emptyValue, false), m)
            | some rr =>
              (rd m.heap rr).bind fun rrn =>
                match rrn.key with
                | none => some ((m.emptyValue, false), m)
                | some _ => rrn.value.bind fun v => some ((v, true), m)
          else rn.value.bind fun v => some ((v, true), m)

/-- Method `mapImpl.shrink`, the loop. -/
def shrinkLoop (h : List (node K V)) : Nat → Nat → Int → Option (Nat × Int)
  | 0, _, _ => none
  | fuel + 1, head, levels =>
    (rd h head).bind fun hn =>
      match hn.down with
      | none => some (head, levels)
      | some d =>
        match hn.right with
        | none => shrinkLoop h fuel d (levels - 1)
        | some _ => some (head, levels)

/-- Method `mapImpl.shrink`. -/
def shrink (m : mapImpl K V) : Option (mapImpl K V) :=
  (shrinkLoop m.heap (m.heap.length + 1) m.head m.levels).bind fun r =>
    some { m with head := r.1, levels := r.2 }

/-- Method `mapImpl.addLevels`, the loop: each round allocates a header whose `down`
is the previous head. -/
def addLevelsLoop : Nat → List (node K V) → Nat → List (node K V) × Nat
  | 0, h, head => (h, head)
  | n + 1, h, head =>
    addLevelsLoop n (h ++ [{ right := none, down := some head, key := none, value := none }])
      h.length

/-- Method `mapImpl.addLevels`. -/
def addLevels (m : mapImpl K V) (levels : Int) : mapImpl K V :=
  let r := addLevelsLoop (levels - m.levels).toNat m.heap m.head
  { m with heap := r.1, head := r.2, levels := levels }

/-- The loop of `randomLevel`, `i` running from `n - 1` down to `0`. -/
def randomLevelFrom (coin : Int) : Nat → Int
  | 0 => 0
  | i + 1 => if coin > 2 ^ i then 61 - (i : Int) else randomLevelFrom coin i

/-- Function `randomLevel`, as a function of the coin `rand.Int63n(1 << 62)`. -/
def randomLevel (coin : Int) : Int := randomLevelFrom coin 62

/-- The loop of `mapImpl.Add`.  The state is the heap, `cur`, `curLevel`, `up`
and `exists`; the result is the final heap and `exists`. -/
def AddLoop (cmp : Comparator K) (k : K) (v : V) (nodeLevel : Int) :
    Nat → List (node K V) → Option Nat → Int → Option Nat → Bool →
      Option (List (node K V) × Bool)
  | _, h, none, _, _, ex => some (h, ex)
  | 0, _, some _, _, _, _ => none
  | fuel + 1, h0, some cur, curLevel, up, ex =>
    let n := h0.length
    let h := h0 ++ [{ right := none, down := none, key := some k, value := some v }]
    (rd h cur).bind fun c =>
      match c.right with
      | none =>
        if curLevel > nodeLevel then
          AddLoop cmp k v nodeLevel fuel h c.down (curLevel - 1) up ex
        else
          (setRight h cur (some n)).bind fun h1 =>
          (linkUp h1 up (some n)).bind fun h2 =>
          (rd h2 cur).bind fun c2 =>
            AddLoop cmp k v nodeLevel fuel h2 c2.down curLevel (some n) ex
      | some r =>
        (rd h r).bind fun rn =>
        rn.key.bind fun rk =>
          if cmp k rk < 0 then
            if curLevel > nodeLevel then
              AddLoop cmp k v nodeLevel fuel h c.down (curLevel - 1) up ex
            else
              (linkUp h up (some n)).bind fun h1 =>
              (rd h1 cur).bind fun c1 =>
              (setRight h1 n c1.right).bind fun h2 =>
              (setRight h2 cur (some n)).bind fun h3 =>
              (rd h3 cur).bind fun c3 =>
                AddLoop cmp k v nodeLevel fuel h3 c3.down curLevel (some n) ex
          else if cmp k rk > 0 then
            AddLoop cmp k v nodeLevel fuel h (some r) curLevel up ex
          else
            if curLevel > nodeLevel then
              (setRight h cur rn.right).bind fun h1 =>
                AddLoop cmp k v nodeLevel fuel h1 (some cur) (curLevel - 1) up true
            else
              (linkUp h up (some r)).bind fun h1 =>
              (rd h1 cur).bind fun c1 =>
              c1.right.bind fun r1 =>
              (setValue h1 r1 (some v)).bind fun h2 =>
              (rd h2 cur).bind fun c2 =>
                AddLoop cmp k v nodeLevel fuel h2 c2.down curLevel c2.right true

/-- Method `mapImpl.Add` with the drawn level `nodeLevel` given. -/
def AddAt (m : mapImpl K V) (nodeLevel : Int) (k : K) (v : V) : Option (mapImpl K V) :=
  let m1 := if m.levels < nodeLevel then addLevels m nodeLevel else m
  (AddLoop m1.cmp k v nodeLevel (m1.heap.length + 1) m1.heap (some m1.head) m1.levels
      none false).bind fun r =>
    shrink { m1 with heap := r.1, size := if r.2 then m1.size else m1.size + 1 }

/-- Method `mapImpl.Add`; `coin` is the value drawn by `rand.Int63n(1 << 62)`. -/
def Add (m : mapImpl K V) (coin : Int) (k : K) (v : V) : Option (mapImpl K V) :=
  AddAt m (randomLevel coin) k v

/-- The loop of `mapImpl.Remove`.  The state is the heap, `cur`, `lvl`, `found`
and `foundValue`. -/
def RemoveLoop (cmp : Comparator K) (k : K) :
    Nat → List (node K V) → Option Nat → Int → Bool → V → Option (List (node K V) × Bool × V)
  | 0, h, _, lvl, found, fv => if lvl < 0 then some (h, found, fv) else none
  | fuel + 1, h, cur, lvl, found, fv =>
    if lvl < 0 then some (h, found, fv)
    else
      cur.bind fun p =>
      (rd h p).bind fun c =>
        match c.right with
        | none => RemoveLoop cmp k fuel h c.down (lvl - 1) found fv
        | some r =>
          (rd h r).bind fun rn =>
          rn.key.bind fun rk =>
            if cmp k rk > 0 then RemoveLoop cmp k fuel h (some r) lvl found fv
            else if cmp k rk < 0 then RemoveLoop cmp k fuel h c.down (lvl - 1) found fv
            else
              rn.value.bind fun rv =>
              (setRight h p rn.right).bind fun h1 =>
              (rd h1 p).bind fun c1 =>
                RemoveLoop cmp k fuel h1 c1.down (lvl - 1) true rv

/-- Method `mapImpl.Remove`. -/
def Remove (m : mapImpl K V) (k : K) : Option ((V × Bool) × mapImpl K V) :=
  (RemoveLoop m.cmp k (m.heap.length + 1) m.heap (some m.head) m.levels false
      m.emptyValue).bind fun r =>
    (shrink { m with heap := r.1, size := if r.2.1 then m.size - 1 else m.size }).bind fun m2 =>
      some ((r.2.2, r.2.1), m2)

/-- The loop of `mapImpl.ForEach`; the result is the list of the entries the
visitor `f` was called on, in call order. -/
def ForEachLoop (f : K → V → Bool) (h : List (node K V)) :
    Nat → Option Nat → Option (List (K × V))
  | _, none => some []
  | 0, some _ => none
  | fuel + 1, some cur =>
    (rd h cur).bind fun c =>
      match c.key with
      | some ck =>
        c.value.bind fun cv =>
          if f ck cv then (ForEachLoop f h fuel c.right).map fun t => (ck, cv) :: t
          else some [(ck, cv)]
      | none => ForEachLoop f h fuel c.right

/-- Method `mapImpl.ForEach`; the map is returned along with the calls made. -/
def ForEach (m : mapImpl K V) (f : K → V → Bool) : Option (List (K × V) × mapImpl K V) :=
  (ForEachLoop f m.heap (m.heap.length + 1) (some m.zeroLevel)).map fun t => (t, m)

/-- The second loop of `mapImpl.ForEachRange`. -/
def ForEachRangeLoop (cmp : Comparator K) (stop : K) (f : K → V → Bool)
    (h : List (node K V)) : Nat → Option Nat → Option (List (K × V))
  | _, none => some []
  | 0, some _ => none
  | fuel + 1, some cur =>
    (rd h cur).bind fun c =>
    c.key.bind fun ck =>
      if cmp ck stop ≥ 0 then some []
      else
        c.value.bind fun cv =>
          if f ck cv then (ForEachRangeLoop cmp stop f h fuel c.right).map fun t => (ck, cv) :: t
          else some [(ck, cv)]

/-- Method `mapImpl.ForEachRange`; `stop` is the parameter `end` of the source. -/
def ForEachRange (m : mapImpl K V) (start stop : K) (f : K → V → Bool) :
    Option (List (K × V) × mapImpl K V) :=
  (getLt m start).bind fun lt =>
  (rd m.heap lt).bind fun ltn =>
    (ForEachRangeLoop m.cmp stop f m.heap (m.heap.length + 1) ltn.right).map fun t => (t, m)

/-- Method `mapImpl.Size`. -/
def Size (m : mapImpl K V) : Int := m.size

/-! ## Order laws, cells and the representation predicate -/

/-- The comparator is a strict total three-way order: zero exactly on equal
keys, antisymmetric in sign, and transitive. -/
structure IsStrictTotal (cmp : Comparator K) : Prop where
  eq_iff : ∀ a b, cmp a b = 0 ↔ a = b
  swap : ∀ a b, cmp a b < 0 ↔ 0 < cmp b a
  trans : ∀ a b c, cmp a b < 0 → cmp b c < 0 → cmp a c < 0

/-- Order on optional keys; the absent key of a header is below every key. -/
def olt (cmp : Comparator K) : Option K → Option K → Prop
  | none, some _ => True
  | some a, some b => cmp a b < 0
  | _, none => False

/-- A linked node as seen from its level: its address and its fields other than
`right`, which is given by the position in the level. -/
structure Cell (K V : Type) where
  addr : Nat
  key : Option K
  value : Option V
  down : Option Nat

/-- The node a cell stands for, given its `right` pointer. -/
def Cell.toNode (c : Cell K V) (r : Option Nat) : node K V :=
  { right := r, down := c.down, key := c.key, value := c.value }

/-- Address of the first cell of a segment, or `nxt` when the segment is empty. -/
def firstAddr : List (Cell K V) → Option Nat → Option Nat
  | [], nxt => nxt
  | c :: _, _ => some c.addr

/-- The heap holds the cells of `cs` linked by `right` in this order, the last
one pointing to `nxt`. -/
def RepSeg (h : List (node K V)) : List (Cell K V) → Option Nat → Prop
  | [], _ => True
  | c :: cs, nxt => rd h c.addr = some (c.toNode (firstAddr cs nxt)) ∧ RepSeg h cs nxt

/-- Addresses of the cells of a level. -/
def addrs (l : List (Cell K V)) : List Nat := l.map Cell.addr

/-- Every cell of the upper level points down to a cell of the lower level that
has the same key. -/
def DownOK (u l : List (Cell K V)) : Prop :=
  ∀ c ∈ u, ∃ c' ∈ l, c.down = some c'.addr ∧ c'.key = c.key

/-- A level starts with a header (no key), its keys increase strictly, and
every keyed cell has a value. -/
structure LevelOK (cmp : Comparator K) (l : List (Cell K V)) : Prop where
  sorted : l.Pairwise fun a b => olt cmp a.key b.key
  hdr : ∃ hd tl, l = hd :: tl ∧ hd.key = none
  val : ∀ c ∈ l, c.key ≠ none → c.value ≠ none

/-- The heap `h` holds the skip list whose levels, top first, are `g`. -/
structure Good (cmp : Comparator K) (h : List (node K V)) (g : List (List (Cell K V))) :
    Prop where
  rep : ∀ l ∈ g, RepSeg h l none
  lvl : ∀ l ∈ g, LevelOK cmp l
  down : g.Chain' DownOK
  bot : ∀ l, g.getLast? = some l → ∀ c ∈ l, c.down = none
  nodup : (addrs g.flatten).Nodup

/-- The entries of a level: key and value of every keyed cell. -/
def kvs (l : List (Cell K V)) : List (K × V) :=
  l.filterMap fun c => c.key.bind fun k => c.value.map fun v => (k, v)

/-- Number of loop rounds that suffice from a cell followed by `post` on its
level, with the levels `below` underneath. -/
def budget (post : List (Cell K V)) (below : List (List (Cell K V))) : Nat :=
  post.length + 1 + (below.map List.length).sum

/-! ## The cells of other keys -/

/-- The cell does not carry the key `k`. -/
def isOther (cmp : Comparator K) (k : K) (c : Cell K V) : Bool :=
  match c.key with
  | none => true
  | some y => decide (cmp k y ≠ 0)

/-- The cells of a level that do not carry the key `k`. -/
def others (cmp : Comparator K) (k : K) (l : List (Cell K V)) : List (Cell K V) :=
  l.filter (isOther cmp k)

/-- The bottom level of a stack of levels. -/
def bottom (g : List (List (Cell K V))) : List (Cell K V) := g.getLast?.getD []

/-! ## Specification of the loop of `Remove` -/

/-- What a run of the loop of `Remove` over the levels `g` achieves. -/
def RemPost (cmp : Comparator K) (k : K) (h : List (node K V)) (g : List (List (Cell K V)))
    (found : Bool) (fv : V) (res : Option (List (node K V) × Bool × V)) : Prop :=
  ∃ h' found' fv', res = some (h', found', fv') ∧
    (∀ l ∈ g, RepSeg h' (others cmp k l) none) ∧
    (∀ a, a ∉ addrs g.flatten → rd h' a = rd h a) ∧
    h'.length = h.length ∧
    (∀ c ∈ bottom g, c.key = some k → found' = true ∧ c.value = some fv') ∧
    ((∀ c ∈ bottom g, c.key ≠ some k) → found' = found ∧ fv' = fv)

/-- The loop of `Remove`, started on a cell below `k` of the top level of a
skip list, with `lvl` the number of levels underneath. -/
def RemSpec (cmp : Comparator K) (k : K) (V : Type) (below : List (List (Cell K V))) : Prop :=
  ∀ (post pre : List (Cell K V)) (c : Cell K V) (h : List (node K V)) (fuel : Nat)
    (found : Bool) (fv : V),
    Good cmp h ((pre ++ c :: post) :: below) → olt cmp c.key (some k) →
    budget post below ≤ fuel →
    RemPost cmp k h ((pre ++ c :: post) :: below) found fv
      (RemoveLoop cmp k fuel h (some c.addr) (below.length : Int) found fv)

/-! ## The levels as sorted association lists -/

/-- Whether an entry list holds the key `k`. -/
def hasKey (cmp : Comparator K) (k : K) (l : List (K × V)) : Bool :=
  l.any fun p => decide (cmp k p.1 = 0)

/-- The entry list without the entries of key `k`. -/
def del (cmp : Comparator K) (k : K) (l : List (K × V)) : List (K × V) :=
  l.filter fun p => decide (cmp k p.1 ≠ 0)

/-- Sorted insertion of `(k, v)`, overwriting the value when the key is there. -/
def ins (cmp : Comparator K) (k : K) (v : V) : List (K × V) → List (K × V)
  | [] => [(k, v)]
  | p :: t =>
    if cmp k p.1 < 0 then (k, v) :: p :: t
    else if cmp k p.1 > 0 then p :: ins cmp k v t
    else (p.1, v) :: t

/-- What the loop of `Add` does to the entries of the levels (top first): above
the drawn level `nl` a level loses the key, and the level counter `cl` then
drops twice (once with the unlinking, once with the descent), so the counter
may reach `nl` on a higher level than the one numbered `nl`; from there on
every level receives the key. -/
def addG (cmp : Comparator K) (k : K) (v : V) (nl : Int) :
    Int → List (List (K × V)) → List (List (K × V))
  | _, [] => []
  | cl, l :: below =>
    if cl > nl then
      if hasKey cmp k l then
        if cl - 1 > nl then del cmp k l :: addG cmp k v nl (cl - 2) below
        else ins cmp k v l :: addG cmp k v nl (cl - 1) below
      else l :: addG cmp k v nl (cl - 1) below
    else ins cmp k v l :: addG cmp k v nl cl below

/-- Put the entries `a` in front of the first level. -/
def prepend (a : List (K × V)) : List (List (K × V)) → List (List (K × V))
  | [] => []
  | l :: g => (a ++ l) :: g

/-! ## Specification of the loop of `Add` -/

/-- What a run of the loop of `Add` achieves when started on the cell `c` of
the top level `pre ++ c :: post` of the levels `(pre ++ c :: post) :: below`,
with level counter `cl`, pending upper node `up` and flag `ex`. -/
def AddPost (cmp : Comparator K) (k : K) (v : V) (nl : Int) (h : List (node K V))
    (pre : List (Cell K V)) (c : Cell K V) (post : List (Cell K V))
    (below : List (List (Cell K V))) (cl : Int) (up : Option Nat) (ex : Bool)
    (res : Option (List (node K V) × Bool)) : Prop :=
  ∃ h' ex' post' below', res = some (h', ex') ∧
    Good cmp h' ((pre ++ c :: post') :: below') ∧
    ((pre ++ c :: post') :: below').map (others cmp k) =
      ((pre ++ c :: post) :: below).map (others cmp k) ∧
    kvs post' :: below'.map kvs = addG cmp k v nl cl (kvs post :: below.map kvs) ∧
    (cl ≤ nl → ∃ ck ∈ post', ck.key = some k ∧
      ∀ u nu, up = some u → rd h u = some nu →
        rd h' u = some { nu with down := some ck.addr }) ∧
    (∀ a, a ∉ addrs ((pre ++ c :: post) :: below).flatten → some a ≠ up → a < h.length →
      rd h' a = rd h a) ∧
    (∀ a ∈ addrs ((pre ++ c :: post') :: below').flatten,
      a ∈ addrs ((pre ++ c :: post) :: below).flatten ∨ h.length ≤ a) ∧
    h.length ≤ h'.length ∧
    ((∃ c' ∈ bottom ((pre ++ c :: post) :: below), c'.key = some k) → ex' = true) ∧
    ((∀ c' ∈ bottom ((pre ++ c :: post) :: below), c'.key ≠ some k) → ex' = ex)

/-- The loop of `Add` meets `AddPost` from every cell below `k` of the top level,
while the counter is above the drawn level only on levels that are at least as
high as the counter says. -/
def AddSpec (cmp : Comparator K) (k : K) (v : V) (nl : Int)
    (below : List (List (Cell K V))) : Prop :=
  ∀ (post pre : List (Cell K V)) (c : Cell K V) (h : List (node K V)) (fuel : Nat) (cl : Int)
    (up : Option Nat) (ex : Bool),
    Good cmp h ((pre ++ c :: post) :: below) → olt cmp c.key (some k) →
    budget post below ≤ fuel →
    (nl < cl → up = none ∧ cl ≤ (below.length : Int)) →
    (∀ u, up = some u → u ∉ addrs ((pre ++ c :: post) :: below).flatten ∧ u < h.length) →
    AddPost cmp k v nl h pre c post below cl up ex
      (AddLoop cmp k v nl fuel h (some c.addr) cl up ex)

/-- The node `n` that every round of the loop of `Add` allocates. -/
def newNode (k : K) (v : V) : node K V :=
  { right := none, down := none, key := some k, value := some v }

/-! ## The header stack and the invariant of the map -/

/-- The levels that remain after `shrink`: leading levels that hold only their
header are dropped while a level remains underneath. -/
def shrinkG : List (List (Cell K V)) → List (List (Cell K V))
  | l :: l2 :: rest => if l.length ≤ 1 then shrinkG (l2 :: rest) else l :: l2 :: rest
  | g => g

/-- The same on entry lists. -/
def shrinkKV : List (List (K × V)) → List (List (K × V))
  | l :: l2 :: rest => if l.isEmpty then shrinkKV (l2 :: rest) else l :: l2 :: rest
  | g => g

/-- The level that `addLevels` pushes: a single header above the old head. -/
def headerCell (a prev : Nat) : Cell K V :=
  { addr := a, key := none, value := none, down := some prev }

/-- The levels after `n` rounds of the loop of `addLevels`. -/
def growG : Nat → Nat → List (List (Cell K V)) → List (List (Cell K V))
  | 0, _, g => g
  | n + 1, a, g =>
    match g with
    | (hd :: _) :: _ => growG n (a + 1) ([headerCell a hd.addr] :: g)
    | _ => g

/-- The map `m` holds the levels `g` (top first), possibly with empty levels on
top: the state of a map in the middle of `Add` or `Remove`. -/
structure PreInv (m : mapImpl K V) (g : List (List (Cell K V))) : Prop where
  good : Good m.cmp m.heap g
  head : ∃ hd tl rest, g = (hd :: tl) :: rest ∧ m.head = hd.addr
  zero : ∃ hd tl, bottom g = hd :: tl ∧ m.zeroLevel = hd.addr
  levels : m.levels + 1 = g.length
  size : m.size = (kvs (bottom g)).length

/-- The map `m` is the skip list with levels `g` (top first): the top level
holds a key unless it is the only level. -/
structure Inv (m : mapImpl K V) (g : List (List (Cell K V))) extends PreInv m g : Prop where
  top : ∀ hd rest, g = [hd] :: rest → rest = []

/-! ## Entry lists -/

/-- Entries sorted strictly by key. -/
def SortedKV (cmp : Comparator K) (es : List (K × V)) : Prop :=
  es.Pairwise fun a b => cmp a.1 b.1 < 0

/-- The last of a stack of entry lists. -/
def lastKV (ls : List (List (K × V))) : List (K × V) := ls.getLast?.getD []

/-! ## Traversals and the split of the zero level -/

/-- The calls a traversal makes on the entries `es` with visitor `f`: it stops
after the first entry on which `f` returns `false`. -/
def visit (f : K → V → Bool) : List (K × V) → List (K × V)
  | [] => []
  | p :: t => if f p.1 p.2 then p :: visit f t else [p]

/-- The zero level split at the cell that `getLt` returns. -/
structure ZeroSplit (m : mapImpl K V) (g : List (List (Cell K V))) (k : K)
    (pre : List (Cell K V)) (c : Cell K V) (post : List (Cell K V)) : Prop where
  bot : bottom g = pre ++ c :: post
  lt : getLt m k = some c.addr
  cell : rd m.heap c.addr = some (c.toNode (firstAddr post none))
  rep : RepSeg m.heap post none
  lvl : LevelOK m.cmp (pre ++ c :: post)
  below : ∀ x ∈ pre ++ [c], olt m.cmp x.key (some k)
  above : ∀ x ∈ post, ∃ y, x.key = some y ∧ m.cmp k y ≤ 0

/-! ## Reachable maps -/

/-- A mutating call on a map; `coin` is the value `Add` draws. -/
inductive Op (K V : Type) where
  | add (coin : Int) (k : K) (v : V)
  | remove (k : K)

/-- Perform one mutating call. -/
def applyOp (m : mapImpl K V) : Op K V → Option (mapImpl K V)
  | .add coin k v => Add m coin k v
  | .remove k => (Remove m k).map Prod.snd

/-- Perform a sequence of mutating calls, first to last. -/
def runOps (m : mapImpl K V) : List (Op K V) → Option (mapImpl K V)
  | [] => some m
  | o :: os => (applyOp m o).bind fun m' => runOps m' os

/-- The coin is in the range of `rand.Int63n(1 << 62)`. -/
def coinOK (coin : Int) : Prop := 0 ≤ coin ∧ coin < 2 ^ 62

/-- Every coin of the sequence is in the range of `rand.Int63n(1 << 62)`. -/
def coinsOK : List (Op K V) → Prop
  | [] => True
  | .add coin _ _ :: os => coinOK coin ∧ coinsOK os
  | .remove _ :: os => coinsOK os

/-- The map `m` is obtained from `NewMap(cmp)` by a sequence of `Add` and
`Remove` calls; `e` is the zero value of the value type. -/
def Reachable (cmp : Comparator K) (e : V) (m : mapImpl K V) : Prop :=
  ∃ ops, coinsOK ops ∧ runOps (NewMap cmp e) ops = some m

/-- The value that the calls `ops` leave for the key `k`, starting from `acc`:
the value of the last `Add` of `k` that no `Remove` of `k` follows. -/
def written (cmp : Comparator K) (k : K) : Option V → List (Op K V) → Option V
  | acc, [] => acc
  | acc, .add _ k' v :: os => written cmp k (if cmp k k' = 0 then some v else acc) os
  | acc, .remove k' :: os => written cmp k (if cmp k k' = 0 then none else acc) os

/-- The value last written for `k` by the calls `ops` on a new map. -/
def lastWritten (cmp : Comparator K) (k : K) (ops : List (Op K V)) : Option V :=
  written cmp k none ops

/-- The values stored for `k` on the zero level are described by `acc`. -/
def Holds (g : List (List (Cell K V))) (k : K) (acc : Option V) : Prop :=
  ∀ w, (k, w) ∈ kvs (bottom g) ↔ acc = some w

/-! ## Chains of `down` and `right` pointers -/

/-- The addresses met when following `down` from the node at `a`, `a` first. -/
def downChain (h : List (node K V)) : Nat → Nat → Option (List Nat)
  | 0, _ => none
  | fuel + 1, a =>
    (rd h a).bind fun n =>
      match n.down with
      | none => some [a]
      | some d => (downChain h fuel d).map fun t => a :: t

/-- The addresses met when following `right` from the node at `a`, `a` first. -/
def rightChain (h : List (node K V)) : Nat → Nat → Option (List Nat)
  | 0, _ => none
  | fuel + 1, a =>
    (rd h a).bind fun n =>
      match n.right with
      | none => some [a]
      | some r => (rightChain h fuel r).map fun t => a :: t

/-! ## Sample data -/

/-- The usual order on integers as a three-way comparison. -/
def intCmp : Comparator Int := fun a b => a - b

/-- A sample sequence of calls: `Add` draws the levels 2, 0 and 1. -/
def sampleOps : List (Op Int Int) :=
  [.add (2 ^ 60) 5 50, .add (2 ^ 62 - 1) 3 30, .add (2 ^ 61) 8 80, .remove 3]

/-- The map that the sample calls build: keys 5 (levels 0 to 2) and 8 (levels 0
and 1). -/
def sampleMap : mapImpl Int Int := (runOps (NewMap intCmp 0) sampleOps).getD (NewMap intCmp 0)

/-! ## Early termination of a traversal -/

/-- The entries of `es` up to and including the first one on which the visitor
`f` returns `false` (all of `es` when there is none). -/
def walked (f : K → V → Bool) (es : List (K × V)) : List (K × V) :=
  es.takeWhile (fun p => f p.1 p.2) ++ (es.dropWhile (fun p => f p.1 p.2)).take 1

/-! ## The sorted association list of the specification -/

/-- The sorted entry list `s` after `Add(k, v)`, in the words of the
specification: the entry of `k` is replaced by `(k, v)` when `s` holds `k`,
otherwise `(k, v)` is put at its sorted position, after the entries below `k`
and before those above. -/
def specAdd (cmp : Comparator K) (k : K) (v : V) (s : List (K × V)) : List (K × V) :=
  if s.any (fun p => decide (cmp k p.1 = 0)) then
    s.map fun p => if cmp k p.1 = 0 then (k, v) else p
  else
    s.filter (fun p => decide (cmp p.1 k < 0)) ++ (k, v) :: s.filter fun p => decide (cmp k p.1 < 0)

/-- The sorted entry list `s` after `Remove(k)`, in the words of the
specification: the entry of `k` is deleted. -/
def specRemove (cmp : Comparator K) (k : K) (s : List (K × V)) : List (K × V) :=
  s.filter fun p => decide (cmp k p.1 ≠ 0)

/-- What a mutating call does to the sorted entry list, whatever coin it
carries. -/
def specStep (cmp : Comparator K) (s : List (K × V)) : Op K V → List (K × V)
  | .add _ k v => specAdd cmp k v s
  | .remove k => specRemove cmp k s

/-- The sorted entry list after a sequence of mutating calls on a new map. -/
def specRun (cmp : Comparator K) (s : List (K × V)) (ops : List (Op K V)) : List (K × V) :=
  ops.foldl (specStep cmp) s

/-- The calls of two sequences are the same up to the coins drawn by `Add`. -/
def sameCalls : List (Op K V) → List (Op K V) → Prop
  | [], [] => True
  | .add _ k v :: os, .add _ k' v' :: os' => k = k' ∧ v = v' ∧ sameCalls os os'
  | .remove k :: os, .remove k' :: os' => k = k' ∧ sameCalls os os'
  | _, _ => False

/-! ## The structural invariants -/

/-- The structural invariants of a stack of levels `g` (top level first):
(i) along every level the keys increase strictly, the header coming first;
(ii) every cell of a level points `down` to a cell of the next lower level that
carries the same key; (iii) every key of any level is carried by exactly one
cell of the zero level. -/
structure Structural (cmp : Comparator K) (g : List (List (Cell K V))) : Prop where
  sorted : ∀ l ∈ g, l.Pairwise fun a b => olt cmp a.key b.key
  towers : g.Chain' fun u l => ∀ c ∈ u, ∃ c' ∈ l, c.down = some c'.addr ∧ c'.key = c.key
  once : ∀ l ∈ g, ∀ c ∈ l, ∀ y, c.key = some y → ∃! c', c' ∈ bottom g ∧ c'.key = some y

/-- The map `m`, ordered by `cmp`, is a skip list: its heap holds a stack of
levels (as laid down by `Inv`) that meets the structural invariants. -/
def IsSkipList (cmp : Comparator K) (m : mapImpl K V) : Prop :=
  m.cmp = cmp ∧ ∃ g, Inv m g ∧ Structural cmp g

/-! ## The levels read off the heap -/

/-- The nodes met along `right` from each of the given headers. -/
def chains (h : List (node K V)) (fuel : Nat) : List Nat → Option (List (List Nat))
  | [] => some []
  | a :: t => (rightChain h fuel a).bind fun l => (chains h fuel t).map fun r => l :: r

/-- The addresses of the nodes of every level, the top level first and every
level starting with its header: the headers are met along `down` from
`m.head`, the nodes of a level along `right` from its header. -/
def levelNodes (m : mapImpl K V) : Option (List (List Nat)) :=
  (downChain m.heap (m.heap.length + 1) m.head).bind (chains m.heap (m.heap.length + 1))

/-- The key and value of the node at `a`, when it has both. -/
def entryAt (h : List (node K V)) (a : Nat) : Option (K × V) :=
  (rd h a).bind fun n => n.key.bind fun k => n.value.map fun v => (k, v)

/-- The entries linked on every level, the top level first. -/
def levelEntries (m : mapImpl K V) : Option (List (List (K × V))) :=
  (levelNodes m).map fun ls => ls.map fun l => l.filterMap (entryAt m.heap)

/-- The levels after the growth step of `Add` with drawn level `nl`. -/
def growTo (m : mapImpl K V) (nl : Int) (g : List (List (Cell K V))) : List (List (Cell K V)) :=
  if m.levels < nl then growG (nl - m.levels).toNat m.heap.length g else g

/-- The addresses of the headers of the levels. -/
def headers (g : List (List (Cell K V))) : List Nat :=
  g.filterMap fun l => l.head?.map Cell.addr

/-! ## Counting the coins of a level -/

/-- The number of coins of `rand.Int63n(1 << 62)`, that is of `0 .. 2^62 - 1`,
on which `randomLevel` returns the level `l`. -/
def levelCount (l : Int) : Nat :=
  ((Finset.range (2 ^ 62)).filter fun c : Nat => randomLevel (c : Int) = l).card

/-! ## A second sample sequence -/

/-- The calls of `sampleOps` with other coins: `Add` draws the levels 0, 0 and 3. -/
def sampleOps2 : List (Op Int Int) :=
  [.add 0 5 50, .add 7 3 30, .add (2 ^ 59) 8 80, .remove 3]

/-! # Theorems -/

/-! ## Order, heap and representation lemmas -/

theorem olt_none_right (cmp : Comparator K) (a : Option K) : ¬ olt cmp a none := by
  cases a <;> simp [olt]

theorem olt_trans {cmp : Comparator K} (hc : IsStrictTotal cmp) {a b c : Option K}
    (h1 : olt cmp a b) (h2 : olt cmp b c) : olt cmp a c := by
  cases a <;> cases b <;> cases c <;> simp_all [olt]
  exact hc.trans _ _ _ h1 h2

theorem olt_isSome {cmp : Comparator K} {a b : Option K} (h : olt cmp a b) : ∃ y, b = some y := by
  cases b with
  | none => exact absurd h (olt_none_right cmp a)
  | some y => exact ⟨y, rfl⟩

theorem cmp_self {cmp : Comparator K} (hc : IsStrictTotal cmp) (a : K) : cmp a a = 0 :=
  (hc.eq_iff a a).2 rfl

theorem olt_irrefl {cmp : Comparator K} (hc : IsStrictTotal cmp) (a : Option K) :
    ¬ olt cmp a a := by
  cases a with
  | none => simp [olt]
  | some x => simp [olt, cmp_self hc]

theorem rd_lt {h : List (node K V)} {p : Nat} {n : node K V} (e : rd h p = some n) :
    p < h.length := by
  unfold rd at e
  exact (List.getElem?_eq_some.1 e).1

theorem rd_append_left {h : List (node K V)} {p : Nat} (l : List (node K V))
    (hp : p < h.length) : rd (h ++ l) p = rd h p := by
  unfold rd
  exact List.getElem?_append_left hp

theorem rd_append_some {h : List (node K V)} {p : Nat} {n : node K V} (l : List (node K V))
    (e : rd h p = some n) : rd (h ++ l) p = some n := by
  rw [rd_append_left l (rd_lt e)]; exact e

theorem rd_append_new (h : List (node K V)) (x : node K V) : rd (h ++ [x]) h.length = some x := by
  unfold rd
  simp

theorem rd_set (h : List (node K V)) (p q : Nat) (n : node K V) :
    rd (h.set p n) q = if p = q then (if p < h.length then some n else none) else rd h q := by
  unfold rd
  exact List.getElem?_set

theorem rd_set_ne {h : List (node K V)} {p q : Nat} (n : node K V) (hne : p ≠ q) :
    rd (h.set p n) q = rd h q := by
  rw [rd_set, if_neg hne]

theorem rd_set_self {h : List (node K V)} {p : Nat} (n : node K V) (hp : p < h.length) :
    rd (h.set p n) p = some n := by
  rw [rd_set, if_pos rfl, if_pos hp]

theorem wr_eq {h : List (node K V)} {p : Nat} (n : node K V) (hp : p < h.length) :
    wr h p n = some (h.set p n) := by
  unfold wr; rw [if_pos hp]

theorem setRight_eq {h : List (node K V)} {p : Nat} {c : node K V} (x : Option Nat)
    (e : rd h p = some c) : setRight h p x = some (h.set p { c with right := x }) := by
  unfold setRight; rw [e]; exact wr_eq _ (rd_lt e)

theorem setDown_eq {h : List (node K V)} {p : Nat} {c : node K V} (x : Option Nat)
    (e : rd h p = some c) : setDown h p x = some (h.set p { c with down := x }) := by
  unfold setDown; rw [e]; exact wr_eq _ (rd_lt e)

theorem setValue_eq {h : List (node K V)} {p : Nat} {c : node K V} (x : Option V)
    (e : rd h p = some c) : setValue h p x = some (h.set p { c with value := x }) := by
  unfold setValue; rw [e]; exact wr_eq _ (rd_lt e)

theorem firstAddr_append (xs ys : List (Cell K V)) (nxt : Option Nat) :
    firstAddr (xs ++ ys) nxt = firstAddr xs (firstAddr ys nxt) := by
  cases xs <;> rfl

theorem RepSeg_append {h : List (node K V)} (xs ys : List (Cell K V)) (nxt : Option Nat) :
    RepSeg h (xs ++ ys) nxt ↔ RepSeg h xs (firstAddr ys nxt) ∧ RepSeg h ys nxt := by
  induction xs with
  | nil => simp [RepSeg]
  | cons x xs ih =>
    have e : firstAddr (xs ++ ys) nxt = firstAddr xs (firstAddr ys nxt) :=
      firstAddr_append xs ys nxt
    constructor
    · rintro ⟨h1, h2⟩
      have h3 := ih.1 h2
      exact ⟨⟨by rw [← e]; exact h1, h3.1⟩, h3.2⟩
    · rintro ⟨⟨h1, h2⟩, h3⟩
      exact ⟨by rw [← e] at h1; exact h1, ih.2 ⟨h2, h3⟩⟩

theorem RepSeg_frame {h h' : List (node K V)} {cs : List (Cell K V)} {nxt : Option Nat}
    (hf : ∀ c ∈ cs, rd h' c.addr = rd h c.addr) (hr : RepSeg h cs nxt) : RepSeg h' cs nxt := by
  induction cs with
  | nil => trivial
  | cons x xs ih =>
    refine ⟨?_, ih (fun c hc => hf c (List.mem_cons_of_mem _ hc)) hr.2⟩
    rw [hf x (List.mem_cons_self _ _)]; exact hr.1

theorem RepSeg_mem {h : List (node K V)} {cs : List (Cell K V)} {nxt : Option Nat}
    (hr : RepSeg h cs nxt) {c : Cell K V} (hc : c ∈ cs) :
    ∃ r, rd h c.addr = some (c.toNode r) := by
  induction cs with
  | nil => cases hc
  | cons x xs ih =>
    rcases List.mem_cons.1 hc with e | hm
    · subst e; exact ⟨_, hr.1⟩
    · exact ih hr.2 hm

theorem RepSeg_split {h : List (node K V)} {pre post : List (Cell K V)} {c : Cell K V}
    (hr : RepSeg h (pre ++ c :: post) none) :
    rd h c.addr = some (c.toNode (firstAddr post none)) := by
  have := ((RepSeg_append pre (c :: post) none).1 hr).2
  exact this.1

theorem Good.tail {cmp : Comparator K} {h : List (node K V)} {l : List (Cell K V)}
    {g : List (List (Cell K V))} (hg : Good cmp h (l :: g)) : Good cmp h g where
  rep := fun x hx => hg.rep x (List.mem_cons_of_mem _ hx)
  lvl := fun x hx => hg.lvl x (List.mem_cons_of_mem _ hx)
  down := hg.down.tail
  bot := by
    intro x hx
    cases g with
    | nil => simp at hx
    | cons y ys => exact hg.bot x (by rw [List.getLast?_cons_cons]; exact hx)
  nodup := by
    have := hg.nodup
    simp only [addrs, List.flatten_cons, List.map_append] at this
    exact (List.nodup_append.1 this).2.1

theorem Good.valid {cmp : Comparator K} {h : List (node K V)} {g : List (List (Cell K V))}
    (hg : Good cmp h g) {a : Nat} (ha : a ∈ addrs g.flatten) : a < h.length := by
  simp only [addrs, List.mem_map, List.mem_flatten] at ha
  obtain ⟨c, ⟨l, hl, hc⟩, rfl⟩ := ha
  obtain ⟨r, hr⟩ := RepSeg_mem (hg.rep l hl) hc
  exact rd_lt hr

theorem Good.frame {cmp : Comparator K} {h h' : List (node K V)} {g : List (List (Cell K V))}
    (hg : Good cmp h g) (hf : ∀ a ∈ addrs g.flatten, rd h' a = rd h a) : Good cmp h' g where
  rep := by
    intro l hl
    refine RepSeg_frame (fun c hc => hf _ ?_) (hg.rep l hl)
    simp only [addrs, List.mem_map, List.mem_flatten]
    exact ⟨c, ⟨l, hl, hc⟩, rfl⟩
  lvl := hg.lvl
  down := hg.down
  bot := hg.bot
  nodup := hg.nodup

/-- Going down from a cell whose key is below `k` lands on a cell of the next
level with the same property. -/
theorem descend {cmp : Comparator K} (hc : IsStrictTotal cmp) {k : K}
    {pre post : List (Cell K V)} {c : Cell K V} {l2 : List (Cell K V)}
    (hlt : olt cmp c.key (some k))
    (hd : DownOK (pre ++ c :: post) l2) (h2 : LevelOK cmp l2) :
    ∃ pre2 c2 post2, l2 = pre2 ++ c2 :: post2 ∧ c.down = some c2.addr ∧ c2.key = c.key ∧
      (∀ x ∈ pre2 ++ [c2], olt cmp x.key (some k)) := by
  obtain ⟨c2, hm, hdn, hk⟩ := hd c (by simp)
  obtain ⟨s, t, rfl⟩ := List.append_of_mem hm
  refine ⟨s, c2, t, rfl, hdn, hk, ?_⟩
  intro x hx
  rcases List.mem_append.1 hx with hx | hx
  · have := (List.pairwise_append.1 h2.sorted).2.2 x hx c2 (by simp)
    rw [hk] at this
    exact olt_trans hc this hlt
  · simp only [List.mem_singleton] at hx
    subst hx; rw [hk]; exact hlt

/-! ## The two loops of `getLt` -/

theorem cmp_le_trans {cmp : Comparator K} (hc : IsStrictTotal cmp) {a b c : K}
    (h1 : cmp a b ≤ 0) (h2 : cmp b c < 0) : cmp a c < 0 := by
  rcases lt_or_eq_of_le h1 with h | h
  · exact hc.trans _ _ _ h h2
  · rw [(hc.eq_iff a b).1 h]; exact h2

theorem Good.cell {cmp : Comparator K} {h : List (node K V)} {pre post : List (Cell K V)}
    {c : Cell K V} {below : List (List (Cell K V))}
    (hg : Good cmp h ((pre ++ c :: post) :: below)) :
    rd h c.addr = some (c.toNode (firstAddr post none)) :=
  RepSeg_split (hg.rep _ (List.mem_cons_self _ _))

theorem Good.next {cmp : Comparator K} {h : List (node K V)} {pre post : List (Cell K V)}
    {c x : Cell K V} {below : List (List (Cell K V))}
    (hg : Good cmp h ((pre ++ c :: x :: post) :: below)) :
    rd h x.addr = some (x.toNode (firstAddr post none)) ∧ ∃ rk, x.key = some rk := by
  have e : pre ++ c :: x :: post = (pre ++ [c]) ++ x :: post := by simp
  constructor
  · have := hg.rep _ (List.mem_cons_self _ _)
    rw [e] at this
    exact RepSeg_split this
  · have hs := (hg.lvl _ (List.mem_cons_self _ _)).sorted
    have h1 := (List.pairwise_append.1 hs).2.1
    have h2 := (List.pairwise_cons.1 h1).1 x (List.mem_cons_self _ _)
    exact olt_isSome h2

theorem getLtDown_spec {cmp : Comparator K} (hc : IsStrictTotal cmp) (k : K)
    {h : List (node K V)} :
    ∀ (below : List (List (Cell K V))) (post pre : List (Cell K V)) (c : Cell K V) (fuel : Nat),
      Good cmp h ((pre ++ c :: post) :: below) → olt cmp c.key (some k) →
      budget post below ≤ fuel →
      ∃ pre0 c0 post0, ((pre ++ c :: post) :: below).getLast? = some (pre0 ++ c0 :: post0) ∧
        getLtDown cmp k h fuel c.addr = some c0.addr ∧ olt cmp c0.key (some k) := by
  intro below
  induction below with
  | nil =>
    intro post pre c fuel hg hlt hf
    obtain ⟨f, rfl⟩ : ∃ f, fuel = f + 1 := ⟨fuel - 1, by unfold budget at hf; omega⟩
    have hd : c.down = none := hg.bot _ rfl c (by simp)
    refine ⟨pre, c, post, rfl, ?_, hlt⟩
    simp [getLtDown, hg.cell, Cell.toNode, hd]
  | cons l2 below2 ih =>
    have down : ∀ (post pre : List (Cell K V)) (c : Cell K V) (f : Nat),
        Good cmp h ((pre ++ c :: post) :: l2 :: below2) → olt cmp c.key (some k) →
        budget post (l2 :: below2) ≤ f + 1 →
        ∃ c2 : Cell K V, c.down = some c2.addr ∧
        ∃ pre0 c0 post0, ((pre ++ c :: post) :: l2 :: below2).getLast? =
            some (pre0 ++ c0 :: post0) ∧
          getLtDown cmp k h f c2.addr = some c0.addr ∧ olt cmp c0.key (some k) := by
      intro post pre c f hg hlt hf
      obtain ⟨pre2, c2, post2, rfl, hdn, hk, hlt2⟩ :=
        descend hc hlt (List.chain'_cons.1 hg.down).1 (hg.tail.lvl _ (List.mem_cons_self _ _))
      refine ⟨c2, hdn, ?_⟩
      rw [List.getLast?_cons_cons]
      refine ih post2 pre2 c2 f hg.tail (hlt2 c2 (by simp)) ?_
      simp only [budget, List.map_cons, List.sum_cons, List.length_append, List.length_cons] at hf ⊢
      omega
    intro post
    induction post with
    | nil =>
      intro pre c fuel hg hlt hf
      obtain ⟨f, rfl⟩ : ∃ f, fuel = f + 1 := ⟨fuel - 1, by unfold budget at hf; omega⟩
      obtain ⟨c2, hdn, pre0, c0, post0, h1, h2, h3⟩ := down [] pre c f hg hlt hf
      refine ⟨pre0, c0, post0, h1, ?_, h3⟩
      simp [getLtDown, hg.cell, Cell.toNode, hdn, firstAddr, h2]
    | cons x post ihp =>
      intro pre c fuel hg hlt hf
      obtain ⟨f, rfl⟩ : ∃ f, fuel = f + 1 := ⟨fuel - 1, by unfold budget at hf; omega⟩
      obtain ⟨hx, rk, hrk⟩ := hg.next
      by_cases hle : cmp k rk ≤ 0
      · obtain ⟨c2, hdn, pre0, c0, post0, h1, h2, h3⟩ := down (x :: post) pre c f hg hlt hf
        refine ⟨pre0, c0, post0, h1, ?_, h3⟩
        simp [getLtDown, hg.cell, Cell.toNode, hdn, firstAddr, hx, hrk, hle, h2]
      · have e : pre ++ c :: x :: post = (pre ++ [c]) ++ x :: post := by simp
        have hlt' : olt cmp x.key (some k) := by
          rw [hrk]; show cmp rk k < 0
          exact (hc.swap rk k).2 (by omega)
        obtain ⟨pre0, c0, post0, h1, h2, h3⟩ := ihp (pre ++ [c]) x f (e ▸ hg) hlt' (by
          simp only [budget, List.length_cons] at hf ⊢; omega)
        refine ⟨pre0, c0, post0, ?_, ?_, h3⟩
        · rw [e]; exact h1
        · simp [getLtDown, hg.cell, Cell.toNode, firstAddr, hx, hrk, hle, h2]
          obtain ⟨c2, hdn, -⟩ := down (x :: post) pre c f hg hlt hf
          simp [hdn]

theorem getLtRight_spec {cmp : Comparator K} (hc : IsStrictTotal cmp) (k : K)
    {h : List (node K V)} :
    ∀ (post pre : List (Cell K V)) (c : Cell K V) (fuel : Nat),
      RepSeg h (pre ++ c :: post) none → LevelOK cmp (pre ++ c :: post) →
      olt cmp c.key (some k) → post.length + 1 ≤ fuel →
      ∃ pre1 c1 post1, pre ++ c :: post = pre1 ++ c1 :: post1 ∧
        getLtRight cmp k h fuel c.addr = some c1.addr ∧ olt cmp c1.key (some k) ∧
        ∀ x ∈ post1, ∃ y, x.key = some y ∧ cmp k y ≤ 0 := by
  intro post
  induction post with
  | nil =>
    intro pre c fuel hr hl hlt hf
    obtain ⟨f, rfl⟩ : ∃ f, fuel = f + 1 := ⟨fuel - 1, by omega⟩
    refine ⟨pre, c, [], rfl, ?_, hlt, by simp⟩
    simp [getLtRight, RepSeg_split hr, Cell.toNode, firstAddr]
  | cons x post ihp =>
    intro pre c fuel hr hl hlt hf
    obtain ⟨f, rfl⟩ : ∃ f, fuel = f + 1 := ⟨fuel - 1, by omega⟩
    have e : pre ++ c :: x :: post = (pre ++ [c]) ++ x :: post := by simp
    have hx : rd h x.addr = some (x.toNode (firstAddr post none)) := by
      rw [e] at hr; exact RepSeg_split hr
    have hs2 : List.Pairwise (fun a b => olt cmp a.key b.key) (x :: post) := by
      have := hl.sorted; rw [e] at this
      exact (List.pairwise_append.1 this).2.1
    obtain ⟨rk, hrk⟩ : ∃ rk, x.key = some rk := by
      have h1 := (List.pairwise_append.1 hl.sorted).2.1
      exact olt_isSome ((List.pairwise_cons.1 h1).1 x (List.mem_cons_self _ _))
    by_cases hle : cmp k rk ≤ 0
    · refine ⟨pre, c, x :: post, rfl, ?_, hlt, ?_⟩
      · simp [getLtRight, RepSeg_split hr, Cell.toNode, firstAddr, hx, hrk, hle]
      · intro y hy
        rcases List.mem_cons.1 hy with rfl | hy
        · exact ⟨rk, hrk, hle⟩
        · have h3 := (List.pairwise_cons.1 hs2).1 y hy
          obtain ⟨z, hz⟩ := olt_isSome h3
          refine ⟨z, hz, ?_⟩
          rw [hrk, hz] at h3
          exact le_of_lt (cmp_le_trans hc hle h3)
    · have hlt' : olt cmp x.key (some k) := by
        rw [hrk]; show cmp rk k < 0
        exact (hc.swap rk k).2 (by omega)
      obtain ⟨pre1, c1, post1, h1, h2, h3, h4⟩ :=
        ihp (pre ++ [c]) x f (e ▸ hr) (e ▸ hl) hlt' (by simp only [List.length_cons] at hf; omega)
      refine ⟨pre1, c1, post1, by rw [e]; exact h1, ?_, h3, h4⟩
      simp [getLtRight, RepSeg_split hr, Cell.toNode, firstAddr, hx, hrk, hle, h2]

/-! ## Removing the cells of a key -/

theorem bottom_cons_cons (a b : List (Cell K V)) (g : List (List (Cell K V))) :
    bottom (a :: b :: g) = bottom (b :: g) := by
  unfold bottom; rw [List.getLast?_cons_cons]

theorem bottom_single (a : List (Cell K V)) : bottom [a] = a := rfl

theorem isOther_iff {cmp : Comparator K} (hc : IsStrictTotal cmp) (k : K) (c : Cell K V) :
    isOther cmp k c = true ↔ c.key ≠ some k := by
  unfold isOther
  cases hk : c.key with
  | none => simp
  | some y =>
    simp only [ne_eq, decide_not, Bool.not_eq_eq_eq_not, Bool.not_true, decide_eq_false_iff_not,
      Option.some.injEq]
    rw [hc.eq_iff]; exact ⟨fun h e => h e.symm, fun h e => h e.symm⟩

theorem isOther_of_lt {cmp : Comparator K} (hc : IsStrictTotal cmp) {k : K} {c : Cell K V}
    (h : olt cmp c.key (some k)) : isOther cmp k c = true := by
  rw [isOther_iff hc]; intro e; rw [e] at h; exact olt_irrefl hc _ h

theorem isOther_of_gt {cmp : Comparator K} (hc : IsStrictTotal cmp) {k : K} {c : Cell K V}
    (h : olt cmp (some k) c.key) : isOther cmp k c = true := by
  rw [isOther_iff hc]; intro e; rw [e] at h; exact olt_irrefl hc _ h

theorem others_eq_self {cmp : Comparator K} {k : K} {l : List (Cell K V)}
    (h : ∀ c ∈ l, isOther cmp k c = true) : others cmp k l = l :=
  List.filter_eq_self.2 h

theorem others_append (cmp : Comparator K) (k : K) (a b : List (Cell K V)) :
    others cmp k (a ++ b) = others cmp k a ++ others cmp k b :=
  List.filter_append a b

theorem others_sublist (cmp : Comparator K) (k : K) (l : List (Cell K V)) :
    List.Sublist (others cmp k l) l := List.filter_sublist l

theorem mem_others {cmp : Comparator K} {k : K} {l : List (Cell K V)} {c : Cell K V} :
    c ∈ others cmp k l ↔ c ∈ l ∧ isOther cmp k c = true := List.mem_filter

/-- In a sorted level split at a cell below `k`, everything up to that cell is
kept by `others`. -/
theorem others_split {cmp : Comparator K} (hc : IsStrictTotal cmp) {k : K}
    {pre post : List (Cell K V)} {c : Cell K V}
    (hs : (pre ++ c :: post).Pairwise fun a b => olt cmp a.key b.key)
    (hlt : olt cmp c.key (some k)) :
    others cmp k (pre ++ c :: post) = pre ++ c :: others cmp k post := by
  have h1 : others cmp k pre = pre := by
    apply others_eq_self
    intro x hx
    exact isOther_of_lt hc
      (olt_trans hc ((List.pairwise_append.1 hs).2.2 x hx c (List.mem_cons_self _ _)) hlt)
  rw [others_append, h1]
  show pre ++ List.filter _ (c :: post) = _
  rw [List.filter_cons_of_pos (isOther_of_lt hc hlt)]
  rfl

theorem sorted_tail_gt {cmp : Comparator K} (hc : IsStrictTotal cmp) {k rk : K}
    {x : Cell K V} {post : List (Cell K V)}
    (hs : (x :: post).Pairwise fun a b => olt cmp a.key b.key) (hx : x.key = some rk)
    (hle : cmp k rk ≤ 0) : ∀ y ∈ post, olt cmp (some k) y.key := by
  intro y hy
  have h3 := (List.pairwise_cons.1 hs).1 y hy
  obtain ⟨z, hz⟩ := olt_isSome h3
  rw [hx, hz] at h3
  rw [hz]
  exact cmp_le_trans hc hle h3

theorem others_post_gt {cmp : Comparator K} (hc : IsStrictTotal cmp) {k rk : K}
    {x : Cell K V} {post : List (Cell K V)}
    (hs : (x :: post).Pairwise fun a b => olt cmp a.key b.key) (hx : x.key = some rk)
    (hlt : cmp k rk < 0) : others cmp k (x :: post) = x :: post := by
  apply others_eq_self
  intro y hy
  rcases List.mem_cons.1 hy with rfl | hy
  · apply isOther_of_gt hc; rw [hx]; exact hlt
  · exact isOther_of_gt hc (sorted_tail_gt hc hs hx (le_of_lt hlt) y hy)

theorem others_post_eq {cmp : Comparator K} (hc : IsStrictTotal cmp) {k rk : K}
    {x : Cell K V} {post : List (Cell K V)}
    (hs : (x :: post).Pairwise fun a b => olt cmp a.key b.key) (hx : x.key = some rk)
    (he : cmp k rk = 0) : others cmp k (x :: post) = post := by
  have h1 : isOther cmp k x = false := by
    unfold isOther; rw [hx]; simp [he]
  show List.filter _ (x :: post) = _
  rw [List.filter_cons_of_neg (by simp [h1])]
  apply others_eq_self
  intro y hy
  exact isOther_of_gt hc (sorted_tail_gt hc hs hx (le_of_eq he) y hy)

theorem LevelOK.others_level {cmp : Comparator K} {k : K} {l : List (Cell K V)}
    (h : LevelOK cmp l) : LevelOK cmp (others cmp k l) where
  sorted := h.sorted.sublist (others_sublist cmp k l)
  hdr := by
    obtain ⟨hd, tl, rfl, hk⟩ := h.hdr
    refine ⟨hd, Skiplist.others cmp k tl, ?_, hk⟩
    show List.filter _ (hd :: tl) = _
    rw [List.filter_cons_of_pos (by unfold isOther; rw [hk])]
    rfl
  val := fun c hc => h.val c (mem_others.1 hc).1

theorem DownOK.others_down {cmp : Comparator K} {k : K} {u l : List (Cell K V)}
    (h : DownOK u l) : DownOK (others cmp k u) (others cmp k l) := by
  intro c hc
  obtain ⟨hcu, hco⟩ := mem_others.1 hc
  obtain ⟨c', hc', hd, hk⟩ := h c hcu
  refine ⟨c', mem_others.2 ⟨hc', ?_⟩, hd, hk⟩
  unfold isOther at hco ⊢
  rw [hk]; exact hco

theorem flatten_map_sublist (f : List (Cell K V) → List (Cell K V))
    (hf : ∀ l, List.Sublist (f l) l) :
    ∀ g : List (List (Cell K V)), List.Sublist (g.map f).flatten g.flatten
  | [] => List.Sublist.refl _
  | l :: g => by
    simp only [List.map_cons, List.flatten_cons]
    exact List.Sublist.append (hf l) (flatten_map_sublist f hf g)

theorem bottom_map_others (cmp : Comparator K) (k : K) :
    ∀ g : List (List (Cell K V)), bottom (g.map (others cmp k)) = others cmp k (bottom g)
  | [] => rfl
  | [a] => rfl
  | a :: b :: g => by
    rw [List.map_cons, List.map_cons, bottom_cons_cons, bottom_cons_cons, ← List.map_cons]
    exact bottom_map_others cmp k (b :: g)

theorem Good.bottom_down {cmp : Comparator K} {h : List (node K V)}
    {g : List (List (Cell K V))} (hg : Good cmp h g) : ∀ c ∈ bottom g, c.down = none := by
  intro c hc
  unfold bottom at hc
  cases e : g.getLast? with
  | none => rw [e] at hc; simp at hc
  | some l => rw [e] at hc; exact hg.bot l e c hc

/-- Removing the cells of one key from every level of a skip list leaves a skip
list, provided the heap represents the pruned levels. -/
theorem Good.others {cmp : Comparator K} {k : K} {h h' : List (node K V)}
    {g : List (List (Cell K V))} (hg : Good cmp h g)
    (hr : ∀ l ∈ g, RepSeg h' (others cmp k l) none) :
    Good cmp h' (g.map (others cmp k)) where
  rep := by
    intro l hl
    obtain ⟨l0, h0, rfl⟩ := List.mem_map.1 hl
    exact hr l0 h0
  lvl := by
    intro l hl
    obtain ⟨l0, h0, rfl⟩ := List.mem_map.1 hl
    exact (hg.lvl l0 h0).others_level
  down := by
    rw [List.chain'_map]
    exact hg.down.imp fun {a b} hd => DownOK.others_down hd
  bot := by
    intro l hl c hc
    have e : l = bottom (g.map (Skiplist.others cmp k)) := by unfold bottom; rw [hl]; rfl
    rw [e, bottom_map_others] at hc
    exact hg.bottom_down c (mem_others.1 hc).1
  nodup := by
    refine List.Nodup.sublist ?_ hg.nodup
    exact List.Sublist.map _ (flatten_map_sublist _ (others_sublist cmp k) g)

/-- Every key of a level of a skip list occurs on its bottom level. -/
theorem Good.key_in_bottom {cmp : Comparator K} {h : List (node K V)} :
    ∀ {g : List (List (Cell K V))} {l : List (Cell K V)}, Good cmp h (l :: g) →
      ∀ c ∈ l, ∃ c' ∈ bottom (l :: g), c'.key = c.key
  | [], l, _, c, hc => ⟨c, hc, rfl⟩
  | l2 :: g, l, hg, c, hc => by
    obtain ⟨c2, hc2, -, hk⟩ := (List.chain'_cons.1 hg.down).1 c hc
    obtain ⟨c', hc', hk'⟩ := Good.key_in_bottom hg.tail c2 hc2
    exact ⟨c', by rw [bottom_cons_cons]; exact hc', hk'.trans hk⟩

/-- Addresses of different levels, and of different cells of one level, differ. -/
theorem Good.addr_not_below {cmp : Comparator K} {h : List (node K V)}
    {l : List (Cell K V)} {g : List (List (Cell K V))} (hg : Good cmp h (l :: g))
    {c : Cell K V} (hc : c ∈ l) : c.addr ∉ addrs g.flatten := by
  have := hg.nodup
  simp only [addrs, List.flatten_cons, List.map_append] at this
  intro hm
  exact (List.nodup_append.1 this).2.2 (List.mem_map_of_mem _ hc) hm

theorem Good.addr_split {cmp : Comparator K} {h : List (node K V)}
    {pre post : List (Cell K V)} {c : Cell K V} {g : List (List (Cell K V))}
    (hg : Good cmp h ((pre ++ c :: post) :: g)) :
    c.addr ∉ addrs pre ∧ c.addr ∉ addrs post ∧ (addrs pre).Disjoint (addrs post) ∧
      (addrs pre).Nodup ∧ (addrs post).Nodup := by
  have := hg.nodup
  simp only [addrs, List.flatten_cons, List.map_append, List.map_cons] at this
  have h1 := (List.nodup_append.1 this).1
  obtain ⟨h2, h3, h4⟩ := List.nodup_append.1 h1
  obtain ⟨h5, h6⟩ := List.nodup_cons.1 h3
  refine ⟨?_, h5, ?_, h2, h6⟩
  · intro hm; exact h4 hm (List.mem_cons_self _ _)
  · intro a ha hb; exact h4 ha (List.mem_cons_of_mem _ hb)

/-! ## The loop of `Remove` -/

theorem mem_flatten_addrs {l : List (Cell K V)} {g : List (List (Cell K V))} {c : Cell K V}
    (hl : l ∈ g) (hc : c ∈ l) : c.addr ∈ addrs g.flatten := by
  simp only [addrs, List.mem_map, List.mem_flatten]
  exact ⟨c, ⟨l, hl, hc⟩, rfl⟩

theorem rem_down {cmp : Comparator K} (hc : IsStrictTotal cmp) (k : K)
    {below : List (List (Cell K V))}
    (hIH : ∀ l2 below2, below = l2 :: below2 → RemSpec cmp k V below2)
    {pre post : List (Cell K V)} {c : Cell K V} {h h1 : List (node K V)}
    {found found1 : Bool} {fv fv1 : V} {f : Nat}
    (hg : Good cmp h ((pre ++ c :: post) :: below)) (hlt : olt cmp c.key (some k))
    (hf : (below.map List.length).sum ≤ f)
    (h1f : ∀ a, a ≠ c.addr → rd h1 a = rd h a)
    (h1l : h1.length = h.length)
    (h1r : RepSeg h1 (others cmp k (pre ++ c :: post)) none)
    (hA : below = [] → ∀ c' ∈ pre ++ c :: post, c'.key = some k →
      found1 = true ∧ c'.value = some fv1)
    (hB : (∀ c' ∈ bottom ((pre ++ c :: post) :: below), c'.key ≠ some k) →
      found1 = found ∧ fv1 = fv) :
    RemPost cmp k h ((pre ++ c :: post) :: below) found fv
      (RemoveLoop cmp k f h1 c.down ((below.length : Int) - 1) found1 fv1) := by
  have hcm : c ∈ pre ++ c :: post := by simp
  cases below with
  | nil =>
    refine ⟨h1, found1, fv1, ?_, ?_, ?_, h1l, ?_, hB⟩
    · cases f <;> simp [RemoveLoop]
    · intro l hl
      rw [List.mem_singleton.1 hl]; exact h1r
    · intro a ha
      apply h1f
      rintro rfl
      exact ha (mem_flatten_addrs (List.mem_cons_self _ _) hcm)
    · exact hA rfl
  | cons l2 below2 =>
    obtain ⟨pre2, c2, post2, rfl, hdn, hk, hlt2⟩ :=
      descend hc hlt (List.chain'_cons.1 hg.down).1 (hg.tail.lvl _ (List.mem_cons_self _ _))
    have hg1 : Good cmp h1 ((pre2 ++ c2 :: post2) :: below2) := by
      refine hg.tail.frame fun a ha => h1f a ?_
      rintro rfl
      exact hg.addr_not_below hcm ha
    have hb : budget post2 below2 ≤ f := by
      simp only [budget, List.map_cons, List.sum_cons, List.length_append, List.length_cons]
        at hf ⊢
      omega
    obtain ⟨h', found', fv', hres, hrep, hfr, hlen, hA', hB'⟩ :=
      hIH _ _ rfl post2 pre2 c2 h1 f found1 fv1 hg1 (hlt2 c2 (by simp)) hb
    refine ⟨h', found', fv', ?_, ?_, ?_, hlen.trans h1l, ?_, ?_⟩
    · rw [hdn]
      have : ((((pre2 ++ c2 :: post2) :: below2).length : Int) - 1) = (below2.length : Int) := by
        simp
      rw [this]; exact hres
    · intro l hl
      rcases List.mem_cons.1 hl with rfl | hl
      · refine RepSeg_frame (fun x hx => ?_) h1r
        exact hfr _ (hg.addr_not_below (mem_others.1 hx).1)
      · exact hrep l hl
    · intro a ha
      have h2 : a ∉ addrs ((pre2 ++ c2 :: post2) :: below2).flatten := by
        intro hm; apply ha
        simp only [addrs, List.flatten_cons, List.map_append, List.mem_append] at hm ⊢
        exact Or.inr hm
      rw [hfr a h2]
      apply h1f
      rintro rfl
      exact ha (mem_flatten_addrs (List.mem_cons_self _ _) hcm)
    · rw [bottom_cons_cons]; exact hA'
    · intro hno
      have h3 := hB' (by rw [bottom_cons_cons] at hno; exact hno)
      have h4 := hB hno
      exact ⟨h3.1.trans h4.1, h3.2.trans h4.2⟩

theorem not_key_of_mem_others {cmp : Comparator K} (hc : IsStrictTotal cmp) {k : K}
    {l : List (Cell K V)} {c : Cell K V} (hm : c ∈ others cmp k l) : c.key ≠ some k :=
  (isOther_iff hc k c).1 (mem_others.1 hm).2

theorem rem_level {cmp : Comparator K} (hc : IsStrictTotal cmp) (k : K)
    (below : List (List (Cell K V)))
    (hIH : ∀ l2 below2, below = l2 :: below2 → RemSpec cmp k V below2) :
    RemSpec cmp k V below := by
  intro post
  induction post with
  | nil =>
    intro pre c h fuel found fv hg hlt hf
    obtain ⟨f, rfl⟩ : ∃ f, fuel = f + 1 := ⟨fuel - 1, by unfold budget at hf; omega⟩
    have hs := (hg.lvl _ (List.mem_cons_self _ _)).sorted
    have ho : others cmp k (pre ++ [c]) = pre ++ [c] := by
      rw [others_split hc hs hlt]; rfl
    have hstep : RemoveLoop cmp k (f + 1) h (some c.addr) (below.length : Int) found fv =
        RemoveLoop cmp k f h c.down ((below.length : Int) - 1) found fv := by
      have hn : ¬ ((below.length : Int) < 0) := by omega
      simp [RemoveLoop, hn, hg.cell, Cell.toNode, firstAddr]
    rw [hstep]
    refine rem_down hc k hIH hg hlt (by unfold budget at hf; simp at hf; omega)
      (fun _ _ => rfl) rfl (by rw [ho]; exact hg.rep _ (List.mem_cons_self _ _)) ?_
      (fun _ => ⟨rfl, rfl⟩)
    intro _ c' hc' hk'
    rw [← ho] at hc'
    exact absurd hk' (not_key_of_mem_others hc hc')
  | cons x post ihp =>
    intro pre c h fuel found fv hg hlt hf
    obtain ⟨f, rfl⟩ : ∃ f, fuel = f + 1 := ⟨fuel - 1, by unfold budget at hf; omega⟩
    have hs := (hg.lvl _ (List.mem_cons_self _ _)).sorted
    have hs2 : List.Pairwise (fun a b => olt cmp a.key b.key) (x :: post) :=
      (List.pairwise_cons.1 (List.pairwise_append.1 hs).2.1).2
    obtain ⟨hx, rk, hrk⟩ := hg.next
    have hn : ¬ ((below.length : Int) < 0) := by omega
    have hfb : (below.map List.length).sum ≤ f := by
      simp only [budget, List.length_cons] at hf; omega
    have e : pre ++ c :: x :: post = (pre ++ [c]) ++ x :: post := by simp
    by_cases hgt : cmp k rk > 0
    · have hlt' : olt cmp x.key (some k) := by
        rw [hrk]; exact (hc.swap rk k).2 hgt
      have hstep : RemoveLoop cmp k (f + 1) h (some c.addr) (below.length : Int) found fv =
          RemoveLoop cmp k f h (some x.addr) (below.length : Int) found fv := by
        simp [RemoveLoop, hn, hg.cell, Cell.toNode, firstAddr, hx, hrk, hgt]
      rw [hstep, e]
      exact ihp (pre ++ [c]) x h f found fv (e ▸ hg) hlt'
        (by simp only [budget, List.length_cons] at hf ⊢; omega)
    · by_cases hlt2 : cmp k rk < 0
      · have ho : others cmp k (pre ++ c :: x :: post) = pre ++ c :: x :: post := by
          rw [others_split hc hs hlt, others_post_gt hc hs2 hrk hlt2]
        have hstep : RemoveLoop cmp k (f + 1) h (some c.addr) (below.length : Int) found fv =
            RemoveLoop cmp k f h c.down ((below.length : Int) - 1) found fv := by
          simp [RemoveLoop, hn, hg.cell, Cell.toNode, firstAddr, hx, hrk, hgt, hlt2]
        rw [hstep]
        refine rem_down hc k hIH hg hlt hfb (fun _ _ => rfl) rfl
          (by rw [ho]; exact hg.rep _ (List.mem_cons_self _ _)) ?_ (fun _ => ⟨rfl, rfl⟩)
        intro _ c' hc' hk'
        rw [← ho] at hc'
        exact absurd hk' (not_key_of_mem_others hc hc')
      · have he : cmp k rk = 0 := by omega
        have hkk : rk = k := ((hc.eq_iff k rk).1 he).symm
        have ho : others cmp k (pre ++ c :: x :: post) = pre ++ c :: post := by
          rw [others_split hc hs hlt, others_post_eq hc hs2 hrk he]
        obtain ⟨xv, hxv⟩ : ∃ xv, x.value = some xv := by
          have := (hg.lvl _ (List.mem_cons_self _ _)).val x (by simp) (by rw [hrk]; simp)
          exact Option.ne_none_iff_exists'.1 this
        have hcl := rd_lt hg.cell
        have hstep : RemoveLoop cmp k (f + 1) h (some c.addr) (below.length : Int) found fv =
            RemoveLoop cmp k f (h.set c.addr (c.toNode (firstAddr post none))) c.down
              ((below.length : Int) - 1) true xv := by
          simp [RemoveLoop, hn, hg.cell, Cell.toNode, firstAddr, hx, hrk, hgt, hlt2, hxv,
            setRight_eq _ hg.cell, rd_set_self _ hcl]
        rw [hstep]
        obtain ⟨hn1, hn2, -, -, -⟩ := hg.addr_split
        have hrl := hg.rep _ (List.mem_cons_self _ _)
        refine rem_down hc k hIH hg hlt hfb (fun a ha => rd_set_ne _ (Ne.symm ha))
          (List.length_set _ _ _) ?_ ?_ ?_
        · rw [ho, RepSeg_append]
          rw [RepSeg_append] at hrl
          refine ⟨RepSeg_frame (fun y hy => rd_set_ne _ ?_) hrl.1, ?_, ?_⟩
          · rintro e2
            exact hn1 (e2 ▸ List.mem_map_of_mem _ hy)
          · exact rd_set_self _ hcl
          · refine RepSeg_frame (fun y hy => rd_set_ne _ ?_) hrl.2.2.2
            rintro e2
            exact hn2 (e2 ▸ List.mem_map_of_mem _ (List.mem_cons_of_mem _ hy))
        · intro _ c' hc' hk'
          have hnot : c' ∉ others cmp k (pre ++ c :: x :: post) :=
            fun hm => not_key_of_mem_others hc hm hk'
          rw [ho] at hnot
          have : c' = x := by
            simp only [List.mem_append, List.mem_cons] at hc' hnot
            tauto
          rw [this]; exact ⟨rfl, hxv⟩
        · intro hno
          obtain ⟨c', hc', hk'⟩ := hg.key_in_bottom x (by simp)
          exact absurd (hk'.trans (hrk.trans (by rw [hkk]))) (hno c' hc')

theorem rem_spec {cmp : Comparator K} (hc : IsStrictTotal cmp) (k : K) :
    ∀ below : List (List (Cell K V)), RemSpec cmp k V below
  | [] => rem_level hc k [] (fun _ _ e => by cases e)
  | l2 :: below2 => rem_level hc k (l2 :: below2) (fun _ _ e => by
      cases e; exact rem_spec hc k below2)

/-! ## The pure model of `Add` -/

theorem kvs_append (a b : List (Cell K V)) : kvs (a ++ b) = kvs a ++ kvs b :=
  List.filterMap_append a b _

theorem kvs_cons_some {c : Cell K V} {y : K} {w : V} (hk : c.key = some y)
    (hv : c.value = some w) (l : List (Cell K V)) : kvs (c :: l) = (y, w) :: kvs l := by
  unfold kvs
  rw [List.filterMap_cons_some]
  simp [hk, hv]

theorem kvs_cons_none {c : Cell K V} (hk : c.key = none) (l : List (Cell K V)) :
    kvs (c :: l) = kvs l := by
  unfold kvs
  rw [List.filterMap_cons_none]
  simp [hk]

theorem mem_kvs {l : List (Cell K V)} {p : K × V} :
    p ∈ kvs l ↔ ∃ c ∈ l, c.key = some p.1 ∧ c.value = some p.2 := by
  unfold kvs
  rw [List.mem_filterMap]
  constructor
  · rintro ⟨c, hc, he⟩
    refine ⟨c, hc, ?_⟩
    cases hk : c.key <;> cases hv : c.value <;> simp [hk, hv] at he
    subst he; exact ⟨rfl, rfl⟩
  · rintro ⟨c, hc, hk, hv⟩
    exact ⟨c, hc, by simp [hk, hv]⟩

/-- Keys of the entries of a run of cells all of which are below `k`. -/
theorem kvs_lt {cmp : Comparator K} {k : K} {l : List (Cell K V)}
    (h : ∀ c ∈ l, olt cmp c.key (some k)) : ∀ p ∈ kvs l, cmp p.1 k < 0 := by
  intro p hp
  obtain ⟨c, hc, hk, -⟩ := mem_kvs.1 hp
  have := h c hc
  rw [hk] at this; exact this

theorem kvs_gt {cmp : Comparator K} {k : K} {l : List (Cell K V)}
    (h : ∀ c ∈ l, olt cmp (some k) c.key) : ∀ p ∈ kvs l, cmp k p.1 < 0 := by
  intro p hp
  obtain ⟨c, hc, hk, -⟩ := mem_kvs.1 hp
  have := h c hc
  rw [hk] at this; exact this

theorem hasKey_append (cmp : Comparator K) (k : K) (a b : List (K × V)) :
    hasKey cmp k (a ++ b) = (hasKey cmp k a || hasKey cmp k b) := by
  unfold hasKey; exact List.any_append

theorem hasKey_of_lt {cmp : Comparator K} (hc : IsStrictTotal cmp) {k : K} {a : List (K × V)}
    (h : ∀ p ∈ a, cmp p.1 k < 0) : hasKey cmp k a = false := by
  unfold hasKey
  rw [List.any_eq_false]
  intro p hp
  have := (hc.swap _ _).1 (h p hp)
  simp; omega

theorem hasKey_of_gt {cmp : Comparator K} {k : K} {a : List (K × V)}
    (h : ∀ p ∈ a, cmp k p.1 < 0) : hasKey cmp k a = false := by
  unfold hasKey
  rw [List.any_eq_false]
  intro p hp
  have := h p hp
  simp; omega

theorem del_append (cmp : Comparator K) (k : K) (a b : List (K × V)) :
    del cmp k (a ++ b) = del cmp k a ++ del cmp k b := List.filter_append a b

theorem del_of_lt {cmp : Comparator K} (hc : IsStrictTotal cmp) {k : K} {a : List (K × V)}
    (h : ∀ p ∈ a, cmp p.1 k < 0) : del cmp k a = a := by
  unfold del
  rw [List.filter_eq_self]
  intro p hp
  have := (hc.swap _ _).1 (h p hp)
  simp; omega

theorem del_of_gt {cmp : Comparator K} {k : K} {a : List (K × V)}
    (h : ∀ p ∈ a, cmp k p.1 < 0) : del cmp k a = a := by
  unfold del
  rw [List.filter_eq_self]
  intro p hp
  have := h p hp
  simp; omega

theorem ins_append_lt {cmp : Comparator K} (hc : IsStrictTotal cmp) {k : K} (v : V) :
    ∀ {a : List (K × V)} (b : List (K × V)), (∀ p ∈ a, cmp p.1 k < 0) →
      ins cmp k v (a ++ b) = a ++ ins cmp k v b
  | [], _, _ => rfl
  | p :: a, b, h => by
    have h1 := (hc.swap _ _).1 (h p (List.mem_cons_self _ _))
    have h2 : ¬ cmp k p.1 < 0 := by omega
    show ins cmp k v (p :: (a ++ b)) = p :: (a ++ ins cmp k v b)
    rw [ins, if_neg h2, if_pos h1,
      ins_append_lt hc v b (fun q hq => h q (List.mem_cons_of_mem _ hq))]

theorem ins_of_gt {cmp : Comparator K} {k : K} (v : V) {a : List (K × V)}
    (h : ∀ p ∈ a, cmp k p.1 < 0) : ins cmp k v a = (k, v) :: a := by
  cases a with
  | nil => rfl
  | cons p a => rw [ins, if_pos (h p (List.mem_cons_self _ _))]

/-- Entries below `k` in front of the first level pass through `addG`. -/
theorem addG_prepend {cmp : Comparator K} (hc : IsStrictTotal cmp) (k : K) (v : V) (nl : Int)
    {a : List (K × V)} (ha : ∀ p ∈ a, cmp p.1 k < 0) (cl : Int) (l : List (K × V))
    (rest : List (List (K × V))) :
    addG cmp k v nl cl ((a ++ l) :: rest) = prepend a (addG cmp k v nl cl (l :: rest)) := by
  have e1 : hasKey cmp k (a ++ l) = hasKey cmp k l := by
    rw [hasKey_append, hasKey_of_lt hc ha]; rfl
  have e2 : del cmp k (a ++ l) = a ++ del cmp k l := by
    rw [del_append, del_of_lt hc ha]
  have e3 : ins cmp k v (a ++ l) = a ++ ins cmp k v l := ins_append_lt hc v l ha
  simp only [addG, e1, e2, e3]
  split_ifs <;> rfl

/-! ## The loop of `Add`: assembling a level -/

theorem addrs_cons_flatten (l : List (Cell K V)) (g : List (List (Cell K V))) :
    addrs (l :: g).flatten = addrs l ++ addrs g.flatten := by
  simp [addrs]

theorem mem_addrs {l : List (Cell K V)} {c : Cell K V} (hc : c ∈ l) : c.addr ∈ addrs l :=
  List.mem_map_of_mem _ hc

theorem Good.valid_top {cmp : Comparator K} {h : List (node K V)} {l : List (Cell K V)}
    {g : List (List (Cell K V))} (hg : Good cmp h (l :: g)) {a : Nat} (ha : a ∈ addrs l) :
    a < h.length :=
  hg.valid (by rw [addrs_cons_flatten]; exact List.mem_append_left _ ha)

theorem Good.valid_below {cmp : Comparator K} {h : List (node K V)} {l : List (Cell K V)}
    {g : List (List (Cell K V))} (hg : Good cmp h (l :: g)) {a : Nat}
    (ha : a ∈ addrs g.flatten) : a < h.length :=
  hg.valid (by rw [addrs_cons_flatten]; exact List.mem_append_right _ ha)

theorem Good.disjoint_top {cmp : Comparator K} {h : List (node K V)} {l : List (Cell K V)}
    {g : List (List (Cell K V))} (hg : Good cmp h (l :: g)) {a : Nat} (ha : a ∈ addrs l)
    (hb : a ∈ addrs g.flatten) : False := by
  have := hg.nodup
  rw [addrs_cons_flatten] at this
  exact (List.nodup_append.1 this).2.2 ha hb

/-- The `down` pointers of a rebuilt upper level fit a rebuilt lower level. -/
theorem downOK_transfer {cmp : Comparator K} (hc : IsStrictTotal cmp) {k : K}
    {l l1 l2 l2' : List (Cell K V)} (hd : DownOK l l2)
    (ho : others cmp k l2' = others cmp k l2)
    (h1 : ∀ y ∈ l1, y.key ≠ some k → y ∈ l)
    (h2 : ∀ y ∈ l1, y.key = some k → ∃ c' ∈ l2', y.down = some c'.addr ∧ c'.key = y.key) :
    DownOK l1 l2' := by
  intro y hy
  by_cases hk : y.key = some k
  · exact h2 y hy hk
  · obtain ⟨c', hc', hdn, hkk⟩ := hd y (h1 y hy hk)
    refine ⟨c', ?_, hdn, hkk⟩
    have : c' ∈ others cmp k l2 := mem_others.2 ⟨hc', (isOther_iff hc k c').2 (by rw [hkk]; exact hk)⟩
    rw [← ho] at this
    exact (mem_others.1 this).1

/-- Addresses stay distinct when a level and the levels below it are rebuilt
with old or freshly allocated cells. -/
theorem nodup_assemble {cmp : Comparator K} {h : List (node K V)} {l l1 : List (Cell K V)}
    {g g' : List (List (Cell K V))} {n1 : Nat} (hg : Good cmp h (l :: g))
    (hn1 : (addrs l1).Nodup) (hn2 : (addrs g'.flatten).Nodup)
    (ha1 : ∀ a ∈ addrs l1, a ∈ addrs l ∨ (h.length ≤ a ∧ a < n1))
    (ha2 : ∀ a ∈ addrs g'.flatten, a ∈ addrs g.flatten ∨ n1 ≤ a) (hle : h.length ≤ n1) :
    (addrs (l1 :: g').flatten).Nodup := by
  rw [addrs_cons_flatten]
  refine List.nodup_append.2 ⟨hn1, hn2, ?_⟩
  intro a h1 h2
  rcases ha1 a h1 with h3 | h3 <;> rcases ha2 a h2 with h4 | h4
  · exact hg.disjoint_top h3 h4
  · have := hg.valid_top h3; omega
  · have := hg.valid_below h4; omega
  · omega

/-- Sortedness of a level only depends on the keys and values of its cells. -/
theorem LevelOK.congr {cmp : Comparator K} {l l' : List (Cell K V)} (h : LevelOK cmp l)
    (e : l'.map (fun c => (c.key, c.value)) = l.map (fun c => (c.key, c.value))) :
    LevelOK cmp l' := by
  have ek : l'.map Cell.key = l.map Cell.key := by
    have := congrArg (List.map Prod.fst) e
    simpa [List.map_map, Function.comp_def] using this
  refine ⟨?_, ?_, ?_⟩
  · have h1 : (l.map Cell.key).Pairwise (olt cmp) := List.pairwise_map.2 h.sorted
    rw [← ek] at h1
    exact List.pairwise_map.1 h1
  · obtain ⟨hd, tl, rfl, hk⟩ := h.hdr
    cases l' with
    | nil => simp at ek
    | cons a t =>
      refine ⟨a, t, rfl, ?_⟩
      simp only [List.map_cons, List.cons.injEq] at ek
      rw [ek.1]; exact hk
  · intro c hm hk
    have : (c.key, c.value) ∈ l.map (fun c => (c.key, c.value)) := by
      rw [← e]; exact List.mem_map_of_mem _ hm
    obtain ⟨c0, h0, he⟩ := List.mem_map.1 this
    simp only [Prod.mk.injEq] at he
    rw [← he.2]
    exact h.val c0 h0 (by rw [he.1]; exact hk)

/-- A level with a cell for `k` put right after a cell below `k`, in front of
cells above `k`. -/
theorem LevelOK.insert {cmp : Comparator K} (hc : IsStrictTotal cmp) {k : K} {v : V}
    {pre post post1 : List (Cell K V)} {c ck : Cell K V}
    (h : LevelOK cmp (pre ++ c :: post)) (hlt : olt cmp c.key (some k))
    (hck : ck.key = some k) (hckv : ck.value = some v)
    (hsub : List.Sublist post1 post) (hgt : ∀ y ∈ post1, olt cmp (some k) y.key) :
    LevelOK cmp (pre ++ c :: ck :: post1) := by
  obtain ⟨s1, s2, s3⟩ := List.pairwise_append.1 h.sorted
  obtain ⟨s4, s5⟩ := List.pairwise_cons.1 s2
  refine ⟨?_, ?_, ?_⟩
  · refine List.pairwise_append.2 ⟨s1, ?_, ?_⟩
    · refine List.pairwise_cons.2 ⟨?_, List.pairwise_cons.2 ⟨?_, s5.sublist hsub⟩⟩
      · intro y hy
        rcases List.mem_cons.1 hy with rfl | hy
        · rw [hck]; exact hlt
        · exact s4 y (hsub.subset hy)
      · intro y hy; rw [hck]; exact hgt y hy
    · intro a ha b hb
      rcases List.mem_cons.1 hb with rfl | hb
      · exact s3 a ha _ (List.mem_cons_self _ _)
      · rcases List.mem_cons.1 hb with rfl | hb
        · rw [hck]; exact olt_trans hc (s3 a ha c (List.mem_cons_self _ _)) hlt
        · exact s3 a ha b (List.mem_cons_of_mem _ (hsub.subset hb))
  · obtain ⟨hd, tl, e, hk⟩ := h.hdr
    cases pre with
    | nil =>
      simp only [List.nil_append, List.cons.injEq] at e
      exact ⟨c, ck :: post1, rfl, by rw [e.1]; exact hk⟩
    | cons a t =>
      simp only [List.cons_append, List.cons.injEq] at e
      exact ⟨a, t ++ c :: ck :: post1, rfl, by rw [e.1]; exact hk⟩
  · intro y hy hk
    simp only [List.mem_append, List.mem_cons] at hy
    rcases hy with hy | rfl | rfl | hy
    · exact h.val y (by simp [hy]) hk
    · exact h.val y (by simp) hk
    · rw [hckv]; simp
    · exact h.val y (by simp [hsub.subset hy]) hk

/-! ## The loop of `Add`: going down -/

theorem addG_down {cmp : Comparator K} (hc : IsStrictTotal cmp) (k : K) (v : V) (nl cl : Int)
    {pre2 post2 post2' : List (Cell K V)} {c2 : Cell K V}
    {below2 below2' : List (List (Cell K V))}
    (hlt2 : ∀ x ∈ pre2 ++ [c2], olt cmp x.key (some k))
    (hKV : kvs post2' :: below2'.map kvs = addG cmp k v nl cl (kvs post2 :: below2.map kvs)) :
    ((pre2 ++ c2 :: post2') :: below2').map kvs =
      addG cmp k v nl cl (((pre2 ++ c2 :: post2) :: below2).map kvs) := by
  have e : ∀ p : List (Cell K V), pre2 ++ c2 :: p = (pre2 ++ [c2]) ++ p := by intro p; simp
  show kvs (pre2 ++ c2 :: post2') :: below2'.map kvs =
    addG cmp k v nl cl (kvs (pre2 ++ c2 :: post2) :: below2.map kvs)
  rw [e post2', e post2, kvs_append (pre2 ++ [c2]) post2', kvs_append (pre2 ++ [c2]) post2,
    addG_prepend hc k v nl (kvs_lt hlt2), ← hKV]
  rfl

theorem split_keys_lt {cmp : Comparator K} (hc : IsStrictTotal cmp) {k : K}
    {pre post : List (Cell K V)} {c : Cell K V}
    (hs : (pre ++ c :: post).Pairwise fun a b => olt cmp a.key b.key)
    (hlt : olt cmp c.key (some k)) : ∀ x ∈ pre ++ [c], olt cmp x.key (some k) := by
  intro x hx
  rcases List.mem_append.1 hx with hx | hx
  · exact olt_trans hc ((List.pairwise_append.1 hs).2.2 x hx c (List.mem_cons_self _ _)) hlt
  · rw [List.mem_singleton.1 hx]; exact hlt

theorem add_down_skip {cmp : Comparator K} (hc : IsStrictTotal cmp) {k : K} {v : V} {nl : Int}
    (hnl : 0 ≤ nl) {below : List (List (Cell K V))}
    (hIH : ∀ l2 below2, below = l2 :: below2 → AddSpec cmp k v nl below2)
    {pre post : List (Cell K V)} {c : Cell K V} {h h1 : List (node K V)} {cl : Int} {ex : Bool}
    {f : Nat}
    (hg : Good cmp h ((pre ++ c :: post) :: below)) (hlt : olt cmp c.key (some k))
    (hf : (below.map List.length).sum ≤ f)
    (hcl : nl < cl) (hcl2 : cl ≤ (below.length : Int))
    (hgt : ∀ y ∈ post, olt cmp (some k) y.key)
    (h1f : ∀ a, a < h.length → rd h1 a = rd h a) (h1l : h.length ≤ h1.length) :
    AddPost cmp k v nl h pre c post below cl none ex
      (AddLoop cmp k v nl f h1 c.down (cl - 1) none ex) := by
  have hcm : c ∈ pre ++ c :: post := by simp
  have hsL := (hg.lvl _ (List.mem_cons_self _ _)).sorted
  have hnk : ∀ y ∈ pre ++ c :: post, y.key ≠ some k := by
    intro y hy
    rw [← isOther_iff hc]
    have e : pre ++ c :: post = (pre ++ [c]) ++ post := by simp
    rw [e] at hy
    rcases List.mem_append.1 hy with hy | hy
    · exact isOther_of_lt hc (split_keys_lt hc hsL hlt y hy)
    · exact isOther_of_gt hc (hgt y hy)
  cases below with
  | nil => simp at hcl2; omega
  | cons l2 below2 =>
    have hd := (List.chain'_cons.1 hg.down).1
    obtain ⟨pre2, c2, post2, rfl, hdn, hk, hlt2⟩ :=
      descend hc hlt hd (hg.tail.lvl _ (List.mem_cons_self _ _))
    have hg1 : Good cmp h1 ((pre2 ++ c2 :: post2) :: below2) :=
      hg.tail.frame fun a ha => h1f a (hg.valid_below ha)
    have hb : budget post2 below2 ≤ f := by
      simp only [budget, List.map_cons, List.sum_cons, List.length_append, List.length_cons]
        at hf ⊢
      omega
    obtain ⟨h', ex', post2', below2', hres, hG, hO, hKV, -, hFr, hAd, hLen, hA, hB⟩ :=
      hIH _ _ rfl post2 pre2 c2 h1 f (cl - 1) none ex hg1 (hlt2 c2 (by simp)) hb
        (fun _ => ⟨rfl, by simp at hcl2; omega⟩) (fun u hu => by cases hu)
    have hO2 : others cmp k (pre2 ++ c2 :: post2') = others cmp k (pre2 ++ c2 :: post2) := by
      simp only [List.map_cons, List.cons.injEq] at hO; exact hO.1
    refine ⟨h', ex', post, (pre2 ++ c2 :: post2') :: below2', by rw [hdn]; exact hres,
      ⟨?_, ?_, ?_, ?_, ?_⟩, ?_, ?_, ?_, ?_, ?_, ?_, ?_, ?_⟩
    · intro l hl
      rcases List.mem_cons.1 hl with rfl | hl
      · refine RepSeg_frame (fun y hy => ?_) (hg.rep _ (List.mem_cons_self _ _))
        have hv := hg.valid_top (mem_addrs hy)
        rw [hFr y.addr (fun hm => hg.disjoint_top (mem_addrs hy) hm) (by simp) (by omega)]
        exact h1f _ hv
      · exact hG.rep l hl
    · intro l hl
      rcases List.mem_cons.1 hl with rfl | hl
      · exact hg.lvl _ (List.mem_cons_self _ _)
      · exact hG.lvl l hl
    · refine List.chain'_cons.2 ⟨downOK_transfer hc hd hO2 (fun y hy _ => hy) ?_, hG.down⟩
      intro y hy hky
      exact absurd hky (hnk y hy)
    · intro l hl
      rw [List.getLast?_cons_cons] at hl
      exact hG.bot l hl
    · refine nodup_assemble hg ?_ hG.nodup (fun a ha => Or.inl ha) hAd h1l
      have := hg.nodup
      rw [addrs_cons_flatten] at this
      exact (List.nodup_append.1 this).1
    · exact congrArg (List.cons _) hO
    · have e1 : hasKey cmp k (kvs post) = false := hasKey_of_gt (kvs_gt hgt)
      rw [addG_down hc k v nl (cl - 1) hlt2 hKV]
      conv_rhs => rw [addG]
      rw [if_pos hcl]
      simp [e1]
    · intro hle; omega
    · intro a ha _ hal
      rw [addrs_cons_flatten] at ha
      rw [hFr a (fun hm => ha (List.mem_append_right _ hm)) (by simp) (by omega)]
      exact h1f a hal
    · intro a ha
      rw [addrs_cons_flatten] at ha ⊢
      rcases List.mem_append.1 ha with ha | ha
      · exact Or.inl (List.mem_append_left _ ha)
      · rcases hAd a ha with h3 | h3
        · exact Or.inl (List.mem_append_right _ h3)
        · exact Or.inr (by omega)
    · omega
    · rw [bottom_cons_cons]; exact hA
    · rw [bottom_cons_cons]; exact hB

/-! ## The loop of `Add`: going down after an insertion -/

theorem AddLoop_none (cmp : Comparator K) (k : K) (v : V) (nl : Int) (f : Nat)
    (h : List (node K V)) (cl : Int) (up : Option Nat) (ex : Bool) :
    AddLoop cmp k v nl f h none cl up ex = some (h, ex) := by
  cases f <;> rfl

theorem addrs_mem_insert {pre post : List (Cell K V)} {c : Cell K V} (ck : Cell K V) {a : Nat}
    (h : a ∈ addrs (pre ++ c :: post)) : a ∈ addrs (pre ++ c :: ck :: post) := by
  simp only [addrs, List.map_append, List.map_cons, List.mem_append, List.mem_cons] at h ⊢
  tauto

theorem addrs_mem_post {pre post : List (Cell K V)} {c : Cell K V} {a : Nat}
    (h : a ∈ addrs post) : a ∈ addrs (pre ++ c :: post) := by
  simp only [addrs, List.map_append, List.map_cons, List.mem_append, List.mem_cons] at h ⊢
  tauto

theorem mem_split_of_snoc {pre post : List (Cell K V)} {c y : Cell K V}
    (h : y ∈ pre ++ [c]) : y ∈ pre ++ c :: post := by
  simp only [List.mem_append, List.mem_singleton, List.mem_cons] at h ⊢
  tauto

theorem addr_ne_of_nodup_insert {pre post : List (Cell K V)} {c ck : Cell K V} {a : Nat}
    (hn : (addrs (pre ++ c :: ck :: post)).Nodup) (ha : a ∈ addrs (pre ++ c :: post)) :
    a ≠ ck.addr := by
  rintro rfl
  simp only [addrs, List.map_append, List.map_cons] at hn ha
  obtain ⟨-, n2, n3⟩ := List.nodup_append.1 hn
  obtain ⟨n4, n5⟩ := List.nodup_cons.1 n2
  obtain ⟨n6, -⟩ := List.nodup_cons.1 n5
  rcases List.mem_append.1 ha with h3 | h3
  · exact n3 h3 (List.mem_cons_of_mem _ (List.mem_cons_self _ _))
  · rcases List.mem_cons.1 h3 with h3 | h3
    · exact n4 (h3 ▸ List.mem_cons_self _ _)
    · exact n6 h3

set_option maxHeartbeats 1000000 in
theorem add_down_ins {cmp : Comparator K} (hc : IsStrictTotal cmp) {k : K} {v : V} {nl : Int}
    {below : List (List (Cell K V))}
    (hIH : ∀ l2 below2, below = l2 :: below2 → AddSpec cmp k v nl below2)
    {pre post : List (Cell K V)} {c : Cell K V} (ck : Cell K V) (post1 : List (Cell K V))
    {h h1 : List (node K V)} {cl : Int}
    {up : Option Nat} {ex ex1 : Bool} {f : Nat}
    (hg : Good cmp h ((pre ++ c :: post) :: below)) (hlt : olt cmp c.key (some k))
    (hf : (below.map List.length).sum ≤ f)
    (hcl : cl ≤ nl)
    (hup : ∀ u, up = some u → u ∉ addrs ((pre ++ c :: post) :: below).flatten ∧ u < h.length)
    (hck : ck.key = some k) (hckv : ck.value = some v)
    (hckd : below = [] → ck.down = none)
    (hpost : (post = post1 ∧ h.length ≤ ck.addr) ∨
      ∃ x, post = x :: post1 ∧ x.key = some k ∧ x.addr = ck.addr)
    (hgt : ∀ y ∈ post1, olt cmp (some k) y.key)
    (h1f : ∀ a, a ∉ addrs (pre ++ c :: post) → some a ≠ up → a < h.length → rd h1 a = rd h a)
    (h1l : h.length ≤ h1.length)
    (h1r : RepSeg h1 (pre ++ c :: ck :: post1) none)
    (hupd : ∀ u nu, up = some u → rd h u = some nu →
      rd h1 u = some { nu with down := some ck.addr })
    (hexA : (∃ c' ∈ pre ++ c :: post, c'.key = some k) → ex1 = true)
    (hexB : (∀ c' ∈ bottom ((pre ++ c :: post) :: below), c'.key ≠ some k) → ex1 = ex) :
    AddPost cmp k v nl h pre c post below cl up ex
      (AddLoop cmp k v nl f h1 c.down cl (some ck.addr) ex1) := by
  have hcm : c ∈ pre ++ c :: post := by simp
  have hLok := hg.lvl _ (List.mem_cons_self _ _)
  have hsL := hLok.sorted
  have hsub : List.Sublist post1 post := by
    rcases hpost with ⟨e, -⟩ | ⟨x, e, -, -⟩
    · rw [e]
    · rw [e]; exact List.sublist_cons_self _ _
  have hsubL : ∀ y ∈ post1, y ∈ pre ++ c :: post := fun y hy => by
    simp [hsub.subset hy]
  have hckk : cmp k k = 0 := cmp_self hc k
  have hLgen : ∀ ckx : Cell K V, ckx.key = some k → ckx.value = some v →
      LevelOK cmp (pre ++ c :: ckx :: post1) := fun ckx h1 h2 =>
    hLok.insert hc hlt h1 h2 hsub hgt
  have hOpost : others cmp k post = post1 := by
    rcases hpost with ⟨e, -⟩ | ⟨x, e, hxk, -⟩
    · rw [e]; exact others_eq_self fun y hy => isOther_of_gt hc (hgt y hy)
    · rw [e]
      have hs2 : (x :: post1).Pairwise fun a b => olt cmp a.key b.key := by
        have := (List.pairwise_cons.1 (List.pairwise_append.1 hsL).2.1).2
        rw [e] at this; exact this
      exact others_post_eq hc hs2 hxk hckk
  have hOgen : ∀ ckx : Cell K V, ckx.key = some k → ckx.value = some v →
      others cmp k (pre ++ c :: ckx :: post1) = others cmp k (pre ++ c :: post) := by
    intro ckx h1 h2
    have hs := (hLgen ckx h1 h2).sorted
    rw [others_split hc hs hlt, others_split hc hsL hlt, hOpost,
      others_post_eq hc (List.pairwise_cons.1 (List.pairwise_append.1 hs).2.1).2 h1 hckk]
  have hkvs : ∀ ckx : Cell K V, ckx.key = some k → ckx.value = some v →
      kvs (ckx :: post1) = ins cmp k v (kvs post) := by
    intro ckx h1 h2
    rw [kvs_cons_some h1 h2]
    rcases hpost with ⟨e, -⟩ | ⟨x, e, hxk, -⟩
    · rw [e, ins_of_gt v (kvs_gt hgt)]
    · obtain ⟨xv, hxv⟩ : ∃ xv, x.value = some xv :=
        Option.ne_none_iff_exists'.1 (hLok.val x (by simp [e]) (by rw [hxk]; simp))
      have n1 : ¬ cmp k (k, xv).1 < 0 := by show ¬ cmp k k < 0; omega
      have n2 : ¬ cmp k (k, xv).1 > 0 := by show ¬ cmp k k > 0; omega
      rw [e, kvs_cons_some hxk hxv, ins, if_neg n1, if_neg n2]
  have hKV1 : ∀ rest, addG cmp k v nl cl (kvs post :: rest) =
      ins cmp k v (kvs post) :: addG cmp k v nl cl rest := by
    intro rest
    conv_lhs => rw [addG]
    rw [if_neg (by omega)]
  have hckL : ck.addr ∈ addrs post ∨ h.length ≤ ck.addr := by
    rcases hpost with ⟨-, e⟩ | ⟨x, e, -, hxa⟩
    · exact Or.inr e
    · left; rw [e, ← hxa]; exact mem_addrs (List.mem_cons_self _ _)
  have e1 : pre ++ c :: ck :: post1 = (pre ++ [c]) ++ ck :: post1 := by simp
  have rck : rd h1 ck.addr = some (ck.toNode (firstAddr post1 none)) := by
    rw [e1] at h1r; exact RepSeg_split h1r
  have hcklt : ck.addr < h1.length := rd_lt rck
  have hnL : (addrs (pre ++ c :: post)).Nodup := by
    have := hg.nodup
    rw [addrs_cons_flatten] at this
    exact (List.nodup_append.1 this).1
  have hn1 : (addrs (pre ++ c :: ck :: post1)).Nodup := by
    rcases hpost with ⟨e, hfresh⟩ | ⟨x, e, -, hxa⟩
    · subst e
      simp only [addrs, List.map_append, List.map_cons] at hnL ⊢
      obtain ⟨n1, n2, n3⟩ := List.nodup_append.1 hnL
      obtain ⟨n4, n5⟩ := List.nodup_cons.1 n2
      have hv : ∀ a ∈ addrs (pre ++ c :: post), a < h.length := fun a ha => hg.valid_top ha
      refine List.nodup_append.2 ⟨n1, List.nodup_cons.2 ⟨n4 ∘ ?_, List.nodup_cons.2 ⟨?_, n5⟩⟩, ?_⟩
      · intro hm
        rcases List.mem_cons.1 hm with e2 | hm
        · have := hv c.addr (mem_addrs hcm); omega
        · exact hm
      · intro hm
        obtain ⟨y, hy, hya⟩ := List.mem_map.1 hm
        have := hv y.addr (mem_addrs (by simp [hy])); omega
      · intro a ha hb
        rcases List.mem_cons.1 hb with e2 | hb
        · exact n3 ha (e2 ▸ List.mem_cons_self _ _)
        · rcases List.mem_cons.1 hb with e2 | hb
          · obtain ⟨y, hy, hya⟩ := List.mem_map.1 ha
            have := hv y.addr (mem_addrs (by simp [hy])); omega
          · exact n3 ha (List.mem_cons_of_mem _ hb)
    · subst e
      simpa [addrs, hxa] using hnL
  have ha1 : ∀ a ∈ addrs (pre ++ c :: ck :: post1),
      a ∈ addrs (pre ++ c :: post) ∨ (h.length ≤ a ∧ a < h1.length) := by
    intro a ha
    simp only [addrs, List.map_append, List.map_cons, List.mem_append, List.mem_cons,
      List.mem_map] at ha
    rcases ha with ⟨y, hy, rfl⟩ | rfl | rfl | ⟨y, hy, rfl⟩
    · exact Or.inl (mem_addrs (by simp [hy]))
    · exact Or.inl (mem_addrs hcm)
    · rcases hckL with h3 | h3
      · left
        simp only [addrs, List.map_append, List.map_cons, List.mem_append, List.mem_cons]
        exact Or.inr (Or.inr h3)
      · exact Or.inr ⟨h3, hcklt⟩
    · exact Or.inl (mem_addrs (hsubL y hy))
  have hnk : ∀ y ∈ pre ++ c :: post1, y.key ≠ some k := by
    intro y hy
    rw [← isOther_iff hc]
    have e : pre ++ c :: post1 = (pre ++ [c]) ++ post1 := by simp
    rw [e] at hy
    rcases List.mem_append.1 hy with hy | hy
    · exact isOther_of_lt hc (split_keys_lt hc hsL hlt y hy)
    · exact isOther_of_gt hc (hgt y hy)
  cases below with
  | nil =>
    have hdn : c.down = none := hg.bot _ rfl c hcm
    have hres : AddLoop cmp k v nl f h1 c.down cl (some ck.addr) ex1 = some (h1, ex1) := by
      rw [hdn]; exact AddLoop_none cmp k v nl f h1 cl _ ex1
    refine ⟨h1, ex1, ck :: post1, [], hres, ⟨?_, ?_, List.chain'_singleton _, ?_, ?_⟩, ?_, ?_,
      ?_, ?_, ?_, h1l, ?_, hexB⟩
    · intro l hl; rw [List.mem_singleton.1 hl]; exact h1r
    · intro l hl; rw [List.mem_singleton.1 hl]; exact hLgen ck hck hckv
    · intro l hl y hy
      simp only [List.getLast?_singleton, Option.some.injEq] at hl
      subst hl
      simp only [List.mem_append, List.mem_cons] at hy
      rcases hy with hy | rfl | rfl | hy
      · exact hg.bot _ rfl y (by simp [hy])
      · exact hg.bot _ rfl y hcm
      · exact hckd rfl
      · exact hg.bot _ rfl y (hsubL y hy)
    · simpa [addrs] using hn1
    · simp only [List.map_cons, List.map_nil]
      rw [hOgen ck hck hckv]
    · rw [hKV1, hkvs ck hck hckv]; rfl
    · intro _
      exact ⟨ck, List.mem_cons_self _ _, hck, hupd⟩
    · intro a ha hne hal
      exact h1f a (by simpa [addrs] using ha) hne hal
    · intro a ha
      have ha' : a ∈ addrs (pre ++ c :: ck :: post1) := by simpa [addrs] using ha
      rcases ha1 a ha' with h3 | h3
      · left; simpa [addrs] using h3
      · exact Or.inr h3.1
    · intro hx; exact hexA hx
  | cons l2 below2 =>
    have hd := (List.chain'_cons.1 hg.down).1
    obtain ⟨pre2, c2, post2, rfl, hdn, hk, hlt2⟩ :=
      descend hc hlt hd (hg.tail.lvl _ (List.mem_cons_self _ _))
    have hg1 : Good cmp h1 ((pre2 ++ c2 :: post2) :: below2) := by
      refine hg.tail.frame fun a ha => h1f a (fun hm => hg.disjoint_top hm ha) ?_
        (hg.valid_below ha)
      intro e
      refine (hup a e.symm).1 ?_
      rw [addrs_cons_flatten]; exact List.mem_append_right _ ha
    have hb : budget post2 below2 ≤ f := by
      simp only [budget, List.map_cons, List.sum_cons, List.length_append, List.length_cons]
        at hf ⊢
      omega
    have hcknb : ck.addr ∉ addrs ((pre2 ++ c2 :: post2) :: below2).flatten := by
      intro hm
      rcases hckL with h3 | h3
      · refine hg.disjoint_top ?_ hm
        simp only [addrs, List.map_append, List.map_cons, List.mem_append, List.mem_cons]
        exact Or.inr (Or.inr h3)
      · have := hg.valid_below hm; omega
    obtain ⟨h', ex', post2', below2', hres, hG, hO, hKV, hU, hFr, hAd, hLen, hA, hB⟩ :=
      hIH _ _ rfl post2 pre2 c2 h1 f cl (some ck.addr) ex1 hg1 (hlt2 c2 (by simp)) hb
        (fun hh => by omega) (fun u hu => by
          simp only [Option.some.injEq] at hu
          subst hu; exact ⟨hcknb, hcklt⟩)
    obtain ⟨ck2, hck2m, hck2k, hck2u⟩ := hU hcl
    have hO2 : others cmp k (pre2 ++ c2 :: post2') = others cmp k (pre2 ++ c2 :: post2) := by
      simp only [List.map_cons, List.cons.injEq] at hO; exact hO.1
    obtain ⟨ck', hck'⟩ : ∃ ck' : Cell K V, ck' = { ck with down := some ck2.addr } := ⟨_, rfl⟩
    have hk' : ck'.key = some k := by rw [hck']; exact hck
    have hv' : ck'.value = some v := by rw [hck']; exact hckv
    have hd' : ck'.down = some ck2.addr := by rw [hck']
    have had' : ck'.addr = ck.addr := by rw [hck']
    have rck' : rd h' ck.addr = some (ck'.toNode (firstAddr post1 none)) := by
      rw [hck']; exact hck2u ck.addr _ rfl rck
    have hfr1 : ∀ a, a ∈ addrs (pre ++ c :: post1) → rd h' a = rd h1 a := by
      intro a ha
      have hmem : a ∈ addrs (pre ++ c :: ck :: post1) := addrs_mem_insert ck ha
      have hne : a ≠ ck.addr := addr_ne_of_nodup_insert hn1 ha
      have hal : a < h1.length := by
        rcases ha1 a hmem with h3 | h3
        · have := hg.valid_top h3; omega
        · exact h3.2
      refine hFr a ?_ (by simpa using hne) hal
      intro hm
      rcases ha1 a hmem with h3 | h3
      · exact hg.disjoint_top h3 hm
      · have := hg.valid_below hm; omega
    refine ⟨h', ex', ck' :: post1,
      (pre2 ++ c2 :: post2') :: below2', by rw [hdn]; exact hres,
      ⟨?_, ?_, ?_, ?_, ?_⟩, ?_, ?_, ?_, ?_, ?_, ?_, ?_, ?_⟩
    · intro l hl
      rcases List.mem_cons.1 hl with rfl | hl
      · have e2 : pre ++ c :: ck' :: post1 = (pre ++ [c]) ++ ck' :: post1 := by simp
        rw [e1, RepSeg_append] at h1r
        have hA1 : RepSeg h1 (pre ++ [c]) (some ck.addr) := h1r.1
        have hA2 : RepSeg h1 post1 none := h1r.2.2
        have g1 : RepSeg h' (pre ++ [c]) (some ck'.addr) := by
          rw [had']
          exact RepSeg_frame (fun y hy => hfr1 _ (mem_addrs (mem_split_of_snoc hy))) hA1
        have g3 : RepSeg h' post1 none := by
          refine RepSeg_frame (fun y hy => hfr1 _ (mem_addrs ?_)) hA2
          simp [hy]
        rw [e2, RepSeg_append]
        refine ⟨g1, ?_, g3⟩
        rw [had']; exact rck'
      · exact hG.rep l hl
    · intro l hl
      rcases List.mem_cons.1 hl with rfl | hl
      · exact hLgen _ hk' hv'
      · exact hG.lvl l hl
    · refine List.chain'_cons.2 ⟨downOK_transfer hc hd hO2 ?_ ?_, hG.down⟩
      · intro y hy hky
        simp only [List.mem_append, List.mem_cons] at hy
        rcases hy with hy | rfl | rfl | hy
        · simp [hy]
        · exact hcm
        · exact absurd hk' hky
        · exact hsubL y hy
      · intro y hy hky
        have : y = ck' := by
          simp only [List.mem_append, List.mem_cons] at hy
          rcases hy with hy | rfl | rfl | hy
          · exact absurd hky (hnk y (by simp [hy]))
          · exact absurd hky (hnk y (by simp))
          · rfl
          · exact absurd hky (hnk y (by simp [hy]))
        subst this
        exact ⟨ck2, by simp [hck2m], hd', hck2k.trans hk'.symm⟩
    · intro l hl
      rw [List.getLast?_cons_cons] at hl
      exact hG.bot l hl
    · have ea : addrs (pre ++ c :: ck' :: post1) = addrs (pre ++ c :: ck :: post1) := by
        simp [addrs, had']
      refine nodup_assemble hg (by rw [ea]; exact hn1) hG.nodup ?_ hAd h1l
      intro a ha
      exact ha1 a (by rw [← ea]; exact ha)
    · show _ :: List.map _ (_ :: _) = _ :: List.map _ (_ :: _)
      rw [hO, hOgen _ hk' hv']
    · rw [hKV1, addG_down hc k v nl cl hlt2 hKV, hkvs _ hk' hv']
    · intro _
      refine ⟨ck', List.mem_cons_self _ _, hk', ?_⟩
      intro u nu hu hr
      rw [had']
      obtain ⟨hu1, hu2⟩ := hup u hu
      rw [hFr u (fun hm => hu1 (by rw [addrs_cons_flatten]; exact List.mem_append_right _ hm))
        ?_ (by omega)]
      · exact hupd u nu hu hr
      · intro e
        simp only [Option.some.injEq] at e
        rcases hckL with h3 | h3
        · apply hu1
          rw [addrs_cons_flatten, e]
          exact List.mem_append_left _ (addrs_mem_post h3)
        · omega
    · intro a ha hne hal
      rw [addrs_cons_flatten] at ha
      rw [hFr a (fun hm => ha (List.mem_append_right _ hm)) ?_ (by omega)]
      · exact h1f a (fun hm => ha (List.mem_append_left _ hm)) hne hal
      · intro e
        simp only [Option.some.injEq] at e
        rcases hckL with h3 | h3
        · apply ha
          rw [e]
          exact List.mem_append_left _ (addrs_mem_post h3)
        · omega
    · intro a ha
      rw [addrs_cons_flatten] at ha ⊢
      rcases List.mem_append.1 ha with ha | ha
      · have ea : addrs (pre ++ c :: ck' :: post1) = addrs (pre ++ c :: ck :: post1) := by
          simp [addrs, had']
        rcases ha1 a (by rw [← ea]; exact ha) with h3 | h3
        · exact Or.inl (List.mem_append_left _ h3)
        · exact Or.inr h3.1
      · rcases hAd a ha with h3 | h3
        · exact Or.inl (List.mem_append_right _ h3)
        · exact Or.inr (by omega)
    · omega
    · rw [bottom_cons_cons]; exact hA
    · intro hno
      have h3 := hB (by rw [bottom_cons_cons] at hno; exact hno)
      exact h3.trans (hexB hno)

/-! ## The loop of `Add`: one round -/

theorem rd_of_lt {h : List (node K V)} {p : Nat} (hp : p < h.length) : ∃ n, rd h p = some n :=
  ⟨h[p], by unfold rd; exact List.getElem?_eq_getElem hp⟩

theorem linkUp_spec {h : List (node K V)} {up : Option Nat} (x : Option Nat)
    (hup : ∀ u, up = some u → u < h.length) :
    ∃ h1, linkUp h up x = some h1 ∧ h1.length = h.length ∧
      (∀ a, some a ≠ up → rd h1 a = rd h a) ∧
      (∀ u nu, up = some u → rd h u = some nu → rd h1 u = some { nu with down := x }) := by
  cases up with
  | none => exact ⟨h, rfl, rfl, fun _ _ => rfl, fun u nu hu => by cases hu⟩
  | some u =>
    obtain ⟨nu, hnu⟩ := rd_of_lt (hup u rfl)
    refine ⟨_, setDown_eq x hnu, List.length_set _ _ _, ?_, ?_⟩
    · intro a ha
      exact rd_set_ne _ (fun e => ha (by rw [e]))
    · intro u' nu' hu' hr
      simp only [Option.some.injEq] at hu'
      subst hu'
      rw [hnu] at hr
      simp only [Option.some.injEq] at hr
      subst hr
      exact rd_set_self _ (hup u rfl)

/-- One round of the loop of `Add`. -/
theorem AddLoop_succ (cmp : Comparator K) (k : K) (v : V) (nl : Int) (fuel : Nat)
    (h0 : List (node K V)) (cur : Nat) (curLevel : Int) (up : Option Nat) (ex : Bool) :
    AddLoop cmp k v nl (fuel + 1) h0 (some cur) curLevel up ex =
    (rd (h0 ++ [newNode k v]) cur).bind fun c =>
      match c.right with
      | none =>
        if curLevel > nl then
          AddLoop cmp k v nl fuel (h0 ++ [newNode k v]) c.down (curLevel - 1) up ex
        else
          (setRight (h0 ++ [newNode k v]) cur (some h0.length)).bind fun h1 =>
          (linkUp h1 up (some h0.length)).bind fun h2 =>
          (rd h2 cur).bind fun c2 =>
            AddLoop cmp k v nl fuel h2 c2.down curLevel (some h0.length) ex
      | some r =>
        (rd (h0 ++ [newNode k v]) r).bind fun rn =>
        rn.key.bind fun rk =>
          if cmp k rk < 0 then
            if curLevel > nl then
              AddLoop cmp k v nl fuel (h0 ++ [newNode k v]) c.down (curLevel - 1) up ex
            else
              (linkUp (h0 ++ [newNode k v]) up (some h0.length)).bind fun h1 =>
              (rd h1 cur).bind fun c1 =>
              (setRight h1 h0.length c1.right).bind fun h2 =>
              (setRight h2 cur (some h0.length)).bind fun h3 =>
              (rd h3 cur).bind fun c3 =>
                AddLoop cmp k v nl fuel h3 c3.down curLevel (some h0.length) ex
          else if cmp k rk > 0 then
            AddLoop cmp k v nl fuel (h0 ++ [newNode k v]) (some r) curLevel up ex
          else
            if curLevel > nl then
              (setRight (h0 ++ [newNode k v]) cur rn.right).bind fun h1 =>
                AddLoop cmp k v nl fuel h1 (some cur) (curLevel - 1) up true
            else
              (linkUp (h0 ++ [newNode k v]) up (some r)).bind fun h1 =>
              (rd h1 cur).bind fun c1 =>
              c1.right.bind fun r1 =>
              (setValue h1 r1 (some v)).bind fun h2 =>
              (rd h2 cur).bind fun c2 =>
                AddLoop cmp k v nl fuel h2 c2.down curLevel c2.right true := rfl

theorem up_ne_of_mem {pre post : List (Cell K V)} {c : Cell K V}
    {below : List (List (Cell K V))} {up : Option Nat} {h : List (node K V)}
    (hup : ∀ u, up = some u → u ∉ addrs ((pre ++ c :: post) :: below).flatten ∧ u < h.length)
    {a : Nat} (ha : a ∈ addrs (pre ++ c :: post)) : some a ≠ up := by
  intro e
  refine (hup a e.symm).1 ?_
  rw [addrs_cons_flatten]; exact List.mem_append_left _ ha

/-- A fresh node for `k` linked right after the cell `c`. -/
theorem add_ins_new {cmp : Comparator K} (hc : IsStrictTotal cmp) {k : K} {v : V} {nl : Int}
    {below : List (List (Cell K V))}
    (hIH : ∀ l2 below2, below = l2 :: below2 → AddSpec cmp k v nl below2)
    {pre post : List (Cell K V)} {c : Cell K V} {h hF : List (node K V)} {cl : Int}
    {up : Option Nat} {ex : Bool} {f : Nat}
    (hg : Good cmp h ((pre ++ c :: post) :: below)) (hlt : olt cmp c.key (some k))
    (hf : (below.map List.length).sum ≤ f) (hcl : cl ≤ nl)
    (hup : ∀ u, up = some u → u ∉ addrs ((pre ++ c :: post) :: below).flatten ∧ u < h.length)
    (hgt : ∀ y ∈ post, olt cmp (some k) y.key)
    (H1 : hF.length = h.length + 1)
    (H2 : ∀ a, a ≠ c.addr → some a ≠ up → a < h.length → rd hF a = rd h a)
    (H3 : rd hF c.addr = some (c.toNode (some h.length)))
    (H4 : rd hF h.length = some
      { right := firstAddr post none, down := none, key := some k, value := some v })
    (H5 : ∀ u nu, up = some u → rd h u = some nu →
      rd hF u = some { nu with down := some h.length }) :
    AddPost cmp k v nl h pre c post below cl up ex
      (AddLoop cmp k v nl f hF c.down cl (some h.length) ex) := by
  obtain ⟨hn1, hn2, -, -, -⟩ := hg.addr_split
  have hrl := hg.rep _ (List.mem_cons_self _ _)
  rw [RepSeg_append] at hrl
  have hnk : ∀ y ∈ pre ++ c :: post, y.key ≠ some k := by
    intro y hy
    rw [← isOther_iff hc]
    have e : pre ++ c :: post = (pre ++ [c]) ++ post := by simp
    rw [e] at hy
    rcases List.mem_append.1 hy with hy | hy
    · exact isOther_of_lt hc
        (split_keys_lt hc (hg.lvl _ (List.mem_cons_self _ _)).sorted hlt y hy)
    · exact isOther_of_gt hc (hgt y hy)
  refine add_down_ins hc hIH ⟨h.length, some k, some v, none⟩ post hg hlt hf
    hcl hup rfl rfl (fun _ => rfl) (Or.inl ⟨rfl, le_refl _⟩) hgt ?_ (by omega) ?_ H5 ?_
    (fun _ => rfl)
  · intro a ha hne hal
    exact H2 a (fun e => ha (e ▸ mem_addrs (by simp))) hne hal
  · rw [RepSeg_append]
    refine ⟨RepSeg_frame (fun y hy => ?_) hrl.1, H3, H4, RepSeg_frame (fun y hy => ?_) hrl.2.2⟩
    · have hm : y.addr ∈ addrs (pre ++ c :: post) := mem_addrs (by simp [hy])
      exact H2 _ (fun e => hn1 (e ▸ mem_addrs hy)) (up_ne_of_mem hup hm) (hg.valid_top hm)
    · have hm : y.addr ∈ addrs (pre ++ c :: post) := mem_addrs (by simp [hy])
      exact H2 _ (fun e => hn2 (e ▸ mem_addrs hy)) (up_ne_of_mem hup hm) (hg.valid_top hm)
  · rintro ⟨c', hc', hk'⟩
    exact absurd hk' (hnk c' hc')

/-- The node of `k` that follows the cell `c` gets the new value. -/
theorem add_upd {cmp : Comparator K} (hc : IsStrictTotal cmp) {k : K} {v : V} {nl : Int}
    {below : List (List (Cell K V))}
    (hIH : ∀ l2 below2, below = l2 :: below2 → AddSpec cmp k v nl below2)
    {pre post : List (Cell K V)} {c x : Cell K V} {h hF : List (node K V)} {cl : Int}
    {up : Option Nat} {ex : Bool} {f : Nat}
    (hg : Good cmp h ((pre ++ c :: x :: post) :: below)) (hlt : olt cmp c.key (some k))
    (hf : (below.map List.length).sum ≤ f) (hcl : cl ≤ nl)
    (hup : ∀ u, up = some u →
      u ∉ addrs ((pre ++ c :: x :: post) :: below).flatten ∧ u < h.length)
    (hxk : x.key = some k)
    (H1 : h.length ≤ hF.length)
    (H2 : ∀ a, a ≠ x.addr → some a ≠ up → a < h.length → rd hF a = rd h a)
    (H4 : rd hF x.addr = some
      { right := firstAddr post none, down := x.down, key := x.key, value := some v })
    (H5 : ∀ u nu, up = some u → rd h u = some nu →
      rd hF u = some { nu with down := some x.addr }) :
    AddPost cmp k v nl h pre c (x :: post) below cl up ex
      (AddLoop cmp k v nl f hF c.down cl (some x.addr) true) := by
  have e0 : pre ++ c :: x :: post = (pre ++ [c]) ++ x :: post := by simp
  have hg' := hg
  rw [e0] at hg'
  obtain ⟨hn1, hn2, -, -, -⟩ := hg'.addr_split
  have hrl := hg.rep _ (List.mem_cons_self _ _)
  rw [e0, RepSeg_append] at hrl
  have hs := (hg.lvl _ (List.mem_cons_self _ _)).sorted
  have hs2 : (x :: post).Pairwise fun a b => olt cmp a.key b.key :=
    (List.pairwise_cons.1 (List.pairwise_append.1 hs).2.1).2
  have hgt : ∀ y ∈ post, olt cmp (some k) y.key :=
    sorted_tail_gt hc hs2 hxk (le_of_eq (cmp_self hc k))
  have hxm : x ∈ pre ++ c :: x :: post := by simp
  refine add_down_ins hc hIH ⟨x.addr, x.key, some v, x.down⟩ post hg hlt hf
    hcl hup hxk rfl (fun hb => ?_) (Or.inr ⟨x, rfl, hxk, rfl⟩) hgt ?_ H1 ?_ H5
    (fun _ => rfl) ?_
  · subst hb; exact hg.bot _ rfl x hxm
  · intro a ha hne hal
    exact H2 a (fun e => ha (e ▸ mem_addrs hxm)) hne hal
  · have e1 : pre ++ c :: (⟨x.addr, x.key, some v, x.down⟩ : Cell K V) :: post =
        (pre ++ [c]) ++ (⟨x.addr, x.key, some v, x.down⟩ : Cell K V) :: post := by simp
    rw [e1, RepSeg_append]
    refine ⟨RepSeg_frame (fun y hy => ?_) hrl.1, H4, RepSeg_frame (fun y hy => ?_) hrl.2.2⟩
    · have hm : y.addr ∈ addrs (pre ++ c :: x :: post) := mem_addrs (mem_split_of_snoc hy)
      exact H2 _ (fun e => hn1 (e ▸ mem_addrs hy)) (up_ne_of_mem hup hm) (hg.valid_top hm)
    · have hm : y.addr ∈ addrs (pre ++ c :: x :: post) := mem_addrs (by simp [hy])
      exact H2 _ (fun e => hn2 (e ▸ mem_addrs hy)) (up_ne_of_mem hup hm) (hg.valid_top hm)
  · intro hno
    obtain ⟨c', hc', hk'⟩ := hg.key_in_bottom x hxm
    exact absurd (hk'.trans hxk) (hno c' hc')

/-! ## The loop of `Add`: unlinking -/

/-- Unlinking the cell that follows `c` on the top level leaves a skip list. -/
theorem Good.unlink {cmp : Comparator K} {h h1 : List (node K V)}
    {pre post : List (Cell K V)} {c x : Cell K V} {below : List (List (Cell K V))}
    (hg : Good cmp h ((pre ++ c :: x :: post) :: below))
    (hf : ∀ a, a ≠ c.addr → a < h.length → rd h1 a = rd h a)
    (hcr : rd h1 c.addr = some (c.toNode (firstAddr post none))) :
    Good cmp h1 ((pre ++ c :: post) :: below) := by
  have hsub : List.Sublist (pre ++ c :: post) (pre ++ c :: x :: post) :=
    List.Sublist.append (List.Sublist.refl _)
      (List.Sublist.cons₂ _ (List.sublist_cons_self _ _))
  obtain ⟨hn1, hn2, -, -, -⟩ := hg.addr_split
  have hrl := hg.rep _ (List.mem_cons_self _ _)
  rw [RepSeg_append] at hrl
  have hlv := hg.lvl _ (List.mem_cons_self _ _)
  refine ⟨?_, ?_, ?_, ?_, ?_⟩
  · intro l hl
    rcases List.mem_cons.1 hl with rfl | hl
    · rw [RepSeg_append]
      refine ⟨RepSeg_frame (fun y hy => ?_) hrl.1, hcr, RepSeg_frame (fun y hy => ?_) hrl.2.2.2⟩
      · exact hf _ (fun e => hn1 (e ▸ mem_addrs hy)) (hg.valid_top (mem_addrs (by simp [hy])))
      · exact hf _ (fun e => hn2 (e ▸ mem_addrs (List.mem_cons_of_mem _ hy)))
          (hg.valid_top (mem_addrs (by simp [hy])))
    · refine RepSeg_frame (fun y hy => ?_) (hg.rep l (List.mem_cons_of_mem _ hl))
      have hm := mem_flatten_addrs hl hy
      exact hf _ (fun e => hg.disjoint_top (mem_addrs (by simp)) (e ▸ hm)) (hg.valid_below hm)
  · intro l hl
    rcases List.mem_cons.1 hl with rfl | hl
    · refine ⟨hlv.sorted.sublist hsub, ?_, fun y hy => hlv.val y (hsub.subset hy)⟩
      obtain ⟨hd, tl, e, hk⟩ := hlv.hdr
      cases pre with
      | nil =>
        simp only [List.nil_append, List.cons.injEq] at e
        exact ⟨c, post, rfl, by rw [e.1]; exact hk⟩
      | cons a t =>
        simp only [List.cons_append, List.cons.injEq] at e
        exact ⟨a, t ++ c :: post, rfl, by rw [e.1]; exact hk⟩
    · exact hg.lvl l (List.mem_cons_of_mem _ hl)
  · cases below with
    | nil => exact List.chain'_singleton _
    | cons l2 below2 =>
      refine List.chain'_cons.2 ⟨fun y hy => ?_, hg.tail.down⟩
      exact (List.chain'_cons.1 hg.down).1 y (hsub.subset hy)
  · intro l hl y hy
    cases below with
    | nil =>
      simp only [List.getLast?_singleton, Option.some.injEq] at hl
      subst hl
      exact hg.bot _ rfl y (hsub.subset hy)
    | cons l2 below2 =>
      rw [List.getLast?_cons_cons] at hl
      exact hg.bot l (by rw [List.getLast?_cons_cons]; exact hl) y hy
  · refine List.Nodup.sublist ?_ hg.nodup
    rw [addrs_cons_flatten, addrs_cons_flatten]
    exact List.Sublist.append (List.Sublist.map _ hsub) (List.Sublist.refl _)

theorem addG_unlink {cmp : Comparator K} (hc : IsStrictTotal cmp) (k : K) (v : V) {nl cl : Int}
    (hcl : nl < cl) {xv : V} {t : List (K × V)} (hgt : ∀ p ∈ t, cmp k p.1 < 0)
    (rest : List (List (K × V))) :
    addG cmp k v nl cl (((k, xv) :: t) :: rest) = addG cmp k v nl (cl - 1) (t :: rest) := by
  have hkk := cmp_self hc k
  have e1 : hasKey cmp k ((k, xv) :: t) = true := by
    unfold hasKey; simp [hkk]
  have e2 : hasKey cmp k t = false := hasKey_of_gt hgt
  have e3 : del cmp k ((k, xv) :: t) = t := by
    have : del cmp k ((k, xv) :: t) = del cmp k t := by
      unfold del
      rw [List.filter_cons_of_neg (by simp [hkk])]
    rw [this, del_of_gt hgt]
  have n1 : ¬ cmp k (k, xv).1 < 0 := by show ¬ cmp k k < 0; omega
  have n2 : ¬ cmp k (k, xv).1 > 0 := by show ¬ cmp k k > 0; omega
  have e4 : ins cmp k v ((k, xv) :: t) = ins cmp k v t := by
    rw [ins, if_neg n1, if_neg n2, ins_of_gt v hgt]
  have e5 : cl - 1 - 1 = cl - 2 := by omega
  conv_lhs => rw [addG]
  conv_rhs => rw [addG]
  rw [if_pos hcl, e1, e2, e3, e4, e5]
  by_cases h2 : cl - 1 > nl
  · simp [h2]
  · simp [h2]

/-- The run that follows the unlinking of the node of `k` after `c` is a run
from `c` on the level that still holds that node. -/
theorem AddPost_unlink {cmp : Comparator K} (hc : IsStrictTotal cmp) {k : K} {v : V} {nl : Int}
    {pre post : List (Cell K V)} {c x : Cell K V} {below : List (List (Cell K V))}
    {h h1 : List (node K V)} {cl : Int} {ex : Bool}
    {res : Option (List (node K V) × Bool)}
    (hg : Good cmp h ((pre ++ c :: x :: post) :: below)) (hlt : olt cmp c.key (some k))
    (hxk : x.key = some k) (hcl : nl < cl)
    (hf : ∀ a, a ≠ c.addr → a < h.length → rd h1 a = rd h a) (hl : h.length ≤ h1.length)
    (hp : AddPost cmp k v nl h1 pre c post below (cl - 1) none true res) :
    AddPost cmp k v nl h pre c (x :: post) below cl none ex res := by
  obtain ⟨h', ex', post', below', hres, hG, hO, hKV, -, hFr, hAd, hLen, hA, hB⟩ := hp
  have hlv := hg.lvl _ (List.mem_cons_self _ _)
  have hs := hlv.sorted
  have hs2 : (x :: post).Pairwise fun a b => olt cmp a.key b.key :=
    (List.pairwise_cons.1 (List.pairwise_append.1 hs).2.1).2
  have hgt : ∀ y ∈ post, olt cmp (some k) y.key :=
    sorted_tail_gt hc hs2 hxk (le_of_eq (cmp_self hc k))
  have hxm : x ∈ pre ++ c :: x :: post := by simp
  have hsubA : ∀ a, a ∈ addrs ((pre ++ c :: post) :: below).flatten →
      a ∈ addrs ((pre ++ c :: x :: post) :: below).flatten := by
    intro a ha
    rw [addrs_cons_flatten] at ha ⊢
    rcases List.mem_append.1 ha with ha | ha
    · exact List.mem_append_left _ (addrs_mem_insert x ha)
    · exact List.mem_append_right _ ha
  have hcm : c.addr ∈ addrs ((pre ++ c :: x :: post) :: below).flatten := by
    rw [addrs_cons_flatten]; exact List.mem_append_left _ (mem_addrs (by simp))
  have hex : ex' = true := by
    by_cases hh : ∃ c' ∈ bottom ((pre ++ c :: post) :: below), c'.key = some k
    · exact hA hh
    · exact hB (fun c' hc' hk' => hh ⟨c', hc', hk'⟩)
  obtain ⟨xv, hxv⟩ : ∃ xv, x.value = some xv :=
    Option.ne_none_iff_exists'.1 (hlv.val x hxm (by rw [hxk]; simp))
  refine ⟨h', ex', post', below', hres, hG, ?_, ?_, fun hle => by omega, ?_, ?_, by omega,
    fun _ => hex, ?_⟩
  · rw [hO]
    show _ :: List.map _ _ = _ :: List.map _ _
    rw [others_split hc (hs.sublist (List.Sublist.append (List.Sublist.refl _)
        (List.Sublist.cons₂ _ (List.sublist_cons_self _ _)))) hlt,
      others_split hc hs hlt, others_post_eq hc hs2 hxk (cmp_self hc k),
      others_eq_self fun y hy => isOther_of_gt hc (hgt y hy)]
  · rw [hKV, kvs_cons_some hxk hxv, addG_unlink hc k v hcl (kvs_gt hgt)]
  · intro a ha _ hal
    rw [hFr a (fun hm => ha (hsubA a hm)) (by simp) (by omega)]
    exact hf a (fun e => ha (e ▸ hcm)) hal
  · intro a ha
    rcases hAd a ha with h3 | h3
    · exact Or.inl (hsubA a h3)
    · exact Or.inr (by omega)
  · intro hno
    obtain ⟨c', hc', hk'⟩ := hg.key_in_bottom x hxm
    exact absurd (hk'.trans hxk) (hno c' hc')

/-- A run from the cell after `c`, on the heap with the node allocated in the
round at `c`, is a run from `c`. -/
theorem AddPost_right {cmp : Comparator K} (hc : IsStrictTotal cmp) {k : K} {v : V} {nl : Int}
    {pre post : List (Cell K V)} {c x : Cell K V} {below : List (List (Cell K V))}
    {h : List (node K V)} {cl : Int} {up : Option Nat} {ex : Bool}
    {res : Option (List (node K V) × Bool)} (nn : node K V)
    (hg : Good cmp h ((pre ++ c :: x :: post) :: below)) {rk : K} (hrk : x.key = some rk)
    (hlt : cmp rk k < 0)
    (hp : AddPost cmp k v nl (h ++ [nn]) (pre ++ [c]) x post below cl up ex res) :
    AddPost cmp k v nl h pre c (x :: post) below cl up ex res := by
  obtain ⟨h', ex', post', below', hres, hG, hO, hKV, hU, hFr, hAd, hLen, hA, hB⟩ := hp
  have e : ∀ p : List (Cell K V), (pre ++ [c]) ++ x :: p = pre ++ c :: x :: p := by
    intro p; simp
  rw [e] at hG hO hFr hAd hA hB
  rw [e] at hO hAd
  have hlen : (h ++ [nn]).length = h.length + 1 := by simp
  have hlv := hg.lvl _ (List.mem_cons_self _ _)
  obtain ⟨xv, hxv⟩ : ∃ xv, x.value = some xv :=
    Option.ne_none_iff_exists'.1 (hlv.val x (by simp) (by rw [hrk]; simp))
  have hlt' : ∀ p ∈ [(rk, xv)], cmp p.1 k < 0 := by
    intro p hp
    rw [List.mem_singleton.1 hp]
    exact hlt
  refine ⟨h', ex', x :: post', below', hres, hG, hO, ?_, ?_, ?_, ?_, by omega, hA, hB⟩
  · rw [kvs_cons_some hrk hxv, kvs_cons_some hrk hxv]
    have := addG_prepend hc k v nl hlt' cl (kvs post) (below.map kvs)
    rw [← hKV] at this
    exact this.symm
  · intro hle
    obtain ⟨ck, hck, hkk, hu⟩ := hU hle
    refine ⟨ck, List.mem_cons_of_mem _ hck, hkk, fun u nu hu1 hr => ?_⟩
    exact hu u nu hu1 (rd_append_some _ hr)
  · intro a ha hne hal
    rw [hFr a ha hne (by omega)]
    exact rd_append_left _ hal
  · intro a ha
    rcases hAd a ha with h3 | h3
    · exact Or.inl h3
    · exact Or.inr (by omega)

/-! ## The loop of `Add`: all levels -/

theorem add_level {cmp : Comparator K} (hc : IsStrictTotal cmp) (k : K) (v : V) {nl : Int}
    (hnl : 0 ≤ nl) (below : List (List (Cell K V)))
    (hIH : ∀ l2 below2, below = l2 :: below2 → AddSpec cmp k v nl below2) :
    AddSpec cmp k v nl below := by
  intro post
  induction post with
  | nil =>
    intro pre c h0 fuel cl up ex hg hlt hf hmode hup
    obtain ⟨f, rfl⟩ : ∃ f, fuel = f + 1 := ⟨fuel - 1, by unfold budget at hf; omega⟩
    have hfb : (below.map List.length).sum ≤ f := by
      simp only [budget, List.length_nil] at hf; omega
    have hcm : c.addr ∈ addrs (pre ++ [c]) := mem_addrs (by simp)
    have hcv : c.addr < h0.length := hg.valid_top hcm
    have hrdc : rd (h0 ++ [newNode k v]) c.addr = some (c.toNode none) :=
      rd_append_some _ hg.cell
    have hlen : (h0 ++ [newNode k v]).length = h0.length + 1 := by simp
    rw [AddLoop_succ]
    by_cases hcl : cl > nl
    · obtain ⟨rfl, hcl2⟩ := hmode hcl
      simp only [hrdc, Option.some_bind, Cell.toNode, if_pos hcl]
      exact add_down_skip hc hnl hIH hg hlt hfb hcl hcl2 (by simp)
        (fun a ha => rd_append_left _ ha) (by omega)
    · have e1 : setRight (h0 ++ [newNode k v]) c.addr (some h0.length) =
          some ((h0 ++ [newNode k v]).set c.addr (c.toNode (some h0.length))) :=
        setRight_eq _ hrdc
      obtain ⟨h2, e2, l2, f2, u2⟩ := @linkUp_spec K V
        ((h0 ++ [newNode k v]).set c.addr (c.toNode (some h0.length))) up
        (some h0.length) (fun u hu => by
          have := (hup u hu).2
          rw [List.length_set]; omega)
      have hcu : some c.addr ≠ up := up_ne_of_mem hup hcm
      have e3 : rd h2 c.addr = some (c.toNode (some h0.length)) := by
        rw [f2 _ hcu]; exact rd_set_self _ (by omega)
      simp only [hrdc, Option.some_bind, Cell.toNode, if_neg hcl]
      rw [e1, Option.some_bind, e2, Option.some_bind, e3, Option.some_bind]
      refine add_ins_new hc hIH hg hlt hfb (by omega) hup (by simp) ?_ ?_ e3 ?_ ?_
      · rw [l2, List.length_set, hlen]
      · intro a hne hu hal
        rw [f2 a hu, rd_set_ne _ (Ne.symm hne)]
        exact rd_append_left _ hal
      · have hnu : some h0.length ≠ up := by
          intro e; have := (hup _ e.symm).2; omega
        rw [f2 _ hnu, rd_set_ne _ (by omega)]
        exact rd_append_new _ _
      · intro u nu hu hr
        refine u2 u nu hu ?_
        rw [rd_set_ne _ (fun e => hcu (by rw [e, hu]))]
        exact rd_append_some _ hr
  | cons x post ihp =>
    intro pre c h0 fuel cl up ex hg hlt hf hmode hup
    obtain ⟨f, rfl⟩ : ∃ f, fuel = f + 1 := ⟨fuel - 1, by unfold budget at hf; omega⟩
    have hfb : (below.map List.length).sum ≤ f := by
      simp only [budget, List.length_cons] at hf; omega
    have hcm : c.addr ∈ addrs (pre ++ c :: x :: post) := mem_addrs (by simp)
    have hxm : x.addr ∈ addrs (pre ++ c :: x :: post) := mem_addrs (by simp)
    have hcv : c.addr < h0.length := hg.valid_top hcm
    have hxv : x.addr < h0.length := hg.valid_top hxm
    obtain ⟨hx, rk, hrk⟩ := hg.next
    have hrdc : rd (h0 ++ [newNode k v]) c.addr = some (c.toNode (some x.addr)) :=
      rd_append_some _ hg.cell
    have hrdx : rd (h0 ++ [newNode k v]) x.addr = some (x.toNode (firstAddr post none)) :=
      rd_append_some _ hx
    have hlen : (h0 ++ [newNode k v]).length = h0.length + 1 := by simp
    have hlv := hg.lvl _ (List.mem_cons_self _ _)
    have hs := hlv.sorted
    have hs2 : (x :: post).Pairwise fun a b => olt cmp a.key b.key :=
      (List.pairwise_cons.1 (List.pairwise_append.1 hs).2.1).2
    have e0 : pre ++ c :: x :: post = (pre ++ [c]) ++ x :: post := by simp
    have hcx : c.addr ≠ x.addr := by
      have hg' := hg
      rw [e0] at hg'
      obtain ⟨hn1, -, -, -, -⟩ := hg'.addr_split
      intro e
      exact hn1 (e ▸ mem_addrs (by simp))
    have hcu : some c.addr ≠ up := up_ne_of_mem hup hcm
    have hxu : some x.addr ≠ up := up_ne_of_mem hup hxm
    have hnu : some h0.length ≠ up := by
      intro e; have := (hup _ e.symm).2; omega
    have hupl : ∀ u, up = some u → u < (h0 ++ [newNode k v]).length := fun u hu => by
      have := (hup u hu).2; omega
    rw [AddLoop_succ]
    by_cases hlt2 : cmp k rk < 0
    · have hgt : ∀ y ∈ x :: post, olt cmp (some k) y.key := by
        intro y hy
        rcases List.mem_cons.1 hy with rfl | hy
        · rw [hrk]; exact hlt2
        · exact sorted_tail_gt hc hs2 hrk (le_of_lt hlt2) y hy
      by_cases hcl : cl > nl
      · obtain ⟨rfl, hcl2⟩ := hmode hcl
        simp only [hrdc, hrdx, hrk, Option.some_bind, Cell.toNode, if_pos hcl, if_pos hlt2]
        exact add_down_skip hc hnl hIH hg hlt hfb hcl hcl2 hgt
          (fun a ha => rd_append_left _ ha) (by omega)
      · obtain ⟨h1, e1, l1, f1, u1⟩ := @linkUp_spec K V (h0 ++ [newNode k v]) up
          (some h0.length) hupl
        have r1 : rd h1 c.addr = some (c.toNode (some x.addr)) := by rw [f1 _ hcu]; exact hrdc
        have r1n : rd h1 h0.length = some (newNode k v) := by
          rw [f1 _ hnu]; exact rd_append_new _ _
        have e2 : setRight h1 h0.length (some x.addr) = some (h1.set h0.length
            { right := some x.addr, down := none, key := some k, value := some v }) :=
          setRight_eq _ r1n
        have r2 : rd (h1.set h0.length
            { right := some x.addr, down := none, key := some k, value := some v }) c.addr =
            some (c.toNode (some x.addr)) := by
          rw [rd_set_ne _ (by omega)]; exact r1
        have e3 := setRight_eq (some h0.length) r2
        have r3 : rd ((h1.set h0.length
            { right := some x.addr, down := none, key := some k, value := some v }).set c.addr
            (c.toNode (some h0.length))) c.addr = some (c.toNode (some h0.length)) :=
          rd_set_self _ (by rw [List.length_set, l1]; omega)
        simp only [hrdc, hrdx, hrk, Option.some_bind, Cell.toNode, if_neg hcl, if_pos hlt2]
        rw [e1, Option.some_bind, r1, Option.some_bind]
        simp only [Cell.toNode]
        rw [e2, Option.some_bind]
        erw [e3, Option.some_bind, r3, Option.some_bind]
        refine add_ins_new hc hIH hg hlt hfb (by omega) hup hgt ?_ ?_ r3 ?_ ?_
        · rw [List.length_set, List.length_set, l1, hlen]
        · intro a hne hu hal
          rw [rd_set_ne _ (Ne.symm hne), rd_set_ne _ (by omega), f1 a hu]
          exact rd_append_left _ hal
        · rw [rd_set_ne _ (by omega)]
          exact rd_set_self _ (by rw [l1]; omega)
        · intro u nu hu hr
          have hul := (hup u hu).2
          rw [rd_set_ne _ (fun e => hcu (by rw [e, hu])), rd_set_ne _ (by omega)]
          exact u1 u nu hu (rd_append_some _ hr)
    · by_cases hgt2 : cmp k rk > 0
      · simp only [hrdc, hrdx, hrk, Option.some_bind, Cell.toNode, if_neg hlt2, if_pos hgt2]
        have hlt' : olt cmp x.key (some k) := by
          rw [hrk]; exact (hc.swap rk k).2 hgt2
        have hg2 : Good cmp (h0 ++ [newNode k v]) (((pre ++ [c]) ++ x :: post) :: below) := by
          rw [← e0]
          exact hg.frame fun a ha => rd_append_left _ (hg.valid ha)
        refine AddPost_right hc (newNode k v) hg hrk ((hc.swap rk k).2 hgt2) ?_
        refine ihp (pre ++ [c]) x _ f cl up ex hg2 hlt'
          (by simp only [budget, List.length_cons] at hf ⊢; omega) hmode ?_
        intro u hu
        rw [← e0]
        exact ⟨(hup u hu).1, hupl u hu⟩
      · have he : cmp k rk = 0 := by omega
        have hkk : k = rk := (hc.eq_iff k rk).1 he
        subst hkk
        by_cases hcl : cl > nl
        · obtain ⟨rfl, hcl2⟩ := hmode hcl
          have e1 : setRight (h0 ++ [newNode k v]) c.addr (firstAddr post none) =
              some ((h0 ++ [newNode k v]).set c.addr (c.toNode (firstAddr post none))) :=
            setRight_eq _ hrdc
          simp only [hrdc, hrdx, hrk, Option.some_bind, Cell.toNode, if_neg hlt2, if_neg hgt2,
            if_pos hcl]
          erw [e1, Option.some_bind]
          have hf1 : ∀ a, a ≠ c.addr → a < h0.length →
              rd ((h0 ++ [newNode k v]).set c.addr (c.toNode (firstAddr post none))) a =
                rd h0 a := by
            intro a hne hal
            rw [rd_set_ne _ (Ne.symm hne)]
            exact rd_append_left _ hal
          have hg1 := hg.unlink hf1 (rd_set_self _ (by omega))
          refine AddPost_unlink hc hg hlt hrk hcl hf1 (by rw [List.length_set, hlen]; omega) ?_
          refine ihp pre c _ f (cl - 1) none true hg1 hlt
            (by simp only [budget, List.length_cons] at hf ⊢; omega)
            (fun _ => ⟨rfl, by omega⟩) (fun u hu => by cases hu)
        · obtain ⟨h1, e1, l1, f1, u1⟩ := @linkUp_spec K V (h0 ++ [newNode k v]) up
            (some x.addr) hupl
          have r1 : rd h1 c.addr = some (c.toNode (some x.addr)) := by
            rw [f1 _ hcu]; exact hrdc
          have r1x : rd h1 x.addr = some (x.toNode (firstAddr post none)) := by
            rw [f1 _ hxu]; exact hrdx
          have e2 := setValue_eq (some v) r1x
          have r2 : rd (h1.set x.addr { x.toNode (firstAddr post none) with value := some v })
              c.addr = some (c.toNode (some x.addr)) := by
            rw [rd_set_ne _ (Ne.symm hcx)]; exact r1
          simp only [hrdc, hrdx, hrk, Option.some_bind, Cell.toNode, if_neg hlt2, if_neg hgt2,
            if_neg hcl]
          rw [e1, Option.some_bind, r1, Option.some_bind]
          simp only [Cell.toNode, Option.some_bind]
          erw [e2, Option.some_bind, r2, Option.some_bind]
          refine add_upd hc hIH hg hlt hfb (by omega) hup hrk ?_ ?_ ?_ ?_
          · rw [List.length_set, l1, hlen]; omega
          · intro a hne hu hal
            rw [rd_set_ne _ (Ne.symm hne), f1 a hu]
            exact rd_append_left _ hal
          · exact rd_set_self _ (by rw [l1]; omega)
          · intro u nu hu hr
            rw [rd_set_ne _ (fun e => hxu (by rw [e, hu]))]
            exact u1 u nu hu (rd_append_some _ hr)

/-- The loop of `Add` meets its specification on every stack of levels. -/
theorem add_spec {cmp : Comparator K} (hc : IsStrictTotal cmp) (k : K) (v : V) {nl : Int}
    (hnl : 0 ≤ nl) : ∀ below : List (List (Cell K V)), AddSpec cmp k v nl below
  | [] => add_level hc k v hnl [] (fun _ _ e => by cases e)
  | l2 :: below2 => add_level hc k v hnl (l2 :: below2) (fun _ _ e => by
      cases e; exact add_spec hc k v hnl below2)

/-! ## Loop budgets, `shrink` and `addLevels` -/

theorem nodup_bounded_length : ∀ (l : List Nat) (n : Nat), l.Nodup → (∀ a ∈ l, a < n) →
    l.length ≤ n := by
  intro l n hn hb
  have h1 : l ⊆ List.range n := fun a ha => List.mem_range.2 (hb a ha)
  have := (List.subperm_of_subset hn h1).length_le
  simpa using this

/-- A skip list has at most as many cells as the heap has nodes. -/
theorem Good.card_le {cmp : Comparator K} {h : List (node K V)} {g : List (List (Cell K V))}
    (hg : Good cmp h g) : (g.map List.length).sum ≤ h.length := by
  have := nodup_bounded_length _ h.length hg.nodup (fun a ha => hg.valid ha)
  rw [addrs, List.length_map, List.length_flatten] at this
  exact this

theorem Good.budget_le {cmp : Comparator K} {h : List (node K V)} {hd : Cell K V}
    {tl : List (Cell K V)} {rest : List (List (Cell K V))} (hg : Good cmp h ((hd :: tl) :: rest)) :
    budget tl rest ≤ h.length + 1 := by
  have := hg.card_le
  simp only [List.map_cons, List.sum_cons, List.length_cons] at this
  unfold budget; omega

theorem kvs_tail_length {cmp : Comparator K} {l : List (Cell K V)} (hl : LevelOK cmp l) :
    (kvs l).length + 1 = l.length := by
  obtain ⟨hd, tl, rfl, hk⟩ := hl.hdr
  rw [kvs_cons_none hk, List.length_cons]
  have hs := (List.pairwise_cons.1 hl.sorted).1
  have hv := hl.val
  clear hl
  induction tl with
  | nil => rfl
  | cons x t ih =>
    obtain ⟨y, hy⟩ := olt_isSome (hs x (List.mem_cons_self _ _))
    obtain ⟨w, hw⟩ : ∃ w, x.value = some w :=
      Option.ne_none_iff_exists'.1 (hv x (by simp) (by rw [hy]; simp))
    rw [kvs_cons_some hy hw, List.length_cons, List.length_cons]
    have := ih (fun a ha => hs a (List.mem_cons_of_mem _ ha)) (fun a ha => hv a (by
      rcases List.mem_cons.1 ha with rfl | ha
      · simp
      · simp [ha]))
    omega

theorem shrinkG_kvs {cmp : Comparator K} : ∀ (g : List (List (Cell K V))),
    (∀ l ∈ g, LevelOK cmp l) → (shrinkG g).map kvs = shrinkKV (g.map kvs)
  | [], _ => rfl
  | [_], _ => rfl
  | l :: l2 :: rest, hl => by
    have h1 := kvs_tail_length (hl l (List.mem_cons_self _ _))
    have ih := shrinkG_kvs (l2 :: rest) (fun x hx => hl x (List.mem_cons_of_mem _ hx))
    rw [shrinkG]
    simp only [List.map_cons, shrinkKV]
    by_cases h2 : l.length ≤ 1
    · have : (kvs l).isEmpty = true := by
        rw [List.isEmpty_iff_length_eq_zero]; omega
      rw [if_pos h2, if_pos this]; exact ih
    · have : ¬ (kvs l).isEmpty = true := by
        rw [List.isEmpty_iff_length_eq_zero]; omega
      rw [if_neg h2, if_neg this]; rfl

theorem shrinkG_bottom : ∀ (g : List (List (Cell K V))), bottom (shrinkG g) = bottom g
  | [] => rfl
  | [_] => rfl
  | l :: l2 :: rest => by
    rw [shrinkG]
    split_ifs
    · rw [shrinkG_bottom (l2 :: rest), bottom_cons_cons]
    · rfl

theorem shrinkG_top : ∀ (g : List (List (Cell K V))) (hd : Cell K V)
    (rest : List (List (Cell K V))), shrinkG g = [hd] :: rest → rest = []
  | [], _, _, e => by cases e
  | [_], _, _, e => by
    simp only [shrinkG, List.cons.injEq] at e; exact e.2.symm
  | l :: l2 :: rest0, hd, rest, e => by
    rw [shrinkG] at e
    split_ifs at e with h1
    · exact shrinkG_top (l2 :: rest0) hd rest e
    · simp only [List.cons.injEq] at e
      rw [e.1] at h1; simp at h1

theorem shrinkG_ne_nil : ∀ (g : List (List (Cell K V))), g ≠ [] → shrinkG g ≠ []
  | [], h => absurd rfl h
  | [_], _ => by simp [shrinkG]
  | l :: l2 :: rest, _ => by
    rw [shrinkG]
    split_ifs
    · exact shrinkG_ne_nil (l2 :: rest) (by simp)
    · simp

theorem shrinkG_length_le : ∀ (g : List (List (Cell K V))), (shrinkG g).length ≤ g.length
  | [] => le_refl _
  | [_] => le_refl _
  | l :: l2 :: rest => by
    rw [shrinkG]
    split_ifs
    · have := shrinkG_length_le (l2 :: rest)
      simp only [List.length_cons] at this ⊢; omega
    · exact le_refl _

theorem Good.shrinkG {cmp : Comparator K} {h : List (node K V)} :
    ∀ {g : List (List (Cell K V))}, Good cmp h g → Good cmp h (shrinkG g)
  | [], hg => hg
  | [_], hg => hg
  | l :: l2 :: rest, hg => by
    rw [Skiplist.shrinkG]
    split_ifs
    · exact Good.shrinkG hg.tail
    · exact hg

/-- The header of a level points down to the header of the next level. -/
theorem Good.header_down {cmp : Comparator K} {h : List (node K V)} {hd : Cell K V}
    {tl l2 : List (Cell K V)} {rest : List (List (Cell K V))}
    (hg : Good cmp h ((hd :: tl) :: l2 :: rest)) :
    ∃ hd2 tl2, l2 = hd2 :: tl2 ∧ hd.down = some hd2.addr := by
  have hk : hd.key = none := by
    obtain ⟨a, t, e, hk⟩ := (hg.lvl _ (List.mem_cons_self _ _)).hdr
    simp only [List.cons.injEq] at e
    rw [e.1]; exact hk
  obtain ⟨c', hc', hdn, hk'⟩ := (List.chain'_cons.1 hg.down).1 hd (List.mem_cons_self _ _)
  have hl2 := hg.tail.lvl _ (List.mem_cons_self _ _)
  obtain ⟨a, t, e, hka⟩ := hl2.hdr
  subst e
  rcases List.mem_cons.1 hc' with rfl | hm
  · exact ⟨_, _, rfl, hdn⟩
  · have := (List.pairwise_cons.1 hl2.sorted).1 c' hm
    rw [hk', hk] at this
    exact absurd this (olt_none_right cmp _)

theorem shrinkLoop_spec {cmp : Comparator K} {h : List (node K V)} :
    ∀ (g : List (List (Cell K V))) (hd : Cell K V) (tl : List (Cell K V))
      (rest : List (List (Cell K V))) (fuel : Nat) (levels : Int),
      g = (hd :: tl) :: rest → Good cmp h g → g.length ≤ fuel →
      ∃ hd' tl' rest', shrinkG g = (hd' :: tl') :: rest' ∧
        shrinkLoop h fuel hd.addr levels =
          some (hd'.addr, levels - ((g.length : Int) - ((shrinkG g).length : Int)))
  | [], _, _, _, _, _, e, _, _ => by cases e
  | [l], hd, tl, rest, fuel, levels, e, hg, hf => by
    simp only [List.cons.injEq] at e
    obtain ⟨rfl, rfl⟩ := e
    obtain ⟨f, rfl⟩ : ∃ f, fuel = f + 1 := ⟨fuel - 1, by simp at hf; omega⟩
    have hc : rd h hd.addr = some (hd.toNode (firstAddr tl none)) :=
      (hg.rep _ (List.mem_cons_self _ _)).1
    have hdn : hd.down = none := hg.bot _ rfl hd (List.mem_cons_self _ _)
    refine ⟨hd, tl, [], rfl, ?_⟩
    simp [shrinkLoop, hc, Cell.toNode, hdn, shrinkG]
  | l :: l2 :: rest0, hd, tl, rest, fuel, levels, e, hg, hf => by
    simp only [List.cons.injEq] at e
    obtain ⟨rfl, rfl⟩ := e
    obtain ⟨f, rfl⟩ : ∃ f, fuel = f + 1 := ⟨fuel - 1, by simp at hf; omega⟩
    have hc : rd h hd.addr = some (hd.toNode (firstAddr tl none)) :=
      (hg.rep _ (List.mem_cons_self _ _)).1
    obtain ⟨hd2, tl2, rfl, hdn⟩ := hg.header_down
    cases tl with
    | nil =>
      obtain ⟨hd', tl', rest', e1, e2⟩ := shrinkLoop_spec ((hd2 :: tl2) :: rest0) hd2 tl2 rest0 f
        (levels - 1) rfl hg.tail (by simp only [List.length_cons] at hf ⊢; omega)
      refine ⟨hd', tl', rest', ?_, ?_⟩
      · rw [shrinkG, if_pos (by simp)]; exact e1
      · have e3 : shrinkG ([hd] :: (hd2 :: tl2) :: rest0) = shrinkG ((hd2 :: tl2) :: rest0) := by
          rw [shrinkG, if_pos (by simp)]
        rw [e3]
        simp only [shrinkLoop, hc, Cell.toNode, hdn, firstAddr, Option.some_bind, e2]
        congr 2
        simp only [List.length_cons]
        push_cast
        omega
    | cons x t =>
      have e3 : shrinkG ((hd :: x :: t) :: (hd2 :: tl2) :: rest0) =
          (hd :: x :: t) :: (hd2 :: tl2) :: rest0 := by
        rw [shrinkG, if_neg (by simp)]
      refine ⟨hd, x :: t, (hd2 :: tl2) :: rest0, e3, ?_⟩
      rw [e3]
      simp [shrinkLoop, hc, Cell.toNode, hdn, firstAddr]

theorem Good.push {cmp : Comparator K} {h : List (node K V)} {hd : Cell K V}
    {tl : List (Cell K V)} {rest : List (List (Cell K V))}
    (hg : Good cmp h ((hd :: tl) :: rest)) :
    Good cmp (h ++ [{ right := none, down := some hd.addr, key := none, value := none }])
      ([headerCell h.length hd.addr] :: (hd :: tl) :: rest) := by
  have hk : hd.key = none := by
    obtain ⟨a, t, e, hk⟩ := (hg.lvl _ (List.mem_cons_self _ _)).hdr
    simp only [List.cons.injEq] at e
    rw [e.1]; exact hk
  refine ⟨?_, ?_, ?_, ?_, ?_⟩
  · intro l hl
    rcases List.mem_cons.1 hl with rfl | hl
    · exact ⟨rd_append_new _ _, trivial⟩
    · exact (hg.frame fun a ha => rd_append_left _ (hg.valid ha)).rep l hl
  · intro l hl
    rcases List.mem_cons.1 hl with rfl | hl
    · exact ⟨List.pairwise_singleton _ _, ⟨_, _, rfl, rfl⟩, fun c hc hk => by
        rw [List.mem_singleton.1 hc] at hk; exact absurd rfl hk⟩
    · exact hg.lvl l hl
  · refine List.chain'_cons.2 ⟨?_, hg.down⟩
    intro c hc
    rw [List.mem_singleton.1 hc]
    exact ⟨hd, List.mem_cons_self _ _, rfl, hk⟩
  · intro l hl
    rw [List.getLast?_cons_cons] at hl
    exact hg.bot l hl
  · rw [addrs_cons_flatten]
    refine List.nodup_append.2 ⟨List.nodup_singleton _, hg.nodup, ?_⟩
    intro a ha hb
    simp only [addrs, List.map_cons, List.map_nil, List.mem_singleton] at ha
    have := hg.valid hb
    rw [ha] at this
    exact absurd this (by simp [headerCell])

theorem addLevelsLoop_spec {cmp : Comparator K} :
    ∀ (n : Nat) (h : List (node K V)) (g : List (List (Cell K V))) (hd : Cell K V)
      (tl : List (Cell K V)) (rest : List (List (Cell K V))),
      g = (hd :: tl) :: rest → Good cmp h g →
      ∃ hd' tl' rest', growG n h.length g = (hd' :: tl') :: rest' ∧
        (addLevelsLoop n h hd.addr).2 = hd'.addr ∧
        Good cmp (addLevelsLoop n h hd.addr).1 (growG n h.length g) ∧
        (growG n h.length g).length = g.length + n ∧
        (growG n h.length g).map kvs = List.replicate n [] ++ g.map kvs ∧
        bottom (growG n h.length g) = bottom g ∧
        h.length ≤ (addLevelsLoop n h hd.addr).1.length ∧
        (n ≠ 0 → tl' = [])
  | 0, h, g, hd, tl, rest, e, hg => by
    subst e
    exact ⟨hd, tl, rest, rfl, rfl, hg, rfl, rfl, rfl, le_refl _, fun hn => absurd rfl hn⟩
  | n + 1, h, g, hd, tl, rest, e, hg => by
    subst e
    have hp := hg.push
    obtain ⟨hd', tl', rest', e1, e2, e3, e4, e5, e6, e7, e8⟩ :=
      addLevelsLoop_spec n (h ++ [(⟨none, some hd.addr, none, none⟩ : node K V)])
        ([headerCell h.length hd.addr] :: (hd :: tl) :: rest)
        (headerCell h.length hd.addr) [] ((hd :: tl) :: rest) rfl hp
    have el : (h ++ [(⟨none, some hd.addr, none, none⟩ : node K V)]).length = h.length + 1 := by
      simp
    rw [el] at e1 e3 e4 e5 e6
    have eg : growG (n + 1) h.length ((hd :: tl) :: rest) =
        growG n (h.length + 1) ([headerCell h.length hd.addr] :: (hd :: tl) :: rest) := rfl
    have ea : addLevelsLoop (n + 1) h hd.addr =
        addLevelsLoop n (h ++ [(⟨none, some hd.addr, none, none⟩ : node K V)]) h.length := rfl
    rw [eg, ea]
    refine ⟨hd', tl', rest', e1, e2, e3, ?_, ?_, ?_, ?_, ?_⟩
    · rw [e4]; simp only [List.length_cons]; omega
    · rw [e5, List.replicate_succ', List.append_assoc]
      rfl
    · rw [e6, bottom_cons_cons]
    · have : h.length ≤ (h ++ [(⟨none, some hd.addr, none, none⟩ : node K V)]).length := by
        simp
      exact le_trans this e7
    · intro _
      cases n with
      | zero =>
        simp only [growG, List.cons.injEq] at e1
        exact e1.1.2.symm
      | succ n' => exact e8 (by simp)

theorem NewMap_inv (cmp : Comparator K) (e : V) :
    Inv (NewMap cmp e) [[⟨0, none, none, none⟩]] where
  toPreInv := {
    good := by
      refine ⟨?_, ?_, List.chain'_singleton _, ?_, ?_⟩
      · intro l hl
        rw [List.mem_singleton.1 hl]
        exact ⟨rfl, trivial⟩
      · intro l hl
        rw [List.mem_singleton.1 hl]
        exact ⟨List.pairwise_singleton _ _, ⟨_, _, rfl, rfl⟩, fun c hc hk => by
          rw [List.mem_singleton.1 hc] at hk; exact absurd rfl hk⟩
      · intro l hl c hc
        simp only [List.getLast?_singleton, Option.some.injEq] at hl
        subst hl
        rw [List.mem_singleton.1 hc]
      · simp [addrs]
    head := ⟨_, _, _, rfl, rfl⟩
    zero := ⟨_, _, rfl, rfl⟩
    levels := rfl
    size := rfl }
  top := fun hd rest e => by
    simp only [List.cons.injEq] at e; exact e.2.symm

/-! ## Entry lists of the levels -/

theorem lastKV_cons_cons (a b : List (K × V)) (ls : List (List (K × V))) :
    lastKV (a :: b :: ls) = lastKV (b :: ls) := by
  unfold lastKV; rw [List.getLast?_cons_cons]

theorem kvs_bottom : ∀ g : List (List (Cell K V)), kvs (bottom g) = lastKV (g.map kvs)
  | [] => rfl
  | [_] => rfl
  | a :: b :: g => by
    rw [bottom_cons_cons, List.map_cons, List.map_cons, lastKV_cons_cons, ← List.map_cons]
    exact kvs_bottom (b :: g)

theorem LevelOK.sortedKV_level {cmp : Comparator K} {l : List (Cell K V)} (h : LevelOK cmp l) :
    SortedKV cmp (kvs l) := by
  unfold SortedKV kvs
  rw [List.pairwise_filterMap]
  refine h.sorted.imp ?_
  intro a b hab p hp q hq
  cases ha : a.key <;> cases hva : a.value <;> simp [ha, hva] at hp
  cases hb : b.key <;> cases hvb : b.value <;> simp [hb, hvb] at hq
  subst hp hq
  rw [ha, hb] at hab
  exact hab

theorem kvs_others (cmp : Comparator K) (k : K) (l : List (Cell K V)) :
    kvs (others cmp k l) = del cmp k (kvs l) := by
  induction l with
  | nil => rfl
  | cons c t ih =>
    cases hk : c.key with
    | none =>
      have h1 : isOther cmp k c = true := by unfold isOther; rw [hk]
      show kvs (List.filter _ (c :: t)) = _
      rw [List.filter_cons_of_pos h1, kvs_cons_none hk, kvs_cons_none hk]
      exact ih
    | some y =>
      cases hv : c.value with
      | none =>
        have e1 : ∀ t' : List (Cell K V), kvs (c :: t') = kvs t' := by
          intro t'; unfold kvs
          rw [List.filterMap_cons_none]; simp [hk, hv]
        show kvs (List.filter _ (c :: t)) = _
        rw [e1 t]
        by_cases h1 : isOther cmp k c = true
        · rw [List.filter_cons_of_pos h1, e1]; exact ih
        · rw [List.filter_cons_of_neg h1]; exact ih
      | some w =>
        show kvs (List.filter _ (c :: t)) = _
        rw [kvs_cons_some hk hv]
        by_cases h1 : cmp k y = 0
        · have h2 : ¬ isOther cmp k c = true := by unfold isOther; rw [hk]; simp [h1]
          rw [List.filter_cons_of_neg h2]
          unfold del
          rw [List.filter_cons_of_neg (by simp [h1])]
          exact ih
        · have h2 : isOther cmp k c = true := by unfold isOther; rw [hk]; simp [h1]
          rw [List.filter_cons_of_pos h2, kvs_cons_some hk hv]
          unfold del
          rw [List.filter_cons_of_pos (by simp [h1])]
          exact congrArg _ ih

theorem hasKey_iff {cmp : Comparator K} (hc : IsStrictTotal cmp) {k : K} {es : List (K × V)} :
    hasKey cmp k es = true ↔ ∃ w, (k, w) ∈ es := by
  unfold hasKey
  rw [List.any_eq_true]
  constructor
  · rintro ⟨p, hp, he⟩
    have : k = p.1 := (hc.eq_iff _ _).1 (by simpa using he)
    exact ⟨p.2, by rw [this]; exact hp⟩
  · rintro ⟨w, hw⟩
    exact ⟨(k, w), hw, by simp [cmp_self hc]⟩

theorem hasKey_kvs {cmp : Comparator K} (hc : IsStrictTotal cmp) {k : K} {l : List (Cell K V)}
    (hl : LevelOK cmp l) : hasKey cmp k (kvs l) = true ↔ ∃ c ∈ l, c.key = some k := by
  rw [hasKey_iff hc]
  constructor
  · rintro ⟨w, hw⟩
    obtain ⟨c, hc1, hk, -⟩ := mem_kvs.1 hw
    exact ⟨c, hc1, hk⟩
  · rintro ⟨c, hc1, hk⟩
    obtain ⟨w, hw⟩ : ∃ w, c.value = some w :=
      Option.ne_none_iff_exists'.1 (hl.val c hc1 (by rw [hk]; simp))
    exact ⟨w, mem_kvs.2 ⟨c, hc1, hk, hw⟩⟩

theorem ins_length {cmp : Comparator K} (hc : IsStrictTotal cmp) (k : K) (v : V) :
    ∀ es : List (K × V), SortedKV cmp es →
      (ins cmp k v es).length = es.length + (if hasKey cmp k es = true then 0 else 1)
  | [], _ => rfl
  | p :: t, hs => by
    have hs' := List.pairwise_cons.1 hs
    rw [ins]
    by_cases h1 : cmp k p.1 < 0
    · have : hasKey cmp k (p :: t) = false := by
        apply hasKey_of_gt
        intro q hq
        rcases List.mem_cons.1 hq with rfl | hq
        · exact h1
        · exact hc.trans _ _ _ h1 (hs'.1 q hq)
      rw [if_pos h1, this]; simp
    · rw [if_neg h1]
      by_cases h2 : cmp k p.1 > 0
      · rw [if_pos h2, List.length_cons, ins_length hc k v t hs'.2, List.length_cons]
        have : hasKey cmp k (p :: t) = hasKey cmp k t := by
          unfold hasKey
          rw [List.any_cons]
          have : decide (cmp k p.1 = 0) = false := by simp; omega
          rw [this]; rfl
        rw [this]; omega
      · rw [if_neg h2]
        have : hasKey cmp k (p :: t) = true := by
          unfold hasKey
          rw [List.any_cons]
          have : decide (cmp k p.1 = 0) = true := by simp; omega
          rw [this]; rfl
        rw [this]; simp

theorem del_length {cmp : Comparator K} (hc : IsStrictTotal cmp) (k : K) :
    ∀ es : List (K × V), SortedKV cmp es →
      ((del cmp k es).length : Int) = es.length - (if hasKey cmp k es = true then 1 else 0)
  | [], _ => rfl
  | p :: t, hs => by
    have hs' := List.pairwise_cons.1 hs
    have ih := del_length hc k t hs'.2
    by_cases h1 : cmp k p.1 = 0
    · have hk : k = p.1 := (hc.eq_iff _ _).1 h1
      have ht : hasKey cmp k t = false := by
        apply hasKey_of_gt
        intro q hq
        rw [hk]; exact hs'.1 q hq
      have e1 : del cmp k (p :: t) = del cmp k t := by
        unfold del
        rw [List.filter_cons_of_neg (by simp [h1])]
      have e2 : hasKey cmp k (p :: t) = true := by
        unfold hasKey
        rw [List.any_cons]
        simp [h1]
      rw [e1, e2, ih, ht]
      simp
    · have e1 : del cmp k (p :: t) = p :: del cmp k t := by
        unfold del
        rw [List.filter_cons_of_pos (by simp [h1])]
      have e2 : hasKey cmp k (p :: t) = hasKey cmp k t := by
        unfold hasKey
        rw [List.any_cons]
        simp [h1]
      rw [e1, e2, List.length_cons, List.length_cons]
      push_cast
      rw [ih]; ring

theorem addG_cons_ne_nil (cmp : Comparator K) (k : K) (v : V) (nl cl : Int) (l : List (K × V))
    (ls : List (List (K × V))) : ∃ a t, addG cmp k v nl cl (l :: ls) = a :: t := by
  rw [addG]
  split_ifs <;> exact ⟨_, _, rfl⟩

/-- The bottom level always receives the entry: the level counter cannot be
above the drawn level there. -/
theorem addG_last (cmp : Comparator K) (k : K) (v : V) {nl : Int} (hnl : 0 ≤ nl) :
    ∀ (ls : List (List (K × V))) (cl : Int), ls ≠ [] → (nl < cl → cl + 1 ≤ ls.length) →
      lastKV (addG cmp k v nl cl ls) = ins cmp k v (lastKV ls)
  | [], _, h, _ => absurd rfl h
  | [l], cl, _, hm => by
    have hcl : ¬ cl > nl := by
      intro h
      have := hm h
      simp at this; omega
    rw [addG, if_neg hcl]
    rfl
  | l :: l2 :: rest, cl, _, hm => by
    have hlen : ((l :: l2 :: rest).length : Int) = ((l2 :: rest).length : Int) + 1 := by simp
    have key : ∀ (x : List (K × V)) (cl' : Int), (nl < cl' → cl' + 1 ≤ (l2 :: rest).length) →
        lastKV (x :: addG cmp k v nl cl' (l2 :: rest)) = ins cmp k v (lastKV (l :: l2 :: rest)) := by
      intro x cl' hm'
      obtain ⟨a, t, e⟩ := addG_cons_ne_nil cmp k v nl cl' l2 rest
      rw [e, lastKV_cons_cons, ← e, addG_last cmp k v hnl (l2 :: rest) cl' (by simp) hm',
        lastKV_cons_cons]
    rw [addG]
    split_ifs with h1 h2 h3
    · exact key _ _ (fun _ => by have := hm h1; omega)
    · exact key _ _ (fun h => absurd h (by omega))
    · exact key _ _ (fun _ => by have := hm h1; omega)
    · exact key _ _ (fun h => absurd h h1)

theorem shrinkKV_last : ∀ ls : List (List (K × V)), lastKV (shrinkKV ls) = lastKV ls
  | [] => rfl
  | [_] => rfl
  | l :: l2 :: rest => by
    rw [shrinkKV]
    split_ifs
    · rw [shrinkKV_last (l2 :: rest), lastKV_cons_cons]
    · rfl

theorem shrinkG_eq_self : ∀ (g : List (List (Cell K V))),
    (∀ l ∈ g, l ≠ []) → (∀ hd rest, g = [hd] :: rest → rest = []) → shrinkG g = g
  | [], _, _ => rfl
  | [_], _, _ => rfl
  | l :: l2 :: rest, hne, ht => by
    rw [shrinkG]
    have : ¬ l.length ≤ 1 := by
      intro h
      cases l with
      | nil => exact hne [] (List.mem_cons_self _ _) rfl
      | cons a t =>
        cases t with
        | nil => have := ht a (l2 :: rest) rfl; cases this
        | cons b t' => simp at h
    rw [if_neg this]

theorem Good.level_ne_nil {cmp : Comparator K} {h : List (node K V)}
    {g : List (List (Cell K V))} (hg : Good cmp h g) : ∀ l ∈ g, l ≠ [] := by
  intro l hl e
  obtain ⟨hd, tl, e2, -⟩ := (hg.lvl l hl).hdr
  rw [e] at e2; cases e2

theorem Good.length_le {cmp : Comparator K} {h : List (node K V)}
    {g : List (List (Cell K V))} (hg : Good cmp h g) : g.length ≤ h.length := by
  refine le_trans ?_ hg.card_le
  have := hg.level_ne_nil
  clear hg
  induction g with
  | nil => simp
  | cons l g ih =>
    have h1 : l ≠ [] := this l (List.mem_cons_self _ _)
    have h2 := ih (fun x hx => this x (List.mem_cons_of_mem _ hx))
    have h3 : 1 ≤ l.length := by
      cases l with
      | nil => exact absurd rfl h1
      | cons a t => simp
    simp only [List.length_cons, List.map_cons, List.sum_cons]
    omega

theorem bottom_mem : ∀ {g : List (List (Cell K V))}, g ≠ [] → bottom g ∈ g
  | [], h => absurd rfl h
  | [_], _ => List.mem_singleton.2 rfl
  | a :: b :: g, _ => by
    rw [bottom_cons_cons]
    exact List.mem_cons_of_mem _ (bottom_mem (by simp))

/-- Method `shrink` pops the empty top levels. -/
theorem shrink_spec {m : mapImpl K V} {g : List (List (Cell K V))} (hp : PreInv m g) :
    ∃ m', shrink m = some m' ∧ Inv m' (shrinkG g) ∧ m'.heap = m.heap ∧ m'.cmp = m.cmp ∧
      m'.size = m.size ∧ m'.emptyValue = m.emptyValue ∧ m'.zeroLevel = m.zeroLevel ∧
      (shrinkG g = g → m' = m) := by
  obtain ⟨hd, tl, rest, hge, hhd⟩ := hp.head
  obtain ⟨hd', tl', rest', e1, e2⟩ := shrinkLoop_spec g hd tl rest (m.heap.length + 1) m.levels
    hge hp.good (by have := hp.good.length_le; omega)
  refine ⟨{ m with head := hd'.addr,
                   levels := m.levels - ((g.length : Int) - ((shrinkG g).length : Int)) },
    ?_, ⟨⟨?_, ?_, ?_, ?_, ?_⟩, ?_⟩, rfl, rfl, rfl, rfl, rfl, ?_⟩
  · unfold shrink
    rw [hhd, e2]; rfl
  · exact hp.good.shrinkG
  · exact ⟨hd', tl', rest', e1, rfl⟩
  · rw [shrinkG_bottom]; exact hp.zero
  · have := hp.levels
    show m.levels - ((g.length : Int) - ((shrinkG g).length : Int)) + 1 = _
    omega
  · rw [shrinkG_bottom]; exact hp.size
  · exact shrinkG_top g
  · intro e
    rw [e] at e1
    rw [hge] at e1
    simp only [List.cons.injEq] at e1
    have h1 : hd'.addr = m.head := by rw [hhd, e1.1.1]
    rw [e, h1]
    cases m
    simp

/-! ## Method `Add` -/

/-- The header stack after the growth step of `Add`. -/
theorem grow_spec {m : mapImpl K V} {g : List (List (Cell K V))} (hp : PreInv m g) (nl : Int) :
    ∃ g1, PreInv (if m.levels < nl then addLevels m nl else m) g1 ∧
      (if m.levels < nl then addLevels m nl else m).levels = max m.levels nl ∧
      g1.map kvs = List.replicate (nl - m.levels).toNat [] ++ g.map kvs ∧
      bottom g1 = bottom g ∧
      (if m.levels < nl then addLevels m nl else m).cmp = m.cmp ∧
      (if m.levels < nl then addLevels m nl else m).size = m.size ∧
      (if m.levels < nl then addLevels m nl else m).zeroLevel = m.zeroLevel ∧
      (if m.levels < nl then addLevels m nl else m).emptyValue = m.emptyValue ∧
      m.heap.length ≤ (if m.levels < nl then addLevels m nl else m).heap.length := by
  by_cases h : m.levels < nl
  · rw [if_pos h]
    obtain ⟨hd, tl, rest, hge, hhd⟩ := hp.head
    obtain ⟨hd', tl', rest', e1, e2, e3, e4, e5, e6, e7, -⟩ :=
      @addLevelsLoop_spec K V m.cmp (nl - m.levels).toNat m.heap g hd tl rest hge hp.good
    rw [← hhd] at e2 e3 e7
    refine ⟨growG (nl - m.levels).toNat m.heap.length g, ⟨e3, ⟨hd', tl', rest', e1, e2⟩, ?_, ?_, ?_⟩,
      ?_, e5, e6, rfl, rfl, rfl, rfl, e7⟩
    · rw [e6]; exact hp.zero
    · have := hp.levels
      show nl + 1 = _
      rw [e4]
      have : ((nl - m.levels).toNat : Int) = nl - m.levels := Int.toNat_of_nonneg (by omega)
      push_cast
      omega
    · rw [e6]; exact hp.size
    · show nl = _
      rw [max_eq_right (le_of_lt h)]
  · rw [if_neg h]
    have e : (nl - m.levels).toNat = 0 := by
      apply Int.toNat_eq_zero.2; omega
    refine ⟨g, hp, ?_, ?_, rfl, rfl, rfl, rfl, rfl, le_refl _⟩
    · rw [max_eq_left (by omega)]
    · rw [e]; rfl

theorem bottom_header_of_others {cmp : Comparator K} {k : K} {g1 g2 : List (List (Cell K V))}
    (ho : g2.map (others cmp k) = g1.map (others cmp k))
    (h2 : ∀ l ∈ g2, LevelOK cmp l) (hne : g2 ≠ [])
    {hd0 : Cell K V} {tl0 : List (Cell K V)} (hb : bottom g1 = hd0 :: tl0) (hk : hd0.key = none) :
    ∃ tl0', bottom g2 = hd0 :: tl0' := by
  have e := congrArg bottom ho
  rw [bottom_map_others, bottom_map_others, hb] at e
  obtain ⟨a, t, ea, hka⟩ := (h2 _ (bottom_mem hne)).hdr
  rw [ea] at e
  have h1 : others cmp k (a :: t) = a :: others cmp k t := by
    show List.filter _ (a :: t) = _
    rw [List.filter_cons_of_pos (by unfold isOther; rw [hka])]; rfl
  have h3 : others cmp k (hd0 :: tl0) = hd0 :: others cmp k tl0 := by
    show List.filter _ (hd0 :: tl0) = _
    rw [List.filter_cons_of_pos (by unfold isOther; rw [hk])]; rfl
  rw [h1, h3] at e
  simp only [List.cons.injEq] at e
  exact ⟨t, by rw [ea, e.1]⟩

theorem LevelOK.head_key {cmp : Comparator K} {hd : Cell K V} {tl : List (Cell K V)}
    (h : LevelOK cmp (hd :: tl)) : hd.key = none := by
  obtain ⟨a, t, e, hk⟩ := h.hdr
  simp only [List.cons.injEq] at e
  rw [e.1]; exact hk

/-- Method `Add` with drawn level `nl` on a well-formed map: it returns, the result is
well formed, and its levels are those of the pure model. -/
theorem AddAt_spec {m : mapImpl K V} {g : List (List (Cell K V))} (hc : IsStrictTotal m.cmp)
    (hi : Inv m g) {nl : Int} (hnl : 0 ≤ nl) (k : K) (v : V) :
    ∃ m' g', AddAt m nl k v = some m' ∧ Inv m' g' ∧ m'.cmp = m.cmp ∧
      m'.emptyValue = m.emptyValue ∧ m'.zeroLevel = m.zeroLevel ∧
      g'.map kvs = shrinkKV (addG m.cmp k v nl (max m.levels nl)
        (List.replicate (nl - m.levels).toNat [] ++ g.map kvs)) ∧
      kvs (bottom g') = ins m.cmp k v (kvs (bottom g)) := by
  obtain ⟨g1, hp1, hlv1, hkv1, hb1, hcmp1, hsz1, hz1, hev1, -⟩ := grow_spec hi.toPreInv nl
  unfold AddAt
  simp only []
  generalize (if m.levels < nl then addLevels m nl else m) = m1 at *
  obtain ⟨hd, tl, rest, hge, hhd⟩ := hp1.head
  subst hge
  have hg1 := hp1.good
  rw [hcmp1] at hg1
  have hhk : hd.key = none := (hg1.lvl _ (List.mem_cons_self _ _)).head_key
  have hlen1 : m1.levels = rest.length := by
    have := hp1.levels
    simp only [List.length_cons] at this
    push_cast at this
    omega
  obtain ⟨h', ex', post', below', hres, hG, hO, hKV, -, -, -, -, hA, hB⟩ :=
    add_spec hc k v hnl rest tl [] hd m1.heap (m1.heap.length + 1) m1.levels none false hg1
      (by rw [hhk]; trivial) hg1.budget_le (fun _ => ⟨rfl, by omega⟩) (fun u hu => by cases hu)
  simp only [List.nil_append] at hG hO hA hB
  have hres' : AddLoop m1.cmp k v nl (m1.heap.length + 1) m1.heap (some m1.head) m1.levels
      none false = some (h', ex') := by
    rw [hcmp1, hhd]; exact hres
  rw [hres', Option.some_bind]
  have hlvb : LevelOK m.cmp (bottom ((hd :: tl) :: rest)) :=
    hg1.lvl _ (bottom_mem (by simp))
  have hkvb : kvs (bottom ((hd :: post') :: below')) =
      ins m.cmp k v (kvs (bottom ((hd :: tl) :: rest))) := by
    rw [kvs_bottom, kvs_bottom, List.map_cons, List.map_cons, kvs_cons_none hhk,
      kvs_cons_none hhk, hKV]
    exact addG_last m.cmp k v hnl _ _ (by simp) (fun hh => by
      simp only [List.length_cons, List.length_map]; push_cast; omega)
  have hex : ex' = hasKey m.cmp k (kvs (bottom ((hd :: tl) :: rest))) := by
    by_cases hh : ∃ c ∈ bottom ((hd :: tl) :: rest), c.key = some k
    · rw [hA hh, (hasKey_kvs hc hlvb).2 hh]
    · rw [hB (fun c' hc' hk' => hh ⟨c', hc', hk'⟩)]
      cases e : hasKey m.cmp k (kvs (bottom ((hd :: tl) :: rest))) with
      | false => rfl
      | true => exact absurd ((hasKey_kvs hc hlvb).1 e) hh
  obtain ⟨hd0, tl0, hb0, hz0⟩ := hp1.zero
  obtain ⟨tl0', hb0'⟩ := bottom_header_of_others hO hG.lvl (by simp) hb0
    (by rw [hb0] at hlvb; exact hlvb.head_key)
  have hp2 : PreInv ({ m1 with heap := h', size := if ex' = true then m1.size else m1.size + 1 })
      ((hd :: post') :: below') := by
    refine ⟨by rw [hcmp1]; exact hG, ⟨hd, post', below', rfl, hhd⟩, ⟨hd0, tl0', hb0', hz0⟩, ?_, ?_⟩
    · have := congrArg List.length hO
      simp only [List.length_map] at this
      rw [this]; exact hp1.levels
    · show (if ex' = true then m1.size else m1.size + 1) = _
      rw [hkvb, ins_length hc k v _ hlvb.sortedKV_level, hex, hp1.size]
      split_ifs <;> simp
  obtain ⟨m', e1, hi', -, e3, -, e5, e6, -⟩ := shrink_spec hp2
  refine ⟨m', _, e1, hi', e3.trans hcmp1, e5.trans hev1, e6.trans hz1, ?_, ?_⟩
  · rw [shrinkG_kvs _ hG.lvl, List.map_cons, kvs_cons_none hhk, hKV, hlv1, ← hkv1, List.map_cons,
      kvs_cons_none hhk]
  · rw [shrinkG_bottom, hkvb, hb1]

/-! ## Method `Remove` -/

theorem RepSeg_agree {h h' : List (node K V)} : ∀ {l : List (Cell K V)} {nxt : Option Nat},
    RepSeg h l nxt → RepSeg h' l nxt → ∀ c ∈ l, rd h' c.addr = rd h c.addr
  | [], _, _, _, c, hc => by cases hc
  | x :: t, nxt, h1, h2, c, hc => by
    rcases List.mem_cons.1 hc with rfl | hm
    · rw [h1.1, h2.1]
    · exact RepSeg_agree h1.2 h2.2 c hm

theorem Good.key_in_bottom' {cmp : Comparator K} {h : List (node K V)} :
    ∀ {g : List (List (Cell K V))}, Good cmp h g → ∀ l ∈ g, ∀ c ∈ l,
      ∃ c' ∈ bottom g, c'.key = c.key
  | [], _, l, hl, _, _ => by cases hl
  | a :: g, hg, l, hl, c, hc => by
    rcases List.mem_cons.1 hl with rfl | hl
    · exact hg.key_in_bottom c hc
    · cases g with
      | nil => cases hl
      | cons b g' =>
        rw [bottom_cons_cons]
        exact Good.key_in_bottom' hg.tail l hl c hc

theorem heap_ext {h h' : List (node K V)} (e : ∀ a, rd h' a = rd h a) : h' = h :=
  List.ext_getElem? e

/-- Method `Remove` on a well-formed map: it returns, the result is well formed, every
level has lost the key, and the result is the value stored on the zero level. -/
theorem Remove_spec {m : mapImpl K V} {g : List (List (Cell K V))} (hc : IsStrictTotal m.cmp)
    (hi : Inv m g) (k : K) :
    ∃ m' r, Remove m k = some (r, m') ∧ Inv m' (shrinkG (g.map (others m.cmp k))) ∧
      m'.cmp = m.cmp ∧ m'.emptyValue = m.emptyValue ∧ m'.zeroLevel = m.zeroLevel ∧
      kvs (bottom (shrinkG (g.map (others m.cmp k)))) = del m.cmp k (kvs (bottom g)) ∧
      (∀ w, (k, w) ∈ kvs (bottom g) → r = (w, true)) ∧
      ((∀ w, (k, w) ∉ kvs (bottom g)) → r = (m.emptyValue, false) ∧ m' = m) := by
  obtain ⟨hd, tl, rest, hge, hhd⟩ := hi.head
  subst hge
  have hg := hi.good
  have hhk : hd.key = none := (hg.lvl _ (List.mem_cons_self _ _)).head_key
  have hlen1 : m.levels = rest.length := by
    have := hi.levels
    simp only [List.length_cons] at this
    push_cast at this
    omega
  obtain ⟨h', found', fv', hres, hrep, hfr, hlen, hA, hB⟩ :=
    rem_spec hc k rest tl [] hd m.heap (m.heap.length + 1) false m.emptyValue hg
      (by rw [hhk]; trivial) hg.budget_le
  simp only [List.nil_append] at hrep hfr hA hB
  have hG' : Good m.cmp h' (((hd :: tl) :: rest).map (others m.cmp k)) := hg.others hrep
  have hlvb : LevelOK m.cmp (bottom ((hd :: tl) :: rest)) := hg.lvl _ (bottom_mem (by simp))
  have hkvb : kvs (bottom (((hd :: tl) :: rest).map (others m.cmp k))) =
      del m.cmp k (kvs (bottom ((hd :: tl) :: rest))) := by
    rw [bottom_map_others, kvs_others]
  have hfound : found' = hasKey m.cmp k (kvs (bottom ((hd :: tl) :: rest))) := by
    by_cases hh : ∃ c ∈ bottom ((hd :: tl) :: rest), c.key = some k
    · obtain ⟨c, hc1, hk1⟩ := hh
      rw [(hA c hc1 hk1).1, (hasKey_kvs hc hlvb).2 ⟨c, hc1, hk1⟩]
    · rw [(hB (fun c' hc' hk' => hh ⟨c', hc', hk'⟩)).1]
      cases e : hasKey m.cmp k (kvs (bottom ((hd :: tl) :: rest))) with
      | false => rfl
      | true => exact absurd ((hasKey_kvs hc hlvb).1 e) hh
  obtain ⟨hd0, tl0, hb0, hz0⟩ := hi.zero
  have hk0 : hd0.key = none := by rw [hb0] at hlvb; exact hlvb.head_key
  have hoh : ∀ (a : Cell K V) (t : List (Cell K V)), a.key = none →
      others m.cmp k (a :: t) = a :: others m.cmp k t := by
    intro a t ha
    show List.filter _ (a :: t) = _
    rw [List.filter_cons_of_pos (by unfold isOther; rw [ha])]; rfl
  have hp2 : PreInv ({ m with heap := h', size := if found' = true then m.size - 1 else m.size })
      (((hd :: tl) :: rest).map (others m.cmp k)) := by
    refine ⟨hG', ⟨hd, others m.cmp k tl, rest.map (others m.cmp k), ?_, hhd⟩,
      ⟨hd0, others m.cmp k tl0, ?_, hz0⟩, ?_, ?_⟩
    · rw [List.map_cons, hoh hd tl hhk]
    · rw [bottom_map_others, hb0, hoh hd0 tl0 hk0]
    · rw [List.length_map]; exact hi.levels
    · show (if found' = true then m.size - 1 else m.size) = _
      rw [hkvb, del_length hc k _ hlvb.sortedKV_level, hfound, hi.size]
      split_ifs <;> simp
  have hres' : RemoveLoop m.cmp k (m.heap.length + 1) m.heap (some m.head) m.levels false
      m.emptyValue = some (h', found', fv') := by
    rw [hhd, hlen1]; exact hres
  obtain ⟨m', e1, hi', -, e3, -, e5, e6, e7⟩ := shrink_spec hp2
  refine ⟨m', (fv', found'), ?_, hi', e3, e5, e6, ?_, ?_, ?_⟩
  · unfold Remove
    rw [hres', Option.some_bind]
    simp only []
    rw [e1]; rfl
  · rw [shrinkG_bottom, hkvb]
  · intro w hw
    obtain ⟨c, hc1, hk1, hv1⟩ := mem_kvs.1 hw
    obtain ⟨h1, h2⟩ := hA c hc1 hk1
    rw [h1]
    rw [hv1] at h2
    simp only [Option.some.injEq] at h2
    rw [h2]
  · intro hno
    have hnoc : ∀ c ∈ bottom ((hd :: tl) :: rest), c.key ≠ some k := by
      intro c hc1 hk1
      obtain ⟨w, hw⟩ : ∃ w, c.value = some w :=
        Option.ne_none_iff_exists'.1 (hlvb.val c hc1 (by rw [hk1]; simp))
      exact hno w (mem_kvs.2 ⟨c, hc1, hk1, hw⟩)
    obtain ⟨h1, h2⟩ := hB hnoc
    have hall : ∀ l ∈ (hd :: tl) :: rest, others m.cmp k l = l := by
      intro l hl
      apply others_eq_self
      intro c hc1
      rw [isOther_iff hc]
      intro hk1
      obtain ⟨c', hc', hk'⟩ := hg.key_in_bottom' l hl c hc1
      exact hnoc c' hc' (hk'.trans hk1)
    have hmap : ((hd :: tl) :: rest).map (others m.cmp k) = (hd :: tl) :: rest := by
      conv_rhs => rw [← List.map_id ((hd :: tl) :: rest)]
      exact List.map_congr_left fun l hl => hall l hl
    have hheap : h' = m.heap := by
      apply heap_ext
      intro a
      by_cases ha : a ∈ addrs ((hd :: tl) :: rest).flatten
      · simp only [addrs, List.mem_map, List.mem_flatten] at ha
        obtain ⟨c, ⟨l, hl, hc1⟩, rfl⟩ := ha
        have r1 := hrep l hl
        rw [hall l hl] at r1
        exact RepSeg_agree (hg.rep l hl) r1 c hc1
      · exact hfr a ha
    refine ⟨by rw [h1, h2], ?_⟩
    have hm2 : ({ m with heap := h', size := if found' = true then m.size - 1 else m.size } :
        mapImpl K V) = m := by
      rw [hheap, h1]
      cases m; simp
    rw [← hm2]
    apply e7
    rw [hmap]
    exact shrinkG_eq_self _ hg.level_ne_nil hi.top

/-! ## Method `ForEach` and `getLt` -/

theorem visit_true : ∀ es : List (K × V), visit (fun _ _ => true) es = es
  | [] => rfl
  | p :: t => by rw [visit, if_pos rfl, visit_true t]

theorem ForEachLoop_spec (f : K → V → Bool) {h : List (node K V)} :
    ∀ (l : List (Cell K V)) (fuel : Nat), RepSeg h l none →
      (∀ c ∈ l, c.key ≠ none → c.value ≠ none) → l.length ≤ fuel →
      ForEachLoop f h fuel (firstAddr l none) = some (visit f (kvs l))
  | [], fuel, _, _, _ => by cases fuel <;> rfl
  | c :: t, fuel, hr, hv, hf => by
    obtain ⟨n, rfl⟩ : ∃ n, fuel = n + 1 := ⟨fuel - 1, by simp at hf; omega⟩
    have ih := ForEachLoop_spec f t n hr.2 (fun x hx => hv x (List.mem_cons_of_mem _ hx))
      (by simp at hf; omega)
    have hc := hr.1
    cases hk : c.key with
    | none =>
      rw [kvs_cons_none hk]
      simp [ForEachLoop, firstAddr, hc, Cell.toNode, hk]
      exact ih
    | some ck =>
      obtain ⟨cv, hcv⟩ : ∃ w, c.value = some w :=
        Option.ne_none_iff_exists'.1 (hv c (List.mem_cons_self _ _) (by rw [hk]; simp))
      rw [kvs_cons_some hk hcv, visit]
      by_cases hfc : f ck cv = true
      · simp [ForEachLoop, firstAddr, hc, Cell.toNode, hk, hcv, hfc]
        exact ih
      · simp [ForEachLoop, firstAddr, hc, Cell.toNode, hk, hcv, hfc]

theorem Good.level_length_le {cmp : Comparator K} {h : List (node K V)}
    {g : List (List (Cell K V))} (hg : Good cmp h g) {l : List (Cell K V)} (hl : l ∈ g) :
    l.length ≤ h.length := by
  refine le_trans ?_ hg.card_le
  exact List.single_le_sum (fun _ _ => Nat.zero_le _) _ (List.mem_map_of_mem _ hl)

/-- Method `ForEach` calls the visitor on the entries of the zero level, in order. -/
theorem ForEach_spec {m : mapImpl K V} {g : List (List (Cell K V))} (hi : Inv m g)
    (f : K → V → Bool) : ForEach m f = some (visit f (kvs (bottom g)), m) := by
  obtain ⟨hd0, tl0, hb0, hz0⟩ := hi.zero
  have hne : g ≠ [] := by
    obtain ⟨hd, tl, rest, hge, -⟩ := hi.head
    rw [hge]; simp
  have hm := bottom_mem hne
  have := ForEachLoop_spec f (bottom g) (m.heap.length + 1) (hi.good.rep _ hm)
    (hi.good.lvl _ hm).val (by have := hi.good.level_length_le hm; omega)
  unfold ForEach
  rw [hz0]
  rw [hb0] at this
  rw [hb0]
  simp only [firstAddr] at this
  rw [this]; rfl

/-- Method `getLt` returns the last cell of the zero level whose key is below `k`. -/
theorem getLt_spec {m : mapImpl K V} {g : List (List (Cell K V))} (hc : IsStrictTotal m.cmp)
    (hi : Inv m g) (k : K) :
    ∃ pre c post, bottom g = pre ++ c :: post ∧ getLt m k = some c.addr ∧
      olt m.cmp c.key (some k) ∧ ∀ x ∈ post, ∃ y, x.key = some y ∧ m.cmp k y ≤ 0 := by
  obtain ⟨hd, tl, rest, hge, hhd⟩ := hi.head
  subst hge
  have hg := hi.good
  have hhk : hd.key = none := (hg.lvl _ (List.mem_cons_self _ _)).head_key
  obtain ⟨pre0, c0, post0, h1, h2, h3⟩ := getLtDown_spec hc k rest tl [] hd (m.heap.length + 1)
    hg (by rw [hhk]; trivial) hg.budget_le
  have hb : bottom ((hd :: tl) :: rest) = pre0 ++ c0 :: post0 := by
    simp only [List.nil_append] at h1
    unfold bottom; rw [h1]; rfl
  have hm : bottom ((hd :: tl) :: rest) ∈ (hd :: tl) :: rest := bottom_mem (by simp)
  rw [hb] at hm
  obtain ⟨pre1, c1, post1, e1, e2, e3, e4⟩ := getLtRight_spec hc k post0 pre0 c0
    (m.heap.length + 1) (hg.rep _ hm) (hg.lvl _ hm) h3 (by
      have := hg.level_length_le hm
      simp only [List.length_append, List.length_cons] at this
      omega)
  refine ⟨pre1, c1, post1, hb.trans e1, ?_, e3, e4⟩
  unfold getLt
  have h2' : getLtDown m.cmp k m.heap (m.heap.length + 1) hd.addr = some c0.addr := h2
  rw [hhd, h2', Option.some_bind, e2]

/-! ## Methods `Get`, `Lt` and `Gt` -/

theorem zero_split {m : mapImpl K V} {g : List (List (Cell K V))} (hc : IsStrictTotal m.cmp)
    (hi : Inv m g) (k : K) : ∃ pre c post, ZeroSplit m g k pre c post := by
  obtain ⟨pre, c, post, hb, hlt, ho, ha⟩ := getLt_spec hc hi k
  have hne : g ≠ [] := by
    obtain ⟨hd, tl, rest, hge, -⟩ := hi.head
    rw [hge]; simp
  have hm := bottom_mem hne
  rw [hb] at hm
  have hr := hi.good.rep _ hm
  have hl := hi.good.lvl _ hm
  refine ⟨pre, c, post, hb, hlt, RepSeg_split hr, ?_, hl, split_keys_lt hc hl.sorted ho, ha⟩
  exact ((RepSeg_append pre (c :: post) none).1 hr).2.2

theorem mem_split_cases {pre post : List (Cell K V)} {c x : Cell K V}
    (h : x ∈ pre ++ c :: post) : x ∈ pre ++ [c] ∨ x ∈ post := by
  simp only [List.mem_append, List.mem_cons, List.mem_singleton, List.not_mem_nil,
    or_false] at h ⊢
  tauto

theorem ZeroSplit.es {m : mapImpl K V} {g : List (List (Cell K V))} {k : K}
    {pre post : List (Cell K V)} {c : Cell K V} (z : ZeroSplit m g k pre c post)
    {p : K × V} (hp : p ∈ kvs (bottom g)) :
    (∃ x ∈ pre ++ [c], x.key = some p.1 ∧ x.value = some p.2) ∨
      (∃ x ∈ post, x.key = some p.1 ∧ x.value = some p.2) := by
  rw [z.bot] at hp
  obtain ⟨x, hx, hk, hv⟩ := mem_kvs.1 hp
  rcases mem_split_cases hx with h | h
  · exact Or.inl ⟨x, h, hk, hv⟩
  · exact Or.inr ⟨x, h, hk, hv⟩

theorem ZeroSplit.mem_es {m : mapImpl K V} {g : List (List (Cell K V))} {k : K}
    {pre post : List (Cell K V)} {c : Cell K V} (z : ZeroSplit m g k pre c post)
    {x : Cell K V} (hx : x ∈ pre ++ c :: post) {y : K} {w : V} (hk : x.key = some y)
    (hv : x.value = some w) : (y, w) ∈ kvs (bottom g) := by
  rw [z.bot]; exact mem_kvs.2 ⟨x, hx, hk, hv⟩

theorem ZeroSplit.value {m : mapImpl K V} {g : List (List (Cell K V))} {k : K}
    {pre post : List (Cell K V)} {c : Cell K V} (z : ZeroSplit m g k pre c post)
    {x : Cell K V} (hx : x ∈ pre ++ c :: post) {y : K} (hk : x.key = some y) :
    ∃ w, x.value = some w :=
  Option.ne_none_iff_exists'.1 (z.lvl.val x hx (by rw [hk]; simp))

/-- Keys of the cells after the first cell of `post`. -/
theorem ZeroSplit.after {m : mapImpl K V} {g : List (List (Cell K V))} {k : K}
    {pre post : List (Cell K V)} {c x : Cell K V}
    (z : ZeroSplit m g k pre c (x :: post)) : ∀ x' ∈ post, olt m.cmp x.key x'.key := by
  have h1 := (List.pairwise_cons.1 (List.pairwise_append.1 z.lvl.sorted).2.1).2
  exact (List.pairwise_cons.1 h1).1

theorem ZeroSplit.nextCell {m : mapImpl K V} {g : List (List (Cell K V))} {k : K}
    {pre post : List (Cell K V)} {c x : Cell K V}
    (z : ZeroSplit m g k pre c (x :: post)) :
    rd m.heap x.addr = some (x.toNode (firstAddr post none)) := z.rep.1

/-- Method `Get` finds exactly the entry of the zero level that carries the key. -/
theorem Get_spec {m : mapImpl K V} {g : List (List (Cell K V))} (hc : IsStrictTotal m.cmp)
    (hi : Inv m g) (k : K) :
    (∃ w, (k, w) ∈ kvs (bottom g) ∧ Get m k = some ((w, true), m)) ∨
      ((∀ w, (k, w) ∉ kvs (bottom g)) ∧ Get m k = some ((m.emptyValue, false), m)) := by
  obtain ⟨pre, c, post, z⟩ := zero_split hc hi k
  have hlow : ∀ w, ¬ ∃ x ∈ pre ++ [c], x.key = some (k, w).1 ∧ x.value = some (k, w).2 := by
    rintro w ⟨x, hx, hk, -⟩
    have := z.below x hx
    rw [hk] at this
    exact olt_irrefl hc _ this
  cases post with
  | nil =>
    right
    constructor
    · intro w hw
      rcases z.es hw with h | ⟨x, hx, -⟩
      · exact hlow w h
      · cases hx
    · unfold Get
      rw [z.lt, Option.some_bind, z.cell]
      rfl
  | cons x post =>
    obtain ⟨y, hy, hle⟩ := z.above x (List.mem_cons_self _ _)
    obtain ⟨xw, hxw⟩ := z.value (by simp) hy
    have hx := z.nextCell
    by_cases he : m.cmp k y = 0
    · left
      have hky : k = y := (hc.eq_iff _ _).1 he
      refine ⟨xw, ?_, ?_⟩
      · rw [hky]; exact z.mem_es (by simp) hy hxw
      · unfold Get
        rw [z.lt, Option.some_bind, z.cell]
        simp [Cell.toNode, firstAddr, hx, hy, he, hxw]
    · right
      constructor
      · intro w hw
        rcases z.es hw with h | ⟨x', hx', hk', -⟩
        · exact hlow w h
        · rcases List.mem_cons.1 hx' with rfl | hx'
          · rw [hy] at hk'
            simp only [Option.some.injEq] at hk'
            exact he (by rw [hk']; exact cmp_self hc k)
          · have := z.after x' hx'
            rw [hy, hk'] at this
            have h2 : m.cmp y k < 0 := this
            have := (hc.swap _ _).1 h2
            omega
      · unfold Get
        rw [z.lt, Option.some_bind, z.cell]
        simp [Cell.toNode, firstAddr, hx, hy, he]

/-- Method `Lt` returns the value of the greatest key below `k`. -/
theorem Lt_spec {m : mapImpl K V} {g : List (List (Cell K V))} (hc : IsStrictTotal m.cmp)
    (hi : Inv m g) (k : K) :
    (∃ k' w, (k', w) ∈ kvs (bottom g) ∧ m.cmp k' k < 0 ∧
        (∀ p ∈ kvs (bottom g), m.cmp p.1 k < 0 → m.cmp p.1 k' ≤ 0) ∧
        Lt m k = some ((w, true), m)) ∨
      ((∀ p ∈ kvs (bottom g), ¬ m.cmp p.1 k < 0) ∧
        Lt m k = some ((m.emptyValue, false), m)) := by
  obtain ⟨pre, c, post, z⟩ := zero_split hc hi k
  have hhigh : ∀ p : K × V, (∃ x ∈ post, x.key = some p.1 ∧ x.value = some p.2) →
      ¬ m.cmp p.1 k < 0 := by
    rintro p ⟨x, hx, hk, -⟩ hlt
    obtain ⟨y, hy, hle⟩ := z.above x hx
    rw [hk] at hy
    simp only [Option.some.injEq] at hy
    have := (hc.swap _ _).1 hlt
    rw [hy] at this
    omega
  have hsort := (List.pairwise_append.1 z.lvl.sorted).2.2
  cases hk : c.key with
  | none =>
    right
    constructor
    · intro p hp
      rcases z.es hp with ⟨x, hx, hkx, -⟩ | h
      · rcases List.mem_append.1 hx with hx | hx
        · have := hsort x hx c (List.mem_cons_self _ _)
          rw [hk] at this
          exact absurd this (olt_none_right _ _)
        · rw [List.mem_singleton.1 hx, hk] at hkx
          cases hkx
      · exact hhigh p h
    · unfold Lt
      rw [z.lt, Option.some_bind, z.cell]
      simp [Cell.toNode, hk]
  | some y =>
    left
    obtain ⟨w, hw⟩ := z.value (by simp) hk
    refine ⟨y, w, z.mem_es (by simp) hk hw, ?_, ?_, ?_⟩
    · have := z.below c (by simp)
      rw [hk] at this; exact this
    · intro p hp hlt
      rcases z.es hp with ⟨x, hx, hkx, -⟩ | h
      · rcases List.mem_append.1 hx with hx | hx
        · have := hsort x hx c (List.mem_cons_self _ _)
          rw [hk, hkx] at this
          exact le_of_lt this
        · rw [List.mem_singleton.1 hx, hk] at hkx
          simp only [Option.some.injEq] at hkx
          rw [← hkx, cmp_self hc]
      · exact absurd hlt (hhigh p h)
    · unfold Lt
      rw [z.lt, Option.some_bind, z.cell]
      simp [Cell.toNode, hk, hw]

/-- Method `Gt` returns the value of the least key above `k`. -/
theorem Gt_spec {m : mapImpl K V} {g : List (List (Cell K V))} (hc : IsStrictTotal m.cmp)
    (hi : Inv m g) (k : K) :
    (∃ k' w, (k', w) ∈ kvs (bottom g) ∧ m.cmp k k' < 0 ∧
        (∀ p ∈ kvs (bottom g), m.cmp k p.1 < 0 → m.cmp k' p.1 ≤ 0) ∧
        Gt m k = some ((w, true), m)) ∨
      ((∀ p ∈ kvs (bottom g), ¬ m.cmp k p.1 < 0) ∧
        Gt m k = some ((m.emptyValue, false), m)) := by
  obtain ⟨pre, c, post, z⟩ := zero_split hc hi k
  have hlow : ∀ p : K × V, (∃ x ∈ pre ++ [c], x.key = some p.1 ∧ x.value = some p.2) →
      ¬ m.cmp k p.1 < 0 := by
    rintro p ⟨x, hx, hk, -⟩ hlt
    have := z.below x hx
    rw [hk] at this
    have h2 : m.cmp p.1 k < 0 := this
    have := (hc.swap _ _).1 h2
    omega
  cases post with
  | nil =>
    right
    constructor
    · intro p hp
      rcases z.es hp with h | ⟨x, hx, -⟩
      · exact hlow p h
      · cases hx
    · unfold Gt
      rw [z.lt, Option.some_bind, z.cell]
      rfl
  | cons x post =>
    obtain ⟨y, hy, hle⟩ := z.above x (List.mem_cons_self _ _)
    obtain ⟨xw, hxw⟩ := z.value (by simp) hy
    have hx := z.nextCell
    have hafter := z.after
    by_cases he : m.cmp k y = 0
    · have hky : k = y := (hc.eq_iff _ _).1 he
      cases post with
      | nil =>
        right
        constructor
        · intro p hp
          rcases z.es hp with h | ⟨x', hx', hk', -⟩
          · exact hlow p h
          · rw [List.mem_singleton.1 hx', hy] at hk'
            simp only [Option.some.injEq] at hk'
            rw [← hk', he]; omega
        · unfold Gt
          rw [z.lt, Option.some_bind, z.cell]
          simp [Cell.toNode, firstAddr, hx, hy, he]
      | cons x2 post =>
        left
        have h12 := hafter x2 (List.mem_cons_self _ _)
        obtain ⟨y2, hy2⟩ := olt_isSome h12
        obtain ⟨w2, hw2⟩ := z.value (by simp) hy2
        have hx2 : rd m.heap x2.addr = some (x2.toNode (firstAddr post none)) := z.rep.2.1
        rw [hy, hy2] at h12
        have h12' : m.cmp y y2 < 0 := h12
        refine ⟨y2, w2, z.mem_es (by simp) hy2 hw2, by rw [hky]; exact h12', ?_, ?_⟩
        · intro p hp hlt
          rcases z.es hp with h | ⟨x', hx', hk', -⟩
          · exact absurd hlt (hlow p h)
          · rcases List.mem_cons.1 hx' with rfl | hx'
            · rw [hy] at hk'
              simp only [Option.some.injEq] at hk'
              rw [← hk', he] at hlt; omega
            · rcases List.mem_cons.1 hx' with rfl | hx'
              · rw [hy2] at hk'
                simp only [Option.some.injEq] at hk'
                rw [← hk', cmp_self hc]
              · have h3 := (List.pairwise_cons.1
                  (List.pairwise_cons.1 (List.pairwise_cons.1
                    (List.pairwise_append.1 z.lvl.sorted).2.1).2).2).1 x' hx'
                rw [hy2, hk'] at h3
                exact le_of_lt h3
        · unfold Gt
          rw [z.lt, Option.some_bind, z.cell]
          simp [Cell.toNode, firstAddr, hx, hy, he, hx2, hy2, hw2]
    · left
      have hlt : m.cmp k y < 0 := by omega
      refine ⟨y, xw, z.mem_es (by simp) hy hxw, hlt, ?_, ?_⟩
      · intro p hp hltp
        rcases z.es hp with h | ⟨x', hx', hk', -⟩
        · exact absurd hltp (hlow p h)
        · rcases List.mem_cons.1 hx' with rfl | hx'
          · rw [hy] at hk'
            simp only [Option.some.injEq] at hk'
            rw [← hk', cmp_self hc]
          · have h3 := hafter x' hx'
            rw [hy, hk'] at h3
            exact le_of_lt h3
      · unfold Gt
        rw [z.lt, Option.some_bind, z.cell]
        simp [Cell.toNode, firstAddr, hx, hy, he, hxw]

/-! ## Methods `LtEq` and `GtEq` -/

/-- Method `LtEq` and `GtEq` agree with `Get` when `Get` finds the key, and with `Lt`
and `Gt` when it does not; this holds on every map on which `Get` returns. -/
theorem floor_ceiling (m : mapImpl K V) (k : K) (r : (V × Bool) × mapImpl K V)
    (hr : Get m k = some r) :
    (r.1.2 = true → LtEq m k = Get m k ∧ GtEq m k = Get m k) ∧
      (r.1.2 = false → LtEq m k = Lt m k ∧ GtEq m k = Gt m k) := by
  unfold Get at hr
  unfold Get LtEq GtEq Lt Gt
  cases h1 : getLt m k with
  | none => rw [h1] at hr; cases hr
  | some lt =>
    rw [h1] at hr
    simp only [Option.some_bind] at hr ⊢
    cases h2 : rd m.heap lt with
    | none => rw [h2] at hr; cases hr
    | some ltn =>
      rw [h2] at hr
      simp only [Option.some_bind] at hr ⊢
      cases h3 : ltn.right with
      | none =>
        rw [h3] at hr
        simp only [Option.some.injEq] at hr
        subst hr
        simp
      | some rp =>
        rw [h3] at hr
        simp only at hr ⊢
        cases h4 : rd m.heap rp with
        | none => rw [h4] at hr; cases hr
        | some rn =>
          rw [h4] at hr
          simp only [Option.some_bind] at hr ⊢
          cases h5 : rn.key with
          | none =>
            rw [h5] at hr
            simp only [Option.some.injEq] at hr
            subst hr
            simp
          | some rk =>
            rw [h5] at hr
            simp only at hr ⊢
            by_cases h6 : m.cmp k rk = 0
            · rw [if_pos h6] at hr
              simp only [if_pos h6]
              cases h7 : rn.value with
              | none => rw [h7] at hr; cases hr
              | some w =>
                rw [h7] at hr
                simp only [Option.some_bind, Option.some.injEq] at hr
                subst hr
                simp
            · rw [if_neg h6] at hr
              simp only [if_neg h6]
              simp only [Option.some.injEq] at hr
              subst hr
              simp

/-! ## Range traversal and sequences of calls -/

theorem ForEachRangeLoop_spec (cmp : Comparator K) (stop : K) (f : K → V → Bool)
    {h : List (node K V)} :
    ∀ (l : List (Cell K V)) (fuel : Nat), RepSeg h l none →
      (∀ c ∈ l, ∃ y w, c.key = some y ∧ c.value = some w) → l.length ≤ fuel →
      ForEachRangeLoop cmp stop f h fuel (firstAddr l none) =
        some (visit f ((kvs l).takeWhile fun p => decide (cmp p.1 stop < 0)))
  | [], fuel, _, _, _ => by cases fuel <;> rfl
  | c :: t, fuel, hr, hv, hf => by
    obtain ⟨n, rfl⟩ : ∃ n, fuel = n + 1 := ⟨fuel - 1, by simp at hf; omega⟩
    have ih := ForEachRangeLoop_spec cmp stop f t n hr.2
      (fun x hx => hv x (List.mem_cons_of_mem _ hx)) (by simp at hf; omega)
    have hc := hr.1
    obtain ⟨ck, cv, hk, hcv⟩ := hv c (List.mem_cons_self _ _)
    rw [kvs_cons_some hk hcv]
    have step : ForEachRangeLoop cmp stop f h (n + 1) (firstAddr (c :: t) none) =
        if cmp ck stop ≥ 0 then some []
        else if f ck cv = true then
          (ForEachRangeLoop cmp stop f h n (firstAddr t none)).map fun t => (ck, cv) :: t
        else some [(ck, cv)] := by
      show ForEachRangeLoop cmp stop f h (n + 1) (some c.addr) = _
      rw [ForEachRangeLoop, hc, Option.some_bind]
      simp only [Cell.toNode, hk, hcv, Option.some_bind]
    rw [step, ih]
    by_cases hs : cmp ck stop < 0
    · have hs' : ¬ cmp ck stop ≥ 0 := by omega
      rw [List.takeWhile_cons_of_pos (by simpa using hs), visit, if_neg hs']
      by_cases hfc : f ck cv = true
      · rw [if_pos hfc, if_pos hfc]; rfl
      · rw [if_neg hfc, if_neg hfc]
    · have hs' : cmp ck stop ≥ 0 := by omega
      rw [List.takeWhile_cons_of_neg (by simpa using hs), if_pos hs']
      rfl

theorem sorted_filter_eq_takeWhile {cmp : Comparator K} (hc : IsStrictTotal cmp) (b : K) :
    ∀ es : List (K × V), SortedKV cmp es →
      es.filter (fun p => decide (cmp p.1 b < 0)) = es.takeWhile fun p => decide (cmp p.1 b < 0)
  | [], _ => rfl
  | p :: t, hs => by
    have hs' := List.pairwise_cons.1 hs
    by_cases h : cmp p.1 b < 0
    · rw [List.filter_cons_of_pos (by simpa using h), List.takeWhile_cons_of_pos (by simpa using h),
        sorted_filter_eq_takeWhile hc b t hs'.2]
    · rw [List.filter_cons_of_neg (by simpa using h), List.takeWhile_cons_of_neg (by simpa using h)]
      rw [List.filter_eq_nil_iff]
      intro q hq hqb
      simp only [decide_eq_true_eq] at hqb
      exact h (hc.trans _ _ _ (hs'.1 q hq) hqb)

/-- Method `ForEachRange` calls the visitor on the entries whose key is at least
`start` and below `stop`, in order. -/
theorem ForEachRange_spec {m : mapImpl K V} {g : List (List (Cell K V))}
    (hc : IsStrictTotal m.cmp) (hi : Inv m g) (start stop : K) (f : K → V → Bool) :
    ForEachRange m start stop f = some (visit f ((kvs (bottom g)).filter fun p =>
      decide (m.cmp start p.1 ≤ 0) && decide (m.cmp p.1 stop < 0)), m) := by
  obtain ⟨pre, c, post, z⟩ := zero_split hc hi start
  have hvals : ∀ x ∈ post, ∃ y w, x.key = some y ∧ x.value = some w := by
    intro x hx
    obtain ⟨y, hy, -⟩ := z.above x hx
    obtain ⟨w, hw⟩ := z.value (by simp [hx]) hy
    exact ⟨y, w, hy, hw⟩
  have hne : g ≠ [] := by
    obtain ⟨hd, tl, rest, hge, -⟩ := hi.head
    rw [hge]; simp
  have hlen : post.length ≤ m.heap.length + 1 := by
    have := hi.good.level_length_le (bottom_mem hne)
    rw [z.bot] at this
    simp only [List.length_append, List.length_cons] at this
    omega
  have hloop := ForEachRangeLoop_spec m.cmp stop f post (m.heap.length + 1) z.rep hvals hlen
  have e0 : pre ++ c :: post = (pre ++ [c]) ++ post := by simp
  have hes : (kvs (bottom g)).filter (fun p =>
      decide (m.cmp start p.1 ≤ 0) && decide (m.cmp p.1 stop < 0)) =
      (kvs post).takeWhile fun p => decide (m.cmp p.1 stop < 0) := by
    rw [z.bot, e0, kvs_append, List.filter_append]
    have h1 : (kvs (pre ++ [c])).filter (fun p =>
        decide (m.cmp start p.1 ≤ 0) && decide (m.cmp p.1 stop < 0)) = [] := by
      rw [List.filter_eq_nil_iff]
      intro p hp
      have := (hc.swap _ _).1 (kvs_lt z.below p hp)
      simp only [Bool.and_eq_true, decide_eq_true_eq, not_and]
      intro h; omega
    have h2 : (kvs post).filter (fun p =>
        decide (m.cmp start p.1 ≤ 0) && decide (m.cmp p.1 stop < 0)) =
        (kvs post).filter fun p => decide (m.cmp p.1 stop < 0) := by
      apply List.filter_congr
      intro p hp
      obtain ⟨x, hx, hk, -⟩ := mem_kvs.1 hp
      obtain ⟨y, hy, hle⟩ := z.above x hx
      rw [hk] at hy
      simp only [Option.some.injEq] at hy
      rw [hy]
      simp [hle]
    have hsp : SortedKV m.cmp (kvs post) := by
      have := z.lvl.sortedKV_level
      rw [e0, kvs_append] at this
      exact (List.pairwise_append.1 this).2.1
    rw [h1, h2, List.nil_append, sorted_filter_eq_takeWhile hc stop _ hsp]
  unfold ForEachRange
  rw [z.lt, Option.some_bind, z.cell, Option.some_bind]
  show Option.map _ (ForEachRangeLoop m.cmp stop f m.heap (m.heap.length + 1)
    (firstAddr post none)) = _
  rw [hloop, hes]; rfl

theorem randomLevelFrom_bounds (coin : Int) : ∀ n : Nat, n ≤ 62 →
    0 ≤ randomLevelFrom coin n ∧ randomLevelFrom coin n ≤ 61
  | 0, _ => by simp [randomLevelFrom]
  | i + 1, hn => by
    rw [randomLevelFrom]
    split_ifs
    · constructor <;> omega
    · exact randomLevelFrom_bounds coin i (by omega)

theorem randomLevel_nonneg (coin : Int) : 0 ≤ randomLevel coin :=
  (randomLevelFrom_bounds coin 62 (le_refl _)).1

theorem mem_ins {cmp : Comparator K} (hc : IsStrictTotal cmp) (k : K) (v : V) :
    ∀ (es : List (K × V)), SortedKV cmp es → ∀ p : K × V,
      p ∈ ins cmp k v es ↔ p = (k, v) ∨ (p ∈ es ∧ p.1 ≠ k)
  | [], _, p => by simp [ins]
  | q :: t, hs, p => by
    have hs' := List.pairwise_cons.1 hs
    rw [ins]
    by_cases h1 : cmp k q.1 < 0
    · rw [if_pos h1]
      have hall : ∀ x ∈ q :: t, x.1 ≠ k := by
        intro x hx e
        rcases List.mem_cons.1 hx with rfl | hx
        · rw [e, cmp_self hc] at h1; omega
        · have := hc.trans _ _ _ h1 (hs'.1 x hx)
          rw [e, cmp_self hc] at this; omega
      constructor
      · intro hp
        rcases List.mem_cons.1 hp with rfl | hp
        · exact Or.inl rfl
        · exact Or.inr ⟨hp, hall p hp⟩
      · rintro (rfl | ⟨hp, -⟩)
        · exact List.mem_cons_self _ _
        · exact List.mem_cons_of_mem _ hp
    · rw [if_neg h1]
      by_cases h2 : cmp k q.1 > 0
      · rw [if_pos h2]
        have hq : q.1 ≠ k := by
          intro e; rw [e, cmp_self hc] at h2; omega
        simp only [List.mem_cons, mem_ins hc k v t hs'.2 p]
        constructor
        · rintro (rfl | rfl | ⟨hp, hne⟩)
          · exact Or.inr ⟨Or.inl rfl, hq⟩
          · exact Or.inl rfl
          · exact Or.inr ⟨Or.inr hp, hne⟩
        · rintro (rfl | ⟨rfl | hp, hne⟩)
          · exact Or.inr (Or.inl rfl)
          · exact Or.inl rfl
          · exact Or.inr (Or.inr ⟨hp, hne⟩)
      · rw [if_neg h2]
        have hq : k = q.1 := (hc.eq_iff _ _).1 (by omega)
        have hall : ∀ x ∈ t, x.1 ≠ k := by
          intro x hx e
          have := hs'.1 x hx
          rw [e, ← hq, cmp_self hc] at this; omega
        simp only [List.mem_cons]
        constructor
        · rintro (rfl | hp)
          · exact Or.inl (by rw [hq])
          · exact Or.inr ⟨Or.inr hp, hall p hp⟩
        · rintro (rfl | ⟨rfl | hp, hne⟩)
          · exact Or.inl (by rw [hq])
          · exact absurd hq.symm hne
          · exact Or.inr hp

theorem mem_del {cmp : Comparator K} (hc : IsStrictTotal cmp) (k : K) (es : List (K × V))
    (p : K × V) : p ∈ del cmp k es ↔ p ∈ es ∧ p.1 ≠ k := by
  unfold del
  rw [List.mem_filter]
  simp only [ne_eq, decide_not, Bool.not_eq_eq_eq_not, Bool.not_true, decide_eq_false_iff_not]
  rw [hc.eq_iff]
  constructor
  · rintro ⟨h1, h2⟩; exact ⟨h1, fun e => h2 e.symm⟩
  · rintro ⟨h1, h2⟩; exact ⟨h1, fun e => h2 e.symm⟩

theorem sortedKV_unique {cmp : Comparator K} (hc : IsStrictTotal cmp) {es : List (K × V)}
    (hs : SortedKV cmp es) {k : K} {v w : V} (h1 : (k, v) ∈ es) (h2 : (k, w) ∈ es) : v = w := by
  induction es with
  | nil => cases h1
  | cons q t ih =>
    have hs' := List.pairwise_cons.1 hs
    rcases List.mem_cons.1 h1 with e1 | h1 <;> rcases List.mem_cons.1 h2 with e2 | h2
    · rw [← e1] at e2
      simp only [Prod.mk.injEq, true_and] at e2
      exact e2.symm
    · have := hs'.1 _ h2
      rw [← e1, cmp_self hc] at this
      exact absurd this (by simp)
    · have := hs'.1 _ h1
      rw [← e2, cmp_self hc] at this
      exact absurd this (by simp)
    · exact ih hs'.2 h1 h2

/-! ## The invariant of reachable maps -/

theorem Inv.sortedKV {m : mapImpl K V} {g : List (List (Cell K V))} (hi : Inv m g) :
    SortedKV m.cmp (kvs (bottom g)) := by
  have hne : g ≠ [] := by
    obtain ⟨hd, tl, rest, hge, -⟩ := hi.head
    rw [hge]; simp
  exact (hi.good.lvl _ (bottom_mem hne)).sortedKV_level

/-- One mutating call on a well-formed map returns a well-formed map, and the
zero level follows the sorted association list. -/
theorem applyOp_inv {m : mapImpl K V} {g : List (List (Cell K V))} (hc : IsStrictTotal m.cmp)
    (hi : Inv m g) (o : Op K V) :
    ∃ m' g', applyOp m o = some m' ∧ Inv m' g' ∧ m'.cmp = m.cmp ∧
      m'.emptyValue = m.emptyValue ∧
      kvs (bottom g') = (match o with
        | .add _ k v => ins m.cmp k v (kvs (bottom g))
        | .remove k => del m.cmp k (kvs (bottom g))) := by
  cases o with
  | add coin k v =>
    obtain ⟨m', g', h1, h2, h3, h4, -, -, h7⟩ := AddAt_spec hc hi (randomLevel_nonneg coin) k v
    exact ⟨m', g', h1, h2, h3, h4, h7⟩
  | remove k =>
    obtain ⟨m', r, h1, h2, h3, h4, -, h6, -, -⟩ := Remove_spec hc hi k
    refine ⟨m', _, ?_, h2, h3, h4, h6⟩
    show Option.map Prod.snd (Remove m k) = some m'
    rw [h1]; rfl

theorem written_step {cmp : Comparator K} (hc : IsStrictTotal cmp) {g g' : List (List (Cell K V))}
    (hs : SortedKV cmp (kvs (bottom g))) (o : Op K V)
    (he : kvs (bottom g') = (match o with
        | .add _ k v => ins cmp k v (kvs (bottom g))
        | .remove k => del cmp k (kvs (bottom g))))
    (k : K) (acc : Option V) (ha : Holds g k acc) :
    Holds g' k (match o with
      | .add _ k' v => if cmp k k' = 0 then some v else acc
      | .remove k' => if cmp k k' = 0 then none else acc) := by
  intro w
  cases o with
  | add coin k' v =>
    simp only at he ⊢
    rw [he, mem_ins hc k' v _ hs]
    by_cases h : cmp k k' = 0
    · have hk : k = k' := (hc.eq_iff _ _).1 h
      rw [if_pos h]
      subst hk
      simp only [Prod.mk.injEq, true_and, ne_eq, not_true_eq_false, and_false, or_false,
        Option.some.injEq]
      exact eq_comm
    · have hk : k ≠ k' := fun e => h ((hc.eq_iff _ _).2 e)
      rw [if_neg h]
      simp only [Prod.mk.injEq, hk, false_and, ne_eq, not_false_eq_true, and_true, false_or]
      exact ha w
  | remove k' =>
    simp only at he ⊢
    rw [he, mem_del hc]
    by_cases h : cmp k k' = 0
    · have hk : k = k' := (hc.eq_iff _ _).1 h
      rw [if_pos h]
      simp [hk]
    · have hk : k ≠ k' := fun e => h ((hc.eq_iff _ _).2 e)
      rw [if_neg h]
      simp only [ne_eq, hk, not_false_eq_true, and_true]
      exact ha w

/-- Every sequence of calls on a well-formed map returns a well-formed map. -/
theorem runOps_inv : ∀ (ops : List (Op K V)) (m0 : mapImpl K V) (g0 : List (List (Cell K V))),
    IsStrictTotal m0.cmp → Inv m0 g0 →
    ∃ m g, runOps m0 ops = some m ∧ Inv m g ∧ m.cmp = m0.cmp ∧ m.emptyValue = m0.emptyValue ∧
      ∀ k acc, Holds g0 k acc → Holds g k (written m0.cmp k acc ops)
  | [], m0, g0, _, hi => ⟨m0, g0, rfl, hi, rfl, rfl, fun _ _ h => h⟩
  | o :: os, m0, g0, hc, hi => by
    obtain ⟨m1, g1, h1, h2, h3, h4, h5⟩ := applyOp_inv hc hi o
    obtain ⟨m, g, e1, e2, e3, e4, e5⟩ := runOps_inv os m1 g1 (by rw [h3]; exact hc) h2
    refine ⟨m, g, ?_, e2, e3.trans h3, e4.trans h4, ?_⟩
    · show (applyOp m0 o).bind _ = _
      rw [h1]; exact e1
    · intro k acc ha
      have := e5 k _ (written_step hc hi.sortedKV o h5 k acc ha)
      rw [h3] at this
      cases o <;> exact this

/-- A reachable map is a well-formed skip list whose zero level holds, for
every key, the value last written for it. -/
theorem reach_inv {cmp : Comparator K} (hc : IsStrictTotal cmp) (e : V) {ops : List (Op K V)}
    {m : mapImpl K V} (hrun : runOps (NewMap cmp e) ops = some m) :
    ∃ g, Inv m g ∧ m.cmp = cmp ∧ m.emptyValue = e ∧
      ∀ k, Holds g k (lastWritten cmp k ops) := by
  obtain ⟨m', g, h1, h2, h3, h4, h5⟩ := runOps_inv ops (NewMap cmp e) _ hc (NewMap_inv cmp e)
  rw [hrun] at h1
  simp only [Option.some.injEq] at h1
  subst h1
  refine ⟨g, h2, h3, h4, fun k => h5 k none ?_⟩
  intro w
  simp [bottom, kvs]

theorem Reachable.inv {cmp : Comparator K} (hc : IsStrictTotal cmp) {e : V} {m : mapImpl K V}
    (hr : Reachable cmp e m) : ∃ g, Inv m g ∧ m.cmp = cmp ∧ m.emptyValue = e := by
  obtain ⟨ops, -, hrun⟩ := hr
  obtain ⟨g, h1, h2, h3, -⟩ := reach_inv hc e hrun
  exact ⟨g, h1, h2, h3⟩

/-! ## The header stack and the key towers -/

/-- Following `down` from a cell of the top level visits one cell of the same
key on every level. -/
theorem downChain_spec {cmp : Comparator K} {h : List (node K V)} :
    ∀ (rest : List (List (Cell K V))) (l : List (Cell K V)) (c : Cell K V) (fuel : Nat),
      Good cmp h (l :: rest) → c ∈ l → rest.length + 1 ≤ fuel →
      ∃ cs : List (Cell K V), downChain h fuel c.addr = some (cs.map Cell.addr) ∧
        List.Forall₂ (fun c' l' => c' ∈ l' ∧ c'.key = c.key) cs (l :: rest)
  | [], l, c, fuel, hg, hc, hf => by
    obtain ⟨n, rfl⟩ : ∃ n, fuel = n + 1 := ⟨fuel - 1, by omega⟩
    obtain ⟨r, hr⟩ := RepSeg_mem (hg.rep l (List.mem_cons_self _ _)) hc
    have hd : c.down = none := hg.bot l rfl c hc
    refine ⟨[c], ?_, List.Forall₂.cons ⟨hc, rfl⟩ List.Forall₂.nil⟩
    simp [downChain, hr, Cell.toNode, hd]
  | l2 :: rest, l, c, fuel, hg, hc, hf => by
    obtain ⟨n, rfl⟩ : ∃ n, fuel = n + 1 := ⟨fuel - 1, by simp at hf; omega⟩
    obtain ⟨r, hr⟩ := RepSeg_mem (hg.rep l (List.mem_cons_self _ _)) hc
    obtain ⟨c2, hc2, hdn, hk⟩ := (List.chain'_cons.1 hg.down).1 c hc
    obtain ⟨cs, e1, e2⟩ := downChain_spec rest l2 c2 n hg.tail hc2
      (by simp at hf; omega)
    refine ⟨c :: cs, ?_, List.Forall₂.cons ⟨hc, rfl⟩ (e2.imp fun a b hab => ?_)⟩
    · simp [downChain, hr, Cell.toNode, hdn, e1]
    · exact ⟨hab.1, hab.2.trans hk⟩

theorem forall₂_right {α β : Type} {R : α → β → Prop} : ∀ {as : List α} {bs : List β},
    List.Forall₂ R as bs → ∀ b ∈ bs, ∃ a ∈ as, R a b
  | _, _, .nil, b, hb => by cases hb
  | _, _, .cons hab ht, b, hb => by
    rcases List.mem_cons.1 hb with rfl | hb
    · exact ⟨_, List.mem_cons_self _ _, hab⟩
    · obtain ⟨a, ha, hr⟩ := forall₂_right ht b hb
      exact ⟨a, List.mem_cons_of_mem _ ha, hr⟩

theorem forall₂_left {α β : Type} {R : α → β → Prop} : ∀ {as : List α} {bs : List β},
    List.Forall₂ R as bs → ∀ a ∈ as, ∃ b ∈ bs, R a b
  | _, _, .nil, a, ha => by cases ha
  | _, _, .cons hab ht, a, ha => by
    rcases List.mem_cons.1 ha with rfl | ha
    · exact ⟨_, List.mem_cons_self _ _, hab⟩
    · obtain ⟨b, hb, hr⟩ := forall₂_left ht a ha
      exact ⟨b, List.mem_cons_of_mem _ hb, hr⟩

theorem forall₂_last {α β : Type} {R : α → β → Prop} : ∀ {as : List α} {bs : List β},
    List.Forall₂ R as bs → ∀ b, bs.getLast? = some b → ∃ a, as.getLast? = some a ∧ R a b
  | _, _, .nil, b, hb => by cases hb
  | _, _, @List.Forall₂.cons _ _ _ a _ _ _ hab ht, b, hb => by
    cases ht with
    | nil =>
      simp only [List.getLast?_singleton, Option.some.injEq] at hb
      subst hb
      exact ⟨a, rfl, hab⟩
    | cons hab' ht' =>
      rw [List.getLast?_cons_cons] at hb ⊢
      exact forall₂_last (List.Forall₂.cons hab' ht') b hb

/-- The only cell of a level that has no key is its header. -/
theorem LevelOK.header_unique {cmp : Comparator K} {hd c : Cell K V} {tl : List (Cell K V)}
    (h : LevelOK cmp (hd :: tl)) (hc : c ∈ hd :: tl) (hk : c.key = none) : c = hd := by
  rcases List.mem_cons.1 hc with rfl | hm
  · rfl
  · have := (List.pairwise_cons.1 h.sorted).1 c hm
    rw [hk] at this
    exact absurd this (olt_none_right _ _)

theorem Good.key_in_all {cmp : Comparator K} {h : List (node K V)} {l : List (Cell K V)}
    {rest : List (List (Cell K V))} (hg : Good cmp h (l :: rest)) {c : Cell K V} (hc : c ∈ l) :
    ∀ l' ∈ l :: rest, ∃ c' ∈ l', c'.key = c.key := by
  obtain ⟨cs, -, hf⟩ := downChain_spec rest l c (rest.length + 1) hg hc (le_refl _)
  intro l' hl'
  obtain ⟨c', -, h1, h2⟩ := forall₂_right hf l' hl'
  exact ⟨c', h1, h2⟩

/-- In a map that holds a key, every level holds a key. -/
theorem Inv.levels_nonempty {m : mapImpl K V} {g : List (List (Cell K V))} (hi : Inv m g)
    (hs : m.size ≠ 0) : ∀ l ∈ g, ∃ hd x t, l = hd :: x :: t := by
  obtain ⟨hd, tl, rest, hge, -⟩ := hi.head
  subst hge
  have hg := hi.good
  have hbm : bottom ((hd :: tl) :: rest) ∈ (hd :: tl) :: rest := bottom_mem (by simp)
  have hbl := kvs_tail_length (hg.lvl _ hbm)
  have hsz := hi.size
  have two : ∀ l : List (Cell K V), 2 ≤ l.length → ∃ hd x t, l = hd :: x :: t := by
    intro l hl
    match l, hl with
    | a :: b :: t, _ => exact ⟨a, b, t, rfl⟩
  cases rest with
  | nil =>
    intro l hl
    rw [List.mem_singleton.1 hl]
    apply two
    rw [bottom_single] at hbl hsz
    omega
  | cons l2 rest =>
    cases tl with
    | nil => have := hi.top hd (l2 :: rest) rfl; cases this
    | cons x t =>
      intro l hl
      obtain ⟨c', hc', hk'⟩ := hg.key_in_all (c := x) (by simp) l hl
      have hlv := hg.lvl l hl
      obtain ⟨a, ta, rfl, hka⟩ := hlv.hdr
      have hxk : ∃ y, x.key = some y :=
        olt_isSome ((List.pairwise_cons.1 (hg.lvl _ (List.mem_cons_self _ _)).sorted).1 x
          (List.mem_cons_self _ _))
      obtain ⟨y, hy⟩ := hxk
      rcases List.mem_cons.1 hc' with rfl | hm
      · rw [hka, hy] at hk'; cases hk'
      · cases ta with
        | nil => cases hm
        | cons b tb => exact ⟨a, b, tb, rfl⟩

/-- In a map that holds no key, the zero level is the only level. -/
theorem Inv.empty_single {m : mapImpl K V} {g : List (List (Cell K V))} (hi : Inv m g)
    (hs : m.size = 0) : ∃ hd0 : Cell K V, g = [[hd0]] := by
  obtain ⟨hd, tl, rest, hge, -⟩ := hi.head
  subst hge
  have hg := hi.good
  have hbm : bottom ((hd :: tl) :: rest) ∈ (hd :: tl) :: rest := bottom_mem (by simp)
  have hbl := kvs_tail_length (hg.lvl _ hbm)
  have hsz := hi.size
  have hb1 : (bottom ((hd :: tl) :: rest)).length = 1 := by omega
  cases rest with
  | nil =>
    rw [bottom_single] at hb1
    cases tl with
    | nil => exact ⟨hd, rfl⟩
    | cons x t => simp at hb1
  | cons l2 rest =>
    exfalso
    cases tl with
    | nil => have := hi.top hd (l2 :: rest) rfl; cases this
    | cons x t =>
      obtain ⟨c', hc', hk'⟩ := hg.key_in_bottom x (by simp)
      obtain ⟨y, hy⟩ : ∃ y, x.key = some y :=
        olt_isSome ((List.pairwise_cons.1 (hg.lvl _ (List.mem_cons_self _ _)).sorted).1 x
          (List.mem_cons_self _ _))
      have hlv := hg.lvl _ hbm
      obtain ⟨a, ta, e, hka⟩ := hlv.hdr
      rw [e] at hc' hb1
      rcases List.mem_cons.1 hc' with rfl | hm
      · rw [hka, hy] at hk'; cases hk'
      · cases ta with
        | nil => cases hm
        | cons b tb => simp at hb1

/-- Following `right` from the first cell of a level visits the level. -/
theorem rightChain_spec {h : List (node K V)} :
    ∀ (cs : List (Cell K V)) (c : Cell K V) (fuel : Nat), RepSeg h (c :: cs) none →
      cs.length + 1 ≤ fuel → rightChain h fuel c.addr = some (addrs (c :: cs))
  | [], c, fuel, hr, hf => by
    obtain ⟨n, rfl⟩ : ∃ n, fuel = n + 1 := ⟨fuel - 1, by omega⟩
    have h1 : rd h c.addr = some (c.toNode none) := hr.1
    simp [rightChain, h1, Cell.toNode, addrs]
  | c2 :: cs, c, fuel, hr, hf => by
    obtain ⟨n, rfl⟩ : ∃ n, fuel = n + 1 := ⟨fuel - 1, by simp at hf; omega⟩
    have h1 : rd h c.addr = some (c.toNode (some c2.addr)) := hr.1
    have h2 := rightChain_spec cs c2 n hr.2 (by simp at hf; omega)
    simp [rightChain, h1, Cell.toNode, h2, addrs]

/-- Following `down` from any cell of any level ends, after at most as many
steps as there are levels. -/
theorem Good.chains {cmp : Comparator K} {h : List (node K V)} :
    ∀ (g : List (List (Cell K V))) (fuel : Nat), Good cmp h g → g.length ≤ fuel →
      ∀ l ∈ g, ∀ c ∈ l, ∃ ts, downChain h fuel c.addr = some ts ∧ ts.length ≤ g.length
  | [], _, _, _, l, hl, _, _ => by cases hl
  | l0 :: rest, fuel, hg, hf, l, hl, c, hc => by
    rcases List.mem_cons.1 hl with rfl | hl
    · obtain ⟨cs, e1, e2⟩ := downChain_spec rest l c fuel hg hc (by simpa using hf)
      refine ⟨_, e1, ?_⟩
      rw [List.length_map, e2.length_eq]
    · obtain ⟨ts, e1, e2⟩ := Good.chains rest fuel hg.tail
        (by simp at hf; omega) l hl c hc
      exact ⟨ts, e1, by simp; omega⟩

theorem forall₂_bottom {R : Cell K V → List (Cell K V) → Prop} {cs : List (Cell K V)}
    {g : List (List (Cell K V))} (hf : List.Forall₂ R cs g) (hne : g ≠ []) :
    ∃ c, cs.getLast? = some c ∧ R c (bottom g) := by
  obtain ⟨b, hb⟩ : ∃ b, g.getLast? = some b := by
    cases h : g.getLast? with
    | none => exact absurd (List.getLast?_eq_none_iff.1 h) hne
    | some b => exact ⟨b, rfl⟩
  obtain ⟨c, h1, h2⟩ := forall₂_last hf b hb
  refine ⟨c, h1, ?_⟩
  unfold bottom
  rw [hb]
  exact h2

/-! ## The contract of the map -/

theorem intCmp_total : IsStrictTotal intCmp where
  eq_iff := fun a b => by unfold intCmp; omega
  swap := fun a b => by unfold intCmp; omega
  trans := fun a b c => by unfold intCmp; omega

theorem sample_run : runOps (NewMap intCmp 0) sampleOps = some sampleMap := rfl

theorem sample_coins : coinsOK sampleOps :=
  ⟨⟨by decide, by decide⟩, ⟨by decide, by decide⟩, ⟨by decide, by decide⟩, trivial⟩

theorem sample_reachable : Reachable intCmp 0 sampleMap := ⟨sampleOps, sample_coins, sample_run⟩

theorem sample_entries :
    ForEach sampleMap (fun _ _ => true) = some ([(5, 50), (8, 80)], sampleMap) := rfl

theorem ForEach_entries {m : mapImpl K V} {g : List (List (Cell K V))} (hi : Inv m g)
    {es : List (K × V)} (h : ForEach m (fun _ _ => true) = some (es, m)) :
    es = kvs (bottom g) := by
  rw [ForEach_spec hi, visit_true] at h
  simp only [Option.some.injEq, Prod.mk.injEq, and_true] at h
  exact h.symm

/-- C1. Round trip: on every map reachable from `NewMap(cmp)` by `Add` and
`Remove` calls, with `cmp` a strict total order, for every coin that
`randomLevel` can draw, `Add(k, v)` returns and `Get(k)` on the resulting map
returns `(v, true)`. -/
theorem add_get_roundtrip {cmp : Comparator K} (hc : IsStrictTotal cmp) {e : V}
    {m : mapImpl K V} (hr : Reachable cmp e m) (coin : Int) (_hcoin : coinOK coin)
    (k : K) (v : V) :
    ∃ m', Add m coin k v = some m' ∧ Get m' k = some ((v, true), m') := by
  obtain ⟨g, hi, hcm, -⟩ := hr.inv hc
  subst hcm
  obtain ⟨m', g', h1, h2, h3, -, -, -, h7⟩ := AddAt_spec hc hi (randomLevel_nonneg coin) k v
  refine ⟨m', h1, ?_⟩
  have hc' : IsStrictTotal m'.cmp := by rw [h3]; exact hc
  have hin : ∀ w, (k, w) ∈ kvs (bottom g') ↔ w = v := by
    intro w
    rw [h7, mem_ins hc k v _ hi.sortedKV]
    simp
  rcases Get_spec hc' h2 k with ⟨w, hw, hget⟩ | ⟨hno, -⟩
  · rw [(hin w).1 hw] at hget; exact hget
  · exact absurd ((hin v).2 rfl) (hno v)

theorem add_get_roundtrip_witness :
    ∃ m', Add sampleMap (2 ^ 61) 7 70 = some m' ∧ Get m' 7 = some ((70, true), m') :=
  add_get_roundtrip intCmp_total sample_reachable (2 ^ 61) ⟨by decide, by decide⟩ 7 70

/-- C2. Point lookup: on every reachable map, with `es` the entries of the zero
level (what `ForEach` visits), `Get(k)` returns `(v, true)` for the entry of `es`
whose key compares equal to `k` when there is one, and `(emptyValue, false)`
when there is none; the map that `Get` leaves is the map it was called on. -/
theorem get_point_lookup {cmp : Comparator K} (hc : IsStrictTotal cmp) {e : V}
    {m : mapImpl K V} (hr : Reachable cmp e m) (k : K) :
    ∃ es, ForEach m (fun _ _ => true) = some (es, m) ∧
      ((∃ k' w, (k', w) ∈ es ∧ cmp k k' = 0 ∧ Get m k = some ((w, true), m)) ∨
        ((∀ p ∈ es, cmp k p.1 ≠ 0) ∧ Get m k = some ((m.emptyValue, false), m))) := by
  obtain ⟨g, hi, hcm, -⟩ := hr.inv hc
  subst hcm
  refine ⟨kvs (bottom g), by rw [ForEach_spec hi, visit_true], ?_⟩
  rcases Get_spec hc hi k with ⟨w, hw, hget⟩ | ⟨hno, hget⟩
  · exact Or.inl ⟨k, w, hw, cmp_self hc k, hget⟩
  · refine Or.inr ⟨?_, hget⟩
    intro p hp h0
    have : k = p.1 := (hc.eq_iff _ _).1 h0
    exact hno p.2 (by rw [this]; exact hp)

theorem get_point_lookup_witness :
    ∃ es, ForEach sampleMap (fun _ _ => true) = some (es, sampleMap) ∧
      ((∃ k' w, (k', w) ∈ es ∧ intCmp 8 k' = 0 ∧ Get sampleMap 8 = some ((w, true), sampleMap)) ∨
        ((∀ p ∈ es, intCmp 8 p.1 ≠ 0) ∧
          Get sampleMap 8 = some ((sampleMap.emptyValue, false), sampleMap))) :=
  get_point_lookup intCmp_total sample_reachable 8

/-- C3. Update semantics: on every reachable map and for all coins that can be
drawn, `Add(k, v1)` followed by `Add(k, v2)` makes `Get(k)` return `(v2, true)`
and leaves `Size()` as it was after the first `Add`; the first `Add` leaves
`Size()` unchanged when the zero level already held the key and adds one when
it did not. -/
theorem add_update_semantics {cmp : Comparator K} (hc : IsStrictTotal cmp) {e : V}
    {m : mapImpl K V} (hr : Reachable cmp e m) (coin1 coin2 : Int) (_h1 : coinOK coin1)
    (_h2 : coinOK coin2) (k : K) (v1 v2 : V) :
    ∃ m1 m2 es, Add m coin1 k v1 = some m1 ∧ Add m1 coin2 k v2 = some m2 ∧
      Get m2 k = some ((v2, true), m2) ∧ Size m2 = Size m1 ∧
      ForEach m (fun _ _ => true) = some (es, m) ∧
      ((∃ p ∈ es, cmp k p.1 = 0) → Size m1 = Size m) ∧
      ((∀ p ∈ es, cmp k p.1 ≠ 0) → Size m1 = Size m + 1) := by
  obtain ⟨g, hi, hcm, -⟩ := hr.inv hc
  subst hcm
  obtain ⟨m1, g1, a1, a2, a3, -, -, -, a7⟩ := AddAt_spec hc hi (randomLevel_nonneg coin1) k v1
  have hc1 : IsStrictTotal m1.cmp := by rw [a3]; exact hc
  obtain ⟨m2, g2, b1, b2, b3, -, -, -, b7⟩ := AddAt_spec hc1 a2 (randomLevel_nonneg coin2) k v2
  have hc2 : IsStrictTotal m2.cmp := by rw [b3]; exact hc1
  have hin : ∀ w, (k, w) ∈ kvs (bottom g2) ↔ w = v2 := by
    intro w
    rw [b7, mem_ins hc1 k v2 _ a2.sortedKV]
    simp
  have hk1 : hasKey m1.cmp k (kvs (bottom g1)) = true := by
    rw [hasKey_iff hc1]
    exact ⟨v1, by rw [a7, mem_ins hc k v1 _ hi.sortedKV]; exact Or.inl rfl⟩
  have hs2 : m2.size = m1.size := by
    have := ins_length hc1 k v2 _ a2.sortedKV
    rw [← b7, hk1] at this
    rw [b2.size, a2.size, this]; simp
  have hs1 := ins_length hc k v1 _ hi.sortedKV
  rw [← a7] at hs1
  refine ⟨m1, m2, kvs (bottom g), a1, b1, ?_, hs2, by rw [ForEach_spec hi, visit_true], ?_, ?_⟩
  · rcases Get_spec hc2 b2 k with ⟨w, hw, hget⟩ | ⟨hno, -⟩
    · rw [(hin w).1 hw] at hget; exact hget
    · exact absurd ((hin v2).2 rfl) (hno v2)
  · rintro ⟨p, hp, h0⟩
    have hk : hasKey m.cmp k (kvs (bottom g)) = true := by
      unfold hasKey
      rw [List.any_eq_true]
      exact ⟨p, hp, by simpa using h0⟩
    rw [hk] at hs1
    show m1.size = m.size
    rw [a2.size, hi.size, hs1]; simp
  · intro hno
    have hk : hasKey m.cmp k (kvs (bottom g)) = false := by
      unfold hasKey
      rw [List.any_eq_false]
      intro p hp
      simpa using hno p hp
    rw [hk] at hs1
    show m1.size = m.size + 1
    rw [a2.size, hi.size, hs1]; simp

theorem add_update_semantics_witness :
    ∃ m1 m2 es, Add sampleMap (2 ^ 60) 8 81 = some m1 ∧ Add m1 (2 ^ 62 - 1) 8 82 = some m2 ∧
      Get m2 8 = some ((82, true), m2) ∧ Size m2 = Size m1 ∧
      ForEach sampleMap (fun _ _ => true) = some (es, sampleMap) ∧
      ((∃ p ∈ es, intCmp 8 p.1 = 0) → Size m1 = Size sampleMap) ∧
      ((∀ p ∈ es, intCmp 8 p.1 ≠ 0) → Size m1 = Size sampleMap + 1) :=
  add_update_semantics intCmp_total sample_reachable (2 ^ 60) (2 ^ 62 - 1)
    ⟨by decide, by decide⟩ ⟨by decide, by decide⟩ 8 81 82

/-- C4. Removal of a present key: let `m` be the map that the calls `ops`
build from `NewMap(cmp)` and let its zero level hold an entry `(k', v)` whose
key compares equal to `k`.  Then `v` is the value last written for `k` by an
`Add` of `ops`, `Remove(k)` returns `(v, true)`, `Size()` drops by exactly 1 and
`Get(k)` on the resulting map returns not-found. -/
theorem remove_present {cmp : Comparator K} (hc : IsStrictTotal cmp) {e : V}
    {m : mapImpl K V} (ops : List (Op K V)) (_hco : coinsOK ops)
    (hrun : runOps (NewMap cmp e) ops = some m) (k k' : K) (v : V) (es : List (K × V))
    (hes : ForEach m (fun _ _ => true) = some (es, m)) (hmem : (k', v) ∈ es)
    (hk : cmp k k' = 0) :
    lastWritten cmp k ops = some v ∧
      ∃ m', Remove m k = some ((v, true), m') ∧ Size m' = Size m - 1 ∧
        Get m' k = some ((m'.emptyValue, false), m') := by
  obtain ⟨g, hi, hcm, -, hlw⟩ := reach_inv hc e hrun
  subst hcm
  have hkk : k = k' := (hc.eq_iff _ _).1 hk
  subst hkk
  rw [ForEach_entries hi hes] at hmem
  refine ⟨(hlw k v).1 hmem, ?_⟩
  obtain ⟨m', r, r1, r2, r3, -, -, r6, r7, -⟩ := Remove_spec hc hi k
  have hc' : IsStrictTotal m'.cmp := by rw [r3]; exact hc
  rw [r7 v hmem] at r1
  refine ⟨m', r1, ?_, ?_⟩
  · have hkey : hasKey m.cmp k (kvs (bottom g)) = true := (hasKey_iff hc).2 ⟨v, hmem⟩
    have := del_length hc k _ hi.sortedKV
    rw [← r6, hkey] at this
    show m'.size = m.size - 1
    rw [r2.size, hi.size, this]; simp
  · rcases Get_spec hc' r2 k with ⟨w, hw, -⟩ | ⟨-, hget⟩
    · rw [r6, mem_del hc] at hw
      exact absurd rfl hw.2
    · exact hget

theorem remove_present_witness :
    lastWritten intCmp 5 sampleOps = some 50 ∧
      ∃ m', Remove sampleMap 5 = some ((50, true), m') ∧ Size m' = Size sampleMap - 1 ∧
        Get m' 5 = some ((m'.emptyValue, false), m') :=
  remove_present intCmp_total sampleOps sample_coins sample_run 5 5 50 [(5, 50), (8, 80)]
    sample_entries (by decide) (by decide)

/-- C5. Removal of an absent key: on every reachable map whose zero level holds
no entry with a key that compares equal to `k`, `Remove(k)` returns
`(emptyValue, false)` and the map it leaves is the map it was called on: the
same heap (so the same node sequence on every level), head, level count and
size. -/
theorem remove_absent {cmp : Comparator K} (hc : IsStrictTotal cmp) {e : V}
    {m : mapImpl K V} (hr : Reachable cmp e m) (k : K) (es : List (K × V))
    (hes : ForEach m (fun _ _ => true) = some (es, m)) (habs : ∀ p ∈ es, cmp k p.1 ≠ 0) :
    Remove m k = some ((m.emptyValue, false), m) := by
  obtain ⟨g, hi, hcm, -⟩ := hr.inv hc
  subst hcm
  rw [ForEach_entries hi hes] at habs
  obtain ⟨m', r, r1, -, -, -, -, -, -, r8⟩ := Remove_spec hc hi k
  obtain ⟨e1, e2⟩ := r8 (fun w hw => habs (k, w) hw (cmp_self hc k))
  rw [r1, e1, e2]

theorem remove_absent_witness :
    Remove sampleMap 6 = some ((sampleMap.emptyValue, false), sampleMap) :=
  remove_absent intCmp_total sample_reachable 6 [(5, 50), (8, 80)] sample_entries (by decide)

/-- C6. Ascending order and size: on every reachable map, `ForEach` with a
visitor that always returns true visits entries whose keys increase strictly
along `cmp` (so no key occurs twice), and it visits exactly `Size()` entries. -/
theorem forEach_ascending {cmp : Comparator K} (hc : IsStrictTotal cmp) {e : V}
    {m : mapImpl K V} (hr : Reachable cmp e m) :
    ∃ es, ForEach m (fun _ _ => true) = some (es, m) ∧
      es.Pairwise (fun a b => cmp a.1 b.1 < 0) ∧ (es.length : Int) = Size m := by
  obtain ⟨g, hi, hcm, -⟩ := hr.inv hc
  subst hcm
  exact ⟨kvs (bottom g), by rw [ForEach_spec hi, visit_true], hi.sortedKV, hi.size.symm⟩

theorem forEach_ascending_witness :
    ∃ es, ForEach sampleMap (fun _ _ => true) = some (es, sampleMap) ∧
      es.Pairwise (fun a b => intCmp a.1 b.1 < 0) ∧ (es.length : Int) = Size sampleMap :=
  forEach_ascending intCmp_total sample_reachable

/-- C7. Lower and higher: on every reachable map with zero-level entries `es`
and for every key `k`, `Lt(k)` returns `(v, true)` for the entry of the greatest
key strictly below `k` (no stored key below `k` is above it), or
`(emptyValue, false)` when no stored key is below `k`; `Gt(k)` returns
`(v, true)` for the entry of the least key strictly above `k`, or
`(emptyValue, false)` when no stored key is above `k`. -/
theorem lower_higher {cmp : Comparator K} (hc : IsStrictTotal cmp) {e : V}
    {m : mapImpl K V} (hr : Reachable cmp e m) (k : K) :
    ∃ es, ForEach m (fun _ _ => true) = some (es, m) ∧
      ((∃ k' w, (k', w) ∈ es ∧ cmp k' k < 0 ∧ (∀ p ∈ es, cmp p.1 k < 0 → cmp p.1 k' ≤ 0) ∧
          Lt m k = some ((w, true), m)) ∨
        ((∀ p ∈ es, ¬ cmp p.1 k < 0) ∧ Lt m k = some ((m.emptyValue, false), m))) ∧
      ((∃ k' w, (k', w) ∈ es ∧ cmp k k' < 0 ∧ (∀ p ∈ es, cmp k p.1 < 0 → cmp k' p.1 ≤ 0) ∧
          Gt m k = some ((w, true), m)) ∨
        ((∀ p ∈ es, ¬ cmp k p.1 < 0) ∧ Gt m k = some ((m.emptyValue, false), m))) := by
  obtain ⟨g, hi, hcm, -⟩ := hr.inv hc
  subst hcm
  exact ⟨kvs (bottom g), by rw [ForEach_spec hi, visit_true], Lt_spec hc hi k, Gt_spec hc hi k⟩

theorem lower_higher_witness :
    ∃ es, ForEach sampleMap (fun _ _ => true) = some (es, sampleMap) ∧
      ((∃ k' w, (k', w) ∈ es ∧ intCmp k' 6 < 0 ∧
          (∀ p ∈ es, intCmp p.1 6 < 0 → intCmp p.1 k' ≤ 0) ∧
          Lt sampleMap 6 = some ((w, true), sampleMap)) ∨
        ((∀ p ∈ es, ¬ intCmp p.1 6 < 0) ∧
          Lt sampleMap 6 = some ((sampleMap.emptyValue, false), sampleMap))) ∧
      ((∃ k' w, (k', w) ∈ es ∧ intCmp 6 k' < 0 ∧
          (∀ p ∈ es, intCmp 6 p.1 < 0 → intCmp k' p.1 ≤ 0) ∧
          Gt sampleMap 6 = some ((w, true), sampleMap)) ∨
        ((∀ p ∈ es, ¬ intCmp 6 p.1 < 0) ∧
          Gt sampleMap 6 = some ((sampleMap.emptyValue, false), sampleMap))) :=
  lower_higher intCmp_total sample_reachable 6

/-- C8. Floor and ceiling consistency: on every reachable map `Get(k)` returns
some `(value, found)`; when it is found, `LtEq(k)` and `GtEq(k)` return what
`Get(k)` returns, and when it is not found, `LtEq(k)` returns what `Lt(k)`
returns and `GtEq(k)` what `Gt(k)` returns. -/
theorem floor_ceiling_consistency {cmp : Comparator K} (hc : IsStrictTotal cmp) {e : V}
    {m : mapImpl K V} (hr : Reachable cmp e m) (k : K) :
    ∃ r, Get m k = some (r, m) ∧
      (r.2 = true → LtEq m k = Get m k ∧ GtEq m k = Get m k) ∧
      (r.2 = false → LtEq m k = Lt m k ∧ GtEq m k = Gt m k) := by
  obtain ⟨g, hi, hcm, -⟩ := hr.inv hc
  subst hcm
  rcases Get_spec hc hi k with ⟨w, -, hget⟩ | ⟨-, hget⟩
  · exact ⟨(w, true), hget, floor_ceiling m k _ hget⟩
  · exact ⟨(m.emptyValue, false), hget, floor_ceiling m k _ hget⟩

theorem floor_ceiling_consistency_witness :
    ∃ r, Get sampleMap 8 = some (r, sampleMap) ∧
      (r.2 = true → LtEq sampleMap 8 = Get sampleMap 8 ∧ GtEq sampleMap 8 = Get sampleMap 8) ∧
      (r.2 = false → LtEq sampleMap 8 = Lt sampleMap 8 ∧ GtEq sampleMap 8 = Gt sampleMap 8) :=
  floor_ceiling_consistency intCmp_total sample_reachable 8

/-- C9. Range correctness: on every reachable map with zero-level entries `es`
(ascending, by C6) and for all keys `a`, `b`, also with `a >= b`,
`ForEachRange(a, b, f)` with `f` always true calls `f` on exactly the entries of
`es` whose key `k` satisfies `a <= k < b`, in the order of `es`; when every
stored key is below `a` it makes no call. -/
theorem forEachRange_correct {cmp : Comparator K} (hc : IsStrictTotal cmp) {e : V}
    {m : mapImpl K V} (hr : Reachable cmp e m) (a b : K) :
    ∃ es, ForEach m (fun _ _ => true) = some (es, m) ∧
      es.Pairwise (fun x y => cmp x.1 y.1 < 0) ∧
      ForEachRange m a b (fun _ _ => true) =
        some (es.filter (fun p => decide (cmp a p.1 ≤ 0) && decide (cmp p.1 b < 0)), m) ∧
      ((∀ p ∈ es, cmp p.1 a < 0) → ForEachRange m a b (fun _ _ => true) = some ([], m)) := by
  obtain ⟨g, hi, hcm, -⟩ := hr.inv hc
  subst hcm
  have h := ForEachRange_spec hc hi a b (fun _ _ => true)
  rw [visit_true] at h
  refine ⟨kvs (bottom g), by rw [ForEach_spec hi, visit_true], hi.sortedKV, h, ?_⟩
  intro hall
  rw [h]
  have : (kvs (bottom g)).filter
      (fun p => decide (m.cmp a p.1 ≤ 0) && decide (m.cmp p.1 b < 0)) = [] := by
    rw [List.filter_eq_nil_iff]
    intro p hp
    have := (hc.swap _ _).1 (hall p hp)
    simp only [Bool.and_eq_true, decide_eq_true_eq, not_and]
    intro h1; omega
  rw [this]

theorem forEachRange_correct_witness :
    ∃ es, ForEach sampleMap (fun _ _ => true) = some (es, sampleMap) ∧
      es.Pairwise (fun x y => intCmp x.1 y.1 < 0) ∧
      ForEachRange sampleMap 5 8 (fun _ _ => true) =
        some (es.filter (fun p => decide (intCmp 5 p.1 ≤ 0) && decide (intCmp p.1 8 < 0)),
          sampleMap) ∧
      ((∀ p ∈ es, intCmp p.1 5 < 0) →
        ForEachRange sampleMap 5 8 (fun _ _ => true) = some ([], sampleMap)) :=
  forEachRange_correct intCmp_total sample_reachable 5 8

/-- C10. Level invariant: on every map reachable from `NewMap(cmp)` by `Add`
and `Remove` calls (whatever levels are drawn), following `down` from `m.head`
visits the headers `hs` of the levels: there are `levels + 1` of them and the
last is `zeroLevel`.  When the map is empty the zero level is the only level.
When it is not empty every header of the stack, the topmost (`m.head`)
included, has a successor along `right` that carries a key, so no empty
level stays above the base; the first key of the topmost level has a tower as
tall as the stack, and no node linked into a level has a taller one. -/
theorem level_invariant {cmp : Comparator K} (hc : IsStrictTotal cmp) {e : V}
    {m : mapImpl K V} (hr : Reachable cmp e m) :
    ∃ hs, downChain m.heap (m.heap.length + 1) m.head = some hs ∧
      (hs.length : Int) = m.levels + 1 ∧ hs.getLast? = some m.zeroLevel ∧
      (Size m = 0 →
        hs = [m.zeroLevel] ∧ rightChain m.heap (m.heap.length + 1) m.head = some [m.head]) ∧
      (Size m ≠ 0 → ∀ a ∈ hs, ∃ x t n y,
        rightChain m.heap (m.heap.length + 1) a = some (a :: x :: t) ∧
          rd m.heap x = some n ∧ n.key = some y) ∧
      (Size m ≠ 0 → ∃ x t ts,
        rightChain m.heap (m.heap.length + 1) m.head = some (m.head :: x :: t) ∧
          downChain m.heap (m.heap.length + 1) x = some ts ∧ ts.length = hs.length) ∧
      (∀ a ∈ hs, ∃ ns, rightChain m.heap (m.heap.length + 1) a = some ns ∧
        ∀ x ∈ ns, ∃ ts, downChain m.heap (m.heap.length + 1) x = some ts ∧
          ts.length ≤ hs.length) := by
  obtain ⟨g, hi, hcm, -⟩ := hr.inv hc
  subst hcm
  have hg := hi.good
  obtain ⟨hd, tl, rest, hge, hhead⟩ := hi.head
  obtain ⟨hd0, tl0, hbe, hzero⟩ := hi.zero
  have hglen := hg.length_le
  have hgne : g ≠ [] := by rw [hge]; simp
  have hfuel : rest.length + 1 ≤ m.heap.length + 1 := by
    rw [hge] at hglen; simp at hglen; omega
  have hhk : hd.key = none := by
    obtain ⟨a, ta, e1, e2⟩ := (hg.lvl (hd :: tl) (by rw [hge]; simp)).hdr
    cases e1; exact e2
  obtain ⟨cs, hcs, hf⟩ := downChain_spec rest (hd :: tl) hd (m.heap.length + 1)
    (by rw [← hge]; exact hg) (List.mem_cons_self _ _) hfuel
  rw [← hge] at hf
  rw [← hhead] at hcs
  -- every cell of `cs` is the header of its level
  have hdr : ∀ c ∈ cs, ∃ t, c :: t ∈ g := by
    intro c hcm
    obtain ⟨l, hl, h1, h2⟩ := forall₂_left hf c hcm
    obtain ⟨a, ta, e1, -⟩ := (hg.lvl l hl).hdr
    subst e1
    have := LevelOK.header_unique (hg.lvl _ hl) h1 (h2.trans hhk)
    subst this
    exact ⟨ta, hl⟩
  have hrc : ∀ c t, c :: t ∈ g →
      rightChain m.heap (m.heap.length + 1) c.addr = some (addrs (c :: t)) := by
    intro c t hl
    refine rightChain_spec t c _ (hg.rep _ hl) ?_
    have := hg.level_length_le hl
    simp at this; omega
  have hlen : cs.length = g.length := hf.length_eq
  refine ⟨cs.map Cell.addr, hcs, ?_, ?_, ?_, ?_, ?_, ?_⟩
  · rw [List.length_map, hlen, ← hi.levels]
  · obtain ⟨c, h1, h2, h3⟩ := forall₂_bottom hf hgne
    rw [hbe] at h2
    have hlv : LevelOK m.cmp (hd0 :: tl0) := by
      rw [← hbe]; exact hg.lvl _ (bottom_mem hgne)
    have : c = hd0 := LevelOK.header_unique hlv h2 (h3.trans hhk)
    rw [List.getLast?_map, h1, hzero, this]; rfl
  · intro hs
    obtain ⟨h0, e0⟩ := hi.empty_single hs
    rw [e0] at hge
    have e1 : hd = h0 ∧ tl = [] ∧ rest = [] := by
      simp only [List.cons.injEq] at hge
      obtain ⟨⟨a, b⟩, c⟩ := hge
      exact ⟨a.symm, b.symm, c.symm⟩
    obtain ⟨rfl, rfl, rfl⟩ := e1
    rw [e0, bottom_single] at hbe
    have e2 : hd = hd0 := by
      simp only [List.cons.injEq] at hbe
      exact hbe.1
    subst e2
    constructor
    · rw [e0] at hf
      cases hf with
      | cons hab ht =>
        cases ht
        have := List.mem_singleton.1 hab.1
        subst this
        rw [hzero]; rfl
    · have := hrc hd [] (by rw [e0]; simp)
      rw [hhead, this]; rfl
  · intro hs a ha
    obtain ⟨c, hcm, rfl⟩ := List.mem_map.1 ha
    obtain ⟨t, hl⟩ := hdr c hcm
    obtain ⟨a, x, t2, e1⟩ := hi.levels_nonempty hs _ hl
    cases e1
    obtain ⟨y, hy⟩ : ∃ y, x.key = some y :=
      olt_isSome ((List.pairwise_cons.1 (hg.lvl _ hl).sorted).1 x (List.mem_cons_self _ _))
    obtain ⟨r, hrd⟩ := RepSeg_mem (hg.rep _ hl) (List.mem_cons_of_mem _ (List.mem_cons_self x t2))
    exact ⟨x.addr, addrs t2, _, y, hrc _ _ hl, hrd, hy⟩
  · intro hs
    have hl : hd :: tl ∈ g := by rw [hge]; simp
    obtain ⟨a, x, t2, e1⟩ := hi.levels_nonempty hs _ hl
    cases e1
    obtain ⟨ts, e1, e2⟩ := downChain_spec rest (hd :: x :: t2) x (m.heap.length + 1)
      (by rw [← hge]; exact hg) (List.mem_cons_of_mem _ (List.mem_cons_self _ _)) hfuel
    refine ⟨x.addr, addrs t2, _, ?_, e1, ?_⟩
    · rw [hhead]; exact hrc _ _ hl
    · rw [List.length_map, List.length_map, e2.length_eq, hlen, hge]
  · intro a ha
    obtain ⟨c, hcm, rfl⟩ := List.mem_map.1 ha
    obtain ⟨t, hl⟩ := hdr c hcm
    refine ⟨_, hrc c t hl, ?_⟩
    intro x hx
    obtain ⟨c2, hc2, rfl⟩ := List.mem_map.1 hx
    obtain ⟨ts, e1, e2⟩ := Good.chains g (m.heap.length + 1) hg (by omega) _ hl c2 hc2
    exact ⟨ts, e1, by rw [List.length_map, hlen]; exact e2⟩

theorem level_invariant_witness :
    ∃ hs, downChain sampleMap.heap (sampleMap.heap.length + 1) sampleMap.head = some hs ∧
      (hs.length : Int) = sampleMap.levels + 1 ∧ hs.getLast? = some sampleMap.zeroLevel ∧
      (Size sampleMap = 0 →
        hs = [sampleMap.zeroLevel] ∧
          rightChain sampleMap.heap (sampleMap.heap.length + 1) sampleMap.head =
            some [sampleMap.head]) ∧
      (Size sampleMap ≠ 0 → ∀ a ∈ hs, ∃ x t n y,
        rightChain sampleMap.heap (sampleMap.heap.length + 1) a = some (a :: x :: t) ∧
          rd sampleMap.heap x = some n ∧ n.key = some y) ∧
      (Size sampleMap ≠ 0 → ∃ x t ts,
        rightChain sampleMap.heap (sampleMap.heap.length + 1) sampleMap.head =
            some (sampleMap.head :: x :: t) ∧
          downChain sampleMap.heap (sampleMap.heap.length + 1) x = some ts ∧
          ts.length = hs.length) ∧
      (∀ a ∈ hs, ∃ ns,
        rightChain sampleMap.heap (sampleMap.heap.length + 1) a = some ns ∧
        ∀ x ∈ ns, ∃ ts, downChain sampleMap.heap (sampleMap.heap.length + 1) x = some ts ∧
          ts.length ≤ hs.length) :=
  level_invariant intCmp_total sample_reachable

/-! ## Early termination -/

theorem visit_eq_walked (f : K → V → Bool) : ∀ es : List (K × V), visit f es = walked f es
  | [] => rfl
  | p :: t => by
    unfold visit walked
    cases h : f p.1 p.2
    · simp [List.takeWhile, List.dropWhile, h]
    · have := visit_eq_walked f t
      unfold walked at this
      simp [List.takeWhile, List.dropWhile, h, this]

theorem walked_all (f : K → V → Bool) (es : List (K × V)) (h : ∀ p ∈ es, f p.1 p.2 = true) :
    walked f es = es := by
  unfold walked
  have h1 : es.takeWhile (fun p => f p.1 p.2) = es := List.takeWhile_eq_self_iff.2 h
  have h2 : es.dropWhile (fun p => f p.1 p.2) = [] := List.dropWhile_eq_nil_iff.2 h
  rw [h1, h2]; simp

/-- C11. Early termination: on every reachable map with ascending zero-level
entries `es`, and for every visitor `f`, `ForEach(f)` calls `f` on the entries of
`es` in order up to and including the first on which `f` returns false, and on
none after it; `ForEachRange(a, b, f)` does the same on the entries of `es` whose
key is in `[a, b)`.  When `f` never returns false every entry (of the interval)
is visited.  Both leave the map they were called on, so that a second call
visits the same sequence. -/
theorem early_termination {cmp : Comparator K} (hc : IsStrictTotal cmp) {e : V}
    {m : mapImpl K V} (hr : Reachable cmp e m) (f : K → V → Bool) (a b : K) :
    ∃ es rs, ForEach m (fun _ _ => true) = some (es, m) ∧
      es.Pairwise (fun x y => cmp x.1 y.1 < 0) ∧
      rs = es.filter (fun p => decide (cmp a p.1 ≤ 0) && decide (cmp p.1 b < 0)) ∧
      ForEach m f = some (es.takeWhile (fun p => f p.1 p.2) ++
        (es.dropWhile (fun p => f p.1 p.2)).take 1, m) ∧
      ForEachRange m a b f = some (rs.takeWhile (fun p => f p.1 p.2) ++
        (rs.dropWhile (fun p => f p.1 p.2)).take 1, m) ∧
      ((∀ p ∈ es, f p.1 p.2 = true) → ForEach m f = some (es, m)) ∧
      ((∀ p ∈ rs, f p.1 p.2 = true) → ForEachRange m a b f = some (rs, m)) ∧
      ((ForEach m f).bind fun r => ForEach r.2 f) = ForEach m f ∧
      ((ForEachRange m a b f).bind fun r => ForEachRange r.2 a b f) = ForEachRange m a b f := by
  obtain ⟨g, hi, hcm, -⟩ := hr.inv hc
  subst hcm
  have h1 := ForEach_spec hi f
  have h2 := ForEachRange_spec hc hi a b f
  rw [visit_eq_walked] at h1 h2
  refine ⟨kvs (bottom g), _, by rw [ForEach_spec hi, visit_true], hi.sortedKV, rfl, h1, h2,
    ?_, ?_, ?_, ?_⟩
  · intro h; rw [h1, walked_all f _ h]
  · intro h; rw [h2, walked_all f _ h]
  · rw [h1]; exact h1
  · rw [h2]; exact h2

theorem early_termination_witness :
    ∃ es rs, ForEach sampleMap (fun _ _ => true) = some (es, sampleMap) ∧
      es.Pairwise (fun x y => intCmp x.1 y.1 < 0) ∧
      rs = es.filter (fun p => decide (intCmp 5 p.1 ≤ 0) && decide (intCmp p.1 9 < 0)) ∧
      ForEach sampleMap (fun k _ => decide (k < 5)) =
        some (es.takeWhile (fun p => (fun k _ => decide (k < 5)) p.1 p.2) ++
          (es.dropWhile (fun p => (fun k _ => decide (k < 5)) p.1 p.2)).take 1, sampleMap) ∧
      ForEachRange sampleMap 5 9 (fun k _ => decide (k < 5)) =
        some (rs.takeWhile (fun p => (fun k _ => decide (k < 5)) p.1 p.2) ++
          (rs.dropWhile (fun p => (fun k _ => decide (k < 5)) p.1 p.2)).take 1, sampleMap) ∧
      ((∀ p ∈ es, (fun k _ => decide (k < 5)) p.1 p.2 = true) →
        ForEach sampleMap (fun k _ => decide (k < 5)) = some (es, sampleMap)) ∧
      ((∀ p ∈ rs, (fun k _ => decide (k < 5)) p.1 p.2 = true) →
        ForEachRange sampleMap 5 9 (fun k _ => decide (k < 5)) = some (rs, sampleMap)) ∧
      ((ForEach sampleMap (fun k _ => decide (k < 5))).bind fun r =>
          ForEach r.2 (fun k _ => decide (k < 5))) =
        ForEach sampleMap (fun k _ => decide (k < 5)) ∧
      ((ForEachRange sampleMap 5 9 (fun k _ => decide (k < 5))).bind fun r =>
          ForEachRange r.2 5 9 (fun k _ => decide (k < 5))) =
        ForEachRange sampleMap 5 9 (fun k _ => decide (k < 5)) :=
  early_termination intCmp_total sample_reachable (fun k _ => decide (k < 5)) 5 9

/-! ## Results of the queries from the zero-level entries -/

theorem Get_of_mem {m : mapImpl K V} {g : List (List (Cell K V))} (hc : IsStrictTotal m.cmp)
    (hi : Inv m g) {k : K} {w : V} (h : (k, w) ∈ kvs (bottom g)) :
    Get m k = some ((w, true), m) := by
  rcases Get_spec hc hi k with ⟨w', hw', hget⟩ | ⟨hno, -⟩
  · rw [hget, sortedKV_unique hc hi.sortedKV hw' h]
  · exact absurd h (hno w)

theorem Get_of_absent {m : mapImpl K V} {g : List (List (Cell K V))}
    (hc : IsStrictTotal m.cmp) (hi : Inv m g) {k : K} (h : ∀ p ∈ kvs (bottom g), m.cmp k p.1 ≠ 0) :
    Get m k = some ((m.emptyValue, false), m) := by
  rcases Get_spec hc hi k with ⟨w', hw', -⟩ | ⟨-, hget⟩
  · exact absurd (cmp_self hc k) (h _ hw')
  · exact hget

theorem Lt_of_greatest {m : mapImpl K V} {g : List (List (Cell K V))}
    (hc : IsStrictTotal m.cmp) (hi : Inv m g) {k j : K} {w : V}
    (h : (j, w) ∈ kvs (bottom g)) (hlt : m.cmp j k < 0)
    (hmax : ∀ p ∈ kvs (bottom g), m.cmp p.1 k < 0 → m.cmp p.1 j ≤ 0) :
    Lt m k = some ((w, true), m) := by
  rcases Lt_spec hc hi k with ⟨k2, w2, h2, hlt2, hmax2, hr⟩ | ⟨hno, -⟩
  · have a1 := hmax _ h2 hlt2
    have a2 := hmax2 _ h hlt
    have e : j = k2 := by
      apply (hc.eq_iff _ _).1
      have := hc.swap j k2
      have := hc.swap k2 j
      simp only at a1 a2
      omega
    subst e
    rw [hr, sortedKV_unique hc hi.sortedKV h2 h]
  · exact absurd hlt (hno _ h)

theorem Lt_of_none {m : mapImpl K V} {g : List (List (Cell K V))}
    (hc : IsStrictTotal m.cmp) (hi : Inv m g) {k : K}
    (h : ∀ p ∈ kvs (bottom g), ¬ m.cmp p.1 k < 0) :
    Lt m k = some ((m.emptyValue, false), m) := by
  rcases Lt_spec hc hi k with ⟨k2, w2, h2, hlt2, -, -⟩ | ⟨-, hr⟩
  · exact absurd hlt2 (h _ h2)
  · exact hr

theorem Gt_of_least {m : mapImpl K V} {g : List (List (Cell K V))}
    (hc : IsStrictTotal m.cmp) (hi : Inv m g) {k j : K} {w : V}
    (h : (j, w) ∈ kvs (bottom g)) (hlt : m.cmp k j < 0)
    (hmin : ∀ p ∈ kvs (bottom g), m.cmp k p.1 < 0 → m.cmp j p.1 ≤ 0) :
    Gt m k = some ((w, true), m) := by
  rcases Gt_spec hc hi k with ⟨k2, w2, h2, hlt2, hmin2, hr⟩ | ⟨hno, -⟩
  · have a1 := hmin _ h2 hlt2
    have a2 := hmin2 _ h hlt
    have e : j = k2 := by
      apply (hc.eq_iff _ _).1
      have := hc.swap j k2
      have := hc.swap k2 j
      simp only at a1 a2
      omega
    subst e
    rw [hr, sortedKV_unique hc hi.sortedKV h2 h]
  · exact absurd hlt (hno _ h)

theorem Gt_of_none {m : mapImpl K V} {g : List (List (Cell K V))}
    (hc : IsStrictTotal m.cmp) (hi : Inv m g) {k : K}
    (h : ∀ p ∈ kvs (bottom g), ¬ m.cmp k p.1 < 0) :
    Gt m k = some ((m.emptyValue, false), m) := by
  rcases Gt_spec hc hi k with ⟨k2, w2, h2, hlt2, -, -⟩ | ⟨-, hr⟩
  · exact absurd hlt2 (h _ h2)
  · exact hr

theorem LtEq_of_mem {m : mapImpl K V} {g : List (List (Cell K V))} (hc : IsStrictTotal m.cmp)
    (hi : Inv m g) {k : K} {w : V} (h : (k, w) ∈ kvs (bottom g)) :
    LtEq m k = some ((w, true), m) ∧ GtEq m k = some ((w, true), m) := by
  have hg := Get_of_mem hc hi h
  have := (floor_ceiling m k _ hg).1 rfl
  rw [hg] at this
  exact this

theorem LtEq_of_absent {m : mapImpl K V} {g : List (List (Cell K V))}
    (hc : IsStrictTotal m.cmp) (hi : Inv m g) {k : K} (h : ∀ p ∈ kvs (bottom g), m.cmp k p.1 ≠ 0) :
    LtEq m k = Lt m k ∧ GtEq m k = Gt m k :=
  (floor_ceiling m k _ (Get_of_absent hc hi h)).2 rfl

theorem Remove_of_mem {m : mapImpl K V} {g : List (List (Cell K V))} (hc : IsStrictTotal m.cmp)
    (hi : Inv m g) {k : K} {w : V} (h : (k, w) ∈ kvs (bottom g)) :
    ∃ m' g', Remove m k = some ((w, true), m') ∧ Inv m' g' ∧ m'.cmp = m.cmp ∧
      m'.emptyValue = m.emptyValue ∧ kvs (bottom g') = del m.cmp k (kvs (bottom g)) := by
  obtain ⟨m', r, r1, r2, r3, r4, -, r6, r7, -⟩ := Remove_spec hc hi k
  rw [r7 w h] at r1
  exact ⟨m', _, r1, r2, r3, r4, r6⟩

/-! ## The example scenario -/

theorem Add_inv {m : mapImpl K V} {g : List (List (Cell K V))} (hc : IsStrictTotal m.cmp)
    (hi : Inv m g) (coin : Int) (k : K) (v : V) :
    ∃ m' g', Add m coin k v = some m' ∧ Inv m' g' ∧ m'.cmp = m.cmp ∧
      m'.emptyValue = m.emptyValue ∧ kvs (bottom g') = ins m.cmp k v (kvs (bottom g)) := by
  obtain ⟨m', g', h1, h2, h3, h4, -, -, h7⟩ := AddAt_spec hc hi (randomLevel_nonneg coin) k v
  exact ⟨m', g', h1, h2, h3, h4, h7⟩

/-- C12. Example scenario: on a new integer map with the usual order, after
`Add(5,5)`, `Add(3,3)`, `Add(8,8)`, `Add(1,1)`, whatever the four coins drawn:
`ForEach` yields `(1,1),(3,3),(5,5),(8,8)`; `Get(3) = (3,true)`; `Get(10)` is
not found (it returns the zero value 0 and false); `Lt(5) = (3,true)`; `Gt(5) = (8,true)`; `LtEq(5) = (5,true)`;
`GtEq(6) = (8,true)`; `Size()` is 4; `Remove(3) = (3,true)` and `Size()`
becomes 3; then `Get(3)` is not found and `ForEachRange(3,8)` visits `(5,5)` only. -/
theorem example_scenario (c1 c2 c3 c4 : Int) (_h1 : coinOK c1) (_h2 : coinOK c2)
    (_h3 : coinOK c3) (_h4 : coinOK c4) :
    ∃ m1 m2 m3 m4 m5, Add (NewMap intCmp (0 : Int)) c1 5 5 = some m1 ∧
      Add m1 c2 3 3 = some m2 ∧ Add m2 c3 8 8 = some m3 ∧ Add m3 c4 1 1 = some m4 ∧
      ForEach m4 (fun _ _ => true) = some ([(1, 1), (3, 3), (5, 5), (8, 8)], m4) ∧
      Get m4 3 = some ((3, true), m4) ∧ Get m4 10 = some ((0, false), m4) ∧
      Lt m4 5 = some ((3, true), m4) ∧ Gt m4 5 = some ((8, true), m4) ∧
      LtEq m4 5 = some ((5, true), m4) ∧ GtEq m4 6 = some ((8, true), m4) ∧
      Size m4 = 4 ∧ Remove m4 3 = some ((3, true), m5) ∧ Size m5 = 3 ∧
      Get m5 3 = some ((0, false), m5) ∧
      ForEachRange m5 3 8 (fun _ _ => true) = some ([(5, 5)], m5) := by
  have hc0 : IsStrictTotal (NewMap intCmp (0 : Int)).cmp := intCmp_total
  obtain ⟨m1, g1, a1, i1, q1, v1, k1⟩ := Add_inv hc0 (NewMap_inv intCmp 0) c1 5 5
  have hc1 : IsStrictTotal m1.cmp := by rw [q1]; exact hc0
  obtain ⟨m2, g2, a2, i2, q2, v2, k2⟩ := Add_inv hc1 i1 c2 3 3
  have hc2 : IsStrictTotal m2.cmp := by rw [q2]; exact hc1
  obtain ⟨m3, g3, a3, i3, q3, v3, k3⟩ := Add_inv hc2 i2 c3 8 8
  have hc3 : IsStrictTotal m3.cmp := by rw [q3]; exact hc2
  obtain ⟨m4, g4, a4, i4, q4, v4, k4⟩ := Add_inv hc3 i3 c4 1 1
  have hc4 : IsStrictTotal m4.cmp := by rw [q4]; exact hc3
  have e4 : m4.cmp = intCmp := by rw [q4, q3, q2, q1]; rfl
  have z4 : m4.emptyValue = 0 := by rw [v4, v3, v2, v1]; rfl
  have es4 : kvs (bottom g4) = [(1, 1), (3, 3), (5, 5), (8, 8)] := by
    rw [k4, k3, k2, k1, q3, q2, q1]
    rfl
  obtain ⟨m5, g5, r5, i5, q5, v5, k5⟩ := Remove_of_mem hc4 i4 (k := 3) (w := 3)
    (by rw [es4]; decide)
  have hc5 : IsStrictTotal m5.cmp := by rw [q5]; exact hc4
  have e5 : m5.cmp = intCmp := by rw [q5, e4]
  have es5 : kvs (bottom g5) = [(1, 1), (5, 5), (8, 8)] := by
    rw [k5, es4, e4]
    rfl
  refine ⟨m1, m2, m3, m4, m5, a1, a2, a3, a4, ?_, ?_, ?_, ?_, ?_, ?_, ?_, ?_, r5, ?_, ?_, ?_⟩
  · rw [ForEach_spec i4, visit_true, es4]
  · exact Get_of_mem hc4 i4 (by rw [es4]; decide)
  · have := Get_of_absent hc4 i4 (k := 10) (by rw [es4, e4]; decide)
    rw [z4] at this; exact this
  · exact Lt_of_greatest hc4 i4 (j := 3) (by rw [es4]; decide) (by rw [e4]; decide)
      (by rw [es4, e4]; decide)
  · exact Gt_of_least hc4 i4 (j := 8) (by rw [es4]; decide) (by rw [e4]; decide)
      (by rw [es4, e4]; decide)
  · exact (LtEq_of_mem hc4 i4 (by rw [es4]; decide)).1
  · rw [(LtEq_of_absent hc4 i4 (k := 6) (by rw [es4, e4]; decide)).2]
    exact Gt_of_least hc4 i4 (j := 8) (by rw [es4]; decide) (by rw [e4]; decide)
      (by rw [es4, e4]; decide)
  · show m4.size = 4
    rw [i4.size, es4]; rfl
  · show m5.size = 3
    rw [i5.size, es5]; rfl
  · have := Get_of_absent hc5 i5 (k := 3) (by rw [es5, e5]; decide)
    rw [v5, z4] at this; exact this
  · rw [ForEachRange_spec hc5 i5, visit_true, es5, e5]
    rfl

theorem example_scenario_witness :
    ∃ m1 m2 m3 m4 m5, Add (NewMap intCmp (0 : Int)) (2 ^ 61) 5 5 = some m1 ∧
      Add m1 (2 ^ 60) 3 3 = some m2 ∧ Add m2 7 8 8 = some m3 ∧ Add m3 0 1 1 = some m4 ∧
      ForEach m4 (fun _ _ => true) = some ([(1, 1), (3, 3), (5, 5), (8, 8)], m4) ∧
      Get m4 3 = some ((3, true), m4) ∧ Get m4 10 = some ((0, false), m4) ∧
      Lt m4 5 = some ((3, true), m4) ∧ Gt m4 5 = some ((8, true), m4) ∧
      LtEq m4 5 = some ((5, true), m4) ∧ GtEq m4 6 = some ((8, true), m4) ∧
      Size m4 = 4 ∧ Remove m4 3 = some ((3, true), m5) ∧ Size m5 = 3 ∧
      Get m5 3 = some ((0, false), m5) ∧
      ForEachRange m5 3 8 (fun _ _ => true) = some ([(5, 5)], m5) :=
  example_scenario (2 ^ 61) (2 ^ 60) 7 0 ⟨by decide, by decide⟩ ⟨by decide, by decide⟩
    ⟨by decide, by decide⟩ ⟨by decide, by decide⟩

/-! ## Predecessor search -/

theorem head?_addrs (post : List (Cell K V)) : (addrs post).head? = firstAddr post none := by
  cases post <;> rfl

theorem rd_cell {h : List (node K V)} {cs : List (Cell K V)} (hr : RepSeg h cs none)
    {c : Cell K V} (hc : c ∈ cs) {n : node K V} (hn : rd h c.addr = some n) :
    n.key = c.key ∧ n.value = c.value ∧ n.down = c.down := by
  obtain ⟨r, hr'⟩ := RepSeg_mem hr hc
  rw [hr'] at hn
  cases hn
  exact ⟨rfl, rfl, rfl⟩

theorem Inv.zero_chain {m : mapImpl K V} {g : List (List (Cell K V))} (hi : Inv m g) :
    rightChain m.heap (m.heap.length + 1) m.zeroLevel = some (addrs (bottom g)) ∧
      RepSeg m.heap (bottom g) none ∧ LevelOK m.cmp (bottom g) := by
  obtain ⟨hd0, tl0, hbe, hzero⟩ := hi.zero
  have hne : g ≠ [] := by
    obtain ⟨hd, tl, rest, hge, -⟩ := hi.head
    rw [hge]; simp
  have hm := bottom_mem hne
  have hrep := hi.good.rep _ hm
  refine ⟨?_, hrep, hi.good.lvl _ hm⟩
  have hl := hi.good.level_length_le hm
  rw [hbe] at hrep hl ⊢
  rw [hzero]
  exact rightChain_spec tl0 hd0 _ hrep (by simp at hl; omega)

/-- C13. Predecessor search: on every reachable map and for every key `k`,
`getLt(k)` returns the address `a` of a node of the zero level (the nodes met
along `right` from `zeroLevel` are `pre`, then `a`, then `post`).  The node at
`a` is the header `zeroLevel` itself, with no key and nothing before it, or it
carries a key strictly below `k`; every keyed node before it carries a key
strictly below `k` and every node after it a key that is `k` or above, so
`a` is the last node below `k`.  Its `right` pointer is the first node of
`post`, which, when there is one, carries the least stored key that is `k` or above. -/
theorem predecessor_search {cmp : Comparator K} (hc : IsStrictTotal cmp) {e : V}
    {m : mapImpl K V} (hr : Reachable cmp e m) (k : K) :
    ∃ a n pre post, getLt m k = some a ∧ rd m.heap a = some n ∧
      rightChain m.heap (m.heap.length + 1) m.zeroLevel = some (pre ++ a :: post) ∧
      n.right = post.head? ∧
      ((n.key = none ∧ a = m.zeroLevel ∧ pre = []) ∨ ∃ y, n.key = some y ∧ cmp y k < 0) ∧
      (∀ x ∈ pre, ∃ nx, rd m.heap x = some nx ∧ ∀ y, nx.key = some y → cmp y k < 0) ∧
      (∀ x ∈ post, ∃ nx y, rd m.heap x = some nx ∧ nx.key = some y ∧ cmp k y ≤ 0) ∧
      (∀ r, n.right = some r → ∃ nr y, rd m.heap r = some nr ∧ nr.key = some y ∧
        cmp k y ≤ 0 ∧
        ∀ x ∈ post, ∀ nx z, rd m.heap x = some nx → nx.key = some z → cmp y z ≤ 0) := by
  obtain ⟨g, hi, hcm, -⟩ := hr.inv hc
  subst hcm
  obtain ⟨pre, c, post, z⟩ := zero_split hc hi k
  obtain ⟨hchain, hrep, hlvl⟩ := hi.zero_chain
  obtain ⟨hd0, tl0, hbe, hzero⟩ := hi.zero
  rw [z.bot] at hchain hrep hlvl
  have hsort := hlvl.sorted
  have hcin : c ∈ pre ++ c :: post := by simp
  refine ⟨c.addr, _, addrs pre, addrs post, z.lt, z.cell, ?_, ?_, ?_, ?_, ?_, ?_⟩
  · rw [hchain]; simp [addrs]
  · show firstAddr post none = _
    rw [head?_addrs]
  · cases hk : c.key with
    | none =>
      left
      have hp : pre = [] := by
        cases pre with
        | nil => rfl
        | cons x t =>
          exfalso
          have := (List.pairwise_cons.1 hsort).1 c (by simp)
          rw [hk] at this
          exact olt_none_right _ _ this
      subst hp
      refine ⟨hk, ?_, rfl⟩
      rw [hzero]
      rw [z.bot] at hbe
      simp only [List.nil_append, List.cons.injEq] at hbe
      rw [hbe.1]
    | some y =>
      right
      have := z.below c (by simp)
      rw [hk] at this
      exact ⟨y, hk, this⟩
  · intro x hx
    obtain ⟨c', hc', rfl⟩ := List.mem_map.1 hx
    have hmem : c' ∈ pre ++ c :: post := by simp [hc']
    obtain ⟨r, hrd⟩ := RepSeg_mem hrep hmem
    refine ⟨_, hrd, ?_⟩
    intro y hy
    have := z.below c' (by simp [hc'])
    rw [show c'.key = some y from hy] at this
    exact this
  · intro x hx
    obtain ⟨c', hc', rfl⟩ := List.mem_map.1 hx
    have hmem : c' ∈ pre ++ c :: post := by simp [hc']
    obtain ⟨r, hrd⟩ := RepSeg_mem hrep hmem
    obtain ⟨y, hy, hle⟩ := z.above c' hc'
    exact ⟨_, y, hrd, hy, hle⟩
  · intro r hr
    have hr' : firstAddr post none = some r := hr
    cases post with
    | nil => cases hr'
    | cons x0 rest =>
      have e0 : x0.addr = r := by simpa [firstAddr] using hr'
      subst e0
      have hmem : x0 ∈ pre ++ c :: x0 :: rest := by simp
      obtain ⟨r0, hrd⟩ := RepSeg_mem hrep hmem
      obtain ⟨y, hy, hle⟩ := z.above x0 (by simp)
      refine ⟨_, y, hrd, hy, hle, ?_⟩
      intro x hx nx w hnx hw
      obtain ⟨c', hc', rfl⟩ := List.mem_map.1 hx
      have hmem' : c' ∈ pre ++ c :: x0 :: rest := by
        simp only [List.mem_append, List.mem_cons]
        rcases List.mem_cons.1 hc' with h | h
        · exact Or.inr (Or.inr (Or.inl h))
        · exact Or.inr (Or.inr (Or.inr h))
      have hk' := (rd_cell hrep hmem' hnx).1
      rw [hw] at hk'
      rcases List.mem_cons.1 hc' with h | h
      · subst h
        rw [hy] at hk'
        cases hk'
        rw [cmp_self hc]
      · have hs2 : (x0 :: rest).Pairwise fun a b => olt m.cmp a.key b.key := by
          have := (List.pairwise_append.1 hsort).2.1
          exact (List.pairwise_cons.1 this).2
        have := (List.pairwise_cons.1 hs2).1 c' h
        rw [hy, ← hk'] at this
        exact le_of_lt this

theorem predecessor_search_witness :
    ∃ a n pre post, getLt sampleMap 8 = some a ∧ rd sampleMap.heap a = some n ∧
      rightChain sampleMap.heap (sampleMap.heap.length + 1) sampleMap.zeroLevel =
        some (pre ++ a :: post) ∧
      n.right = post.head? ∧
      ((n.key = none ∧ a = sampleMap.zeroLevel ∧ pre = []) ∨
        ∃ y, n.key = some y ∧ intCmp y 8 < 0) ∧
      (∀ x ∈ pre, ∃ nx, rd sampleMap.heap x = some nx ∧
        ∀ y, nx.key = some y → intCmp y 8 < 0) ∧
      (∀ x ∈ post, ∃ nx y, rd sampleMap.heap x = some nx ∧ nx.key = some y ∧
        intCmp 8 y ≤ 0) ∧
      (∀ r, n.right = some r → ∃ nr y, rd sampleMap.heap r = some nr ∧ nr.key = some y ∧
        intCmp 8 y ≤ 0 ∧
        ∀ x ∈ post, ∀ nx z, rd sampleMap.heap x = some nx → nx.key = some z →
          intCmp y z ≤ 0) :=
  predecessor_search intCmp_total sample_reachable 8

/-! ## Preservation of the structural invariants -/

theorem sorted_key_unique {cmp : Comparator K} (hc : IsStrictTotal cmp) :
    ∀ {l : List (Cell K V)}, (l.Pairwise fun a b => olt cmp a.key b.key) →
      ∀ {a b : Cell K V} {y : K}, a ∈ l → b ∈ l → a.key = some y → b.key = some y → a = b
  | [], _, _, _, _, ha, _, _, _ => by cases ha
  | x :: t, hp, a, b, y, ha, hb, hka, hkb => by
    have hp' := List.pairwise_cons.1 hp
    have irr : ∀ z : Cell K V, z.key = some y → ¬ olt cmp (some y) z.key := by
      intro z hz h
      rw [hz] at h
      have : cmp y y < 0 := h
      rw [cmp_self hc] at this
      exact absurd this (lt_irrefl _)
    rcases List.mem_cons.1 ha with rfl | ha'
    · rcases List.mem_cons.1 hb with rfl | hb'
      · rfl
      · have := hp'.1 b hb'
        rw [hka] at this
        exact absurd this (irr b hkb)
    · rcases List.mem_cons.1 hb with rfl | hb'
      · have := hp'.1 a ha'
        rw [hkb] at this
        exact absurd this (irr a hka)
      · exact sorted_key_unique hc hp'.2 ha' hb' hka hkb

theorem Inv.structural {m : mapImpl K V} {g : List (List (Cell K V))}
    (hc : IsStrictTotal m.cmp) (hi : Inv m g) : Structural m.cmp g where
  sorted := fun l hl => (hi.good.lvl l hl).sorted
  towers := hi.good.down
  once := by
    intro l hl c hcl y hy
    obtain ⟨hd, tl, rest, hge, -⟩ := hi.head
    have hne : g ≠ [] := by rw [hge]; simp
    have hbs := (hi.good.lvl _ (bottom_mem hne)).sorted
    obtain ⟨c', hc', hk'⟩ := hi.good.key_in_bottom' l hl c hcl
    refine ⟨c', ⟨hc', hk'.trans hy⟩, ?_⟩
    rintro c2 ⟨h1, h2⟩
    exact sorted_key_unique hc hbs h1 hc' h2 (hk'.trans hy)

theorem Inv.isSkipList {m : mapImpl K V} {g : List (List (Cell K V))}
    (hc : IsStrictTotal m.cmp) (hi : Inv m g) : IsSkipList m.cmp m :=
  ⟨rfl, g, hi, hi.structural hc⟩

theorem sample_skiplist : IsSkipList intCmp sampleMap := by
  obtain ⟨g, hi, hcm, -⟩ := sample_reachable.inv intCmp_total
  have := hi.isSkipList (by rw [hcm]; exact intCmp_total)
  rw [hcm] at this
  exact this

/-- C14. Structural invariants are preserved: when the map is a skip list
whose levels satisfy (i) keys strictly increasing along every level, (ii) every
cell points down to a cell of the same key on the next lower level, (iii) every
key is on the zero level exactly once, then `Add(k, v)`, whatever level it
draws, and `Remove(k)` both return, and the map they leave is again such a skip
list; the map of `NewMap` is one. -/
theorem structural_invariants_preserved {cmp : Comparator K} (hc : IsStrictTotal cmp)
    {m : mapImpl K V} (h : IsSkipList cmp m) (coin : Int) (_hcoin : coinOK coin) (k : K)
    (v : V) :
    (∃ m', Add m coin k v = some m' ∧ IsSkipList cmp m') ∧
      (∃ r m', Remove m k = some (r, m') ∧ IsSkipList cmp m') ∧
      ∀ e : V, IsSkipList cmp (NewMap cmp e) := by
  obtain ⟨hcm, g, hi, -⟩ := h
  subst hcm
  refine ⟨?_, ?_, ?_⟩
  · obtain ⟨m', g', h1, h2, h3, -⟩ := Add_inv hc hi coin k v
    have := h2.isSkipList (by rw [h3]; exact hc)
    rw [h3] at this
    exact ⟨m', h1, this⟩
  · obtain ⟨m', r, r1, r2, r3, -⟩ := Remove_spec hc hi k
    have := r2.isSkipList (by rw [r3]; exact hc)
    rw [r3] at this
    exact ⟨r, m', r1, this⟩
  · intro e
    exact (NewMap_inv m.cmp e).isSkipList hc

theorem structural_invariants_preserved_witness :
    (∃ m', Add sampleMap (2 ^ 60) 6 60 = some m' ∧ IsSkipList intCmp m') ∧
      (∃ r m', Remove sampleMap 6 = some (r, m') ∧ IsSkipList intCmp m') ∧
      ∀ e : Int, IsSkipList intCmp (NewMap intCmp e) :=
  structural_invariants_preserved intCmp_total sample_skiplist (2 ^ 60) ⟨by decide, by decide⟩
    6 60

/-! ## The levels read off the heap -/

theorem entryAt_cells {h : List (node K V)} {cs : List (Cell K V)} (hr : RepSeg h cs none) :
    ∀ l : List (Cell K V), (∀ c ∈ l, c ∈ cs) → (addrs l).filterMap (entryAt h) = kvs l
  | [], _ => rfl
  | c :: t, hm => by
    obtain ⟨r, hrd⟩ := RepSeg_mem hr (hm c (List.mem_cons_self _ _))
    have ih := entryAt_cells hr t (fun x hx => hm x (List.mem_cons_of_mem _ hx))
    have e : entryAt h c.addr = c.key.bind fun k => c.value.map fun v => (k, v) := by
      unfold entryAt
      rw [hrd]
      rfl
    show List.filterMap (entryAt h) (c.addr :: addrs t) = kvs (c :: t)
    unfold kvs at ih ⊢
    rw [List.filterMap_cons, List.filterMap_cons, e, ih]

theorem chains_spec {cmp : Comparator K} {h : List (node K V)} {fuel : Nat}
    {g0 : List (List (Cell K V))} (hg : Good cmp h g0) (hfuel : h.length + 1 ≤ fuel) :
    ∀ (cs : List (Cell K V)) (g : List (List (Cell K V))),
      List.Forall₂ (fun c l => ∃ t, l = c :: t ∧ l ∈ g0) cs g →
      chains h fuel (cs.map Cell.addr) = some (g.map addrs)
  | [], [], _ => rfl
  | c :: cs, l :: g, hf => by
    cases hf with
    | cons hab ht =>
      obtain ⟨t, rfl, hl⟩ := hab
      have h1 := rightChain_spec t c fuel (hg.rep _ hl) (by
        have := hg.level_length_le hl
        simp at this; omega)
      have h2 := chains_spec hg hfuel cs g ht
      show (rightChain h fuel c.addr).bind _ = _
      rw [h1]
      show (chains h fuel (cs.map Cell.addr)).map _ = _
      rw [h2]
      rfl

theorem forall₂_imp_mem {α β : Type} {R S : α → β → Prop} : ∀ {as : List α} {bs : List β},
    List.Forall₂ R as bs → (∀ a b, b ∈ bs → R a b → S a b) → List.Forall₂ S as bs
  | _, _, .nil, _ => List.Forall₂.nil
  | _, _, .cons hab ht, h =>
    List.Forall₂.cons (h _ _ (List.mem_cons_self _ _) hab)
      (forall₂_imp_mem ht fun a b hb => h a b (List.mem_cons_of_mem _ hb))

/-- The levels of a well-formed map, read off its heap, are the levels of its
representation. -/
theorem Inv.levelNodes_eq {m : mapImpl K V} {g : List (List (Cell K V))} (hi : Inv m g) :
    levelNodes m = some (g.map addrs) ∧ levelEntries m = some (g.map kvs) := by
  have hg := hi.good
  obtain ⟨hd, tl, rest, hge, hhead⟩ := hi.head
  have hglen := hg.length_le
  have hfuel : rest.length + 1 ≤ m.heap.length + 1 := by
    rw [hge] at hglen; simp at hglen; omega
  have hhk : hd.key = none := by
    obtain ⟨a, ta, e1, e2⟩ := (hg.lvl (hd :: tl) (by rw [hge]; simp)).hdr
    cases e1; exact e2
  obtain ⟨cs, hcs, hf⟩ := downChain_spec rest (hd :: tl) hd (m.heap.length + 1)
    (by rw [← hge]; exact hg) (List.mem_cons_self _ _) hfuel
  rw [← hge] at hf
  rw [← hhead] at hcs
  have hf2 : List.Forall₂ (fun c l => ∃ t, l = c :: t ∧ l ∈ g) cs g := by
    refine forall₂_imp_mem hf ?_
    intro c l hl hab
    obtain ⟨a, ta, e1, -⟩ := (hg.lvl l hl).hdr
    subst e1
    have := LevelOK.header_unique (hg.lvl _ hl) hab.1 (hab.2.trans hhk)
    subst this
    exact ⟨ta, rfl, hl⟩
  have h1 : levelNodes m = some (g.map addrs) := by
    unfold levelNodes
    rw [hcs]
    exact chains_spec hg (le_refl _) cs g hf2
  refine ⟨h1, ?_⟩
  unfold levelEntries
  rw [h1]
  show some (List.map _ (List.map addrs g)) = some _
  congr 1
  rw [List.map_map]
  apply List.map_congr_left
  intro l hl
  exact entryAt_cells (hg.rep l hl) l (fun _ h => h)

/-! ## Method `Add`, cell by cell -/

/-- The growth step of `Add`, with the levels it leaves. -/
theorem grow_cells {m : mapImpl K V} {g : List (List (Cell K V))} (hp : PreInv m g) (nl : Int) :
    PreInv (if m.levels < nl then addLevels m nl else m) (growTo m nl g) ∧
      (if m.levels < nl then addLevels m nl else m).levels = max m.levels nl ∧
      (growTo m nl g).map kvs = List.replicate (nl - m.levels).toNat [] ++ g.map kvs ∧
      bottom (growTo m nl g) = bottom g ∧
      (if m.levels < nl then addLevels m nl else m).cmp = m.cmp ∧
      (if m.levels < nl then addLevels m nl else m).size = m.size ∧
      (if m.levels < nl then addLevels m nl else m).zeroLevel = m.zeroLevel ∧
      (if m.levels < nl then addLevels m nl else m).emptyValue = m.emptyValue ∧
      m.heap.length ≤ (if m.levels < nl then addLevels m nl else m).heap.length := by
  unfold growTo
  by_cases h : m.levels < nl
  · rw [if_pos h, if_pos h]
    obtain ⟨hd, tl, rest, hge, hhd⟩ := hp.head
    obtain ⟨hd', tl', rest', e1, e2, e3, e4, e5, e6, e7, -⟩ :=
      @addLevelsLoop_spec K V m.cmp (nl - m.levels).toNat m.heap g hd tl rest hge hp.good
    rw [← hhd] at e2 e3 e7
    refine ⟨⟨e3, ⟨hd', tl', rest', e1, e2⟩, ?_, ?_, ?_⟩, ?_, e5, e6, rfl, rfl, rfl, rfl, e7⟩
    · rw [e6]; exact hp.zero
    · have := hp.levels
      show nl + 1 = _
      rw [e4]
      have : ((nl - m.levels).toNat : Int) = nl - m.levels := Int.toNat_of_nonneg (by omega)
      push_cast
      omega
    · rw [e6]; exact hp.size
    · show nl = _
      rw [max_eq_right (le_of_lt h)]
  · rw [if_neg h, if_neg h]
    have e : (nl - m.levels).toNat = 0 := by
      apply Int.toNat_eq_zero.2; omega
    refine ⟨hp, ?_, ?_, rfl, rfl, rfl, rfl, rfl, le_refl _⟩
    · rw [max_eq_left (by omega)]
    · rw [e]; rfl

/-- Method `Add` with drawn level `nl` on a well-formed map, cell by cell: the
levels `g2` that the loop leaves hold the cells of the grown levels that do not
carry `k`, unchanged, and cells for `k` whose entries follow `addG`; a cell that
was not there before is at an address allocated by this call. -/
theorem AddAt_cells {m : mapImpl K V} {g : List (List (Cell K V))} (hc : IsStrictTotal m.cmp)
    (hi : Inv m g) {nl : Int} (hnl : 0 ≤ nl) (k : K) (v : V) :
    ∃ m' g2, AddAt m nl k v = some m' ∧ Inv m' (shrinkG g2) ∧ m'.cmp = m.cmp ∧
      Good m.cmp m'.heap g2 ∧
      g2.map (others m.cmp k) = (growTo m nl g).map (others m.cmp k) ∧
      g2.map kvs = addG m.cmp k v nl (max m.levels nl) ((growTo m nl g).map kvs) ∧
      (∀ a ∈ addrs g2.flatten, a ∈ addrs (growTo m nl g).flatten ∨ m.heap.length ≤ a) := by
  obtain ⟨hp1, hlv1, hkv1, hb1, hcmp1, hsz1, hz1, hev1, hlen1'⟩ := grow_cells hi.toPreInv nl
  unfold AddAt
  simp only []
  generalize (if m.levels < nl then addLevels m nl else m) = m1 at *
  generalize growTo m nl g = g1 at *
  obtain ⟨hd, tl, rest, hge, hhd⟩ := hp1.head
  subst hge
  have hg1 := hp1.good
  rw [hcmp1] at hg1
  have hhk : hd.key = none := (hg1.lvl _ (List.mem_cons_self _ _)).head_key
  have hlen1 : m1.levels = rest.length := by
    have := hp1.levels
    simp only [List.length_cons] at this
    push_cast at this
    omega
  obtain ⟨h', ex', post', below', hres, hG, hO, hKV, -, -, hor, -, hA, hB⟩ :=
    add_spec hc k v hnl rest tl [] hd m1.heap (m1.heap.length + 1) m1.levels none false hg1
      (by rw [hhk]; trivial) hg1.budget_le (fun _ => ⟨rfl, by omega⟩) (fun u hu => by cases hu)
  simp only [List.nil_append] at hG hO hA hB hor
  have hres' : AddLoop m1.cmp k v nl (m1.heap.length + 1) m1.heap (some m1.head) m1.levels
      none false = some (h', ex') := by
    rw [hcmp1, hhd]; exact hres
  rw [hres', Option.some_bind]
  have hlvb : LevelOK m.cmp (bottom ((hd :: tl) :: rest)) :=
    hg1.lvl _ (bottom_mem (by simp))
  have hkvb : kvs (bottom ((hd :: post') :: below')) =
      ins m.cmp k v (kvs (bottom ((hd :: tl) :: rest))) := by
    rw [kvs_bottom, kvs_bottom, List.map_cons, List.map_cons, kvs_cons_none hhk,
      kvs_cons_none hhk, hKV]
    exact addG_last m.cmp k v hnl _ _ (by simp) (fun hh => by
      simp only [List.length_cons, List.length_map]; push_cast; omega)
  have hex : ex' = hasKey m.cmp k (kvs (bottom ((hd :: tl) :: rest))) := by
    by_cases hh : ∃ c ∈ bottom ((hd :: tl) :: rest), c.key = some k
    · rw [hA hh, (hasKey_kvs hc hlvb).2 hh]
    · rw [hB (fun c' hc' hk' => hh ⟨c', hc', hk'⟩)]
      cases e : hasKey m.cmp k (kvs (bottom ((hd :: tl) :: rest))) with
      | false => rfl
      | true => exact absurd ((hasKey_kvs hc hlvb).1 e) hh
  obtain ⟨hd0, tl0, hb0, hz0⟩ := hp1.zero
  obtain ⟨tl0', hb0'⟩ := bottom_header_of_others hO hG.lvl (by simp) hb0
    (by rw [hb0] at hlvb; exact hlvb.head_key)
  have hp2 : PreInv ({ m1 with heap := h', size := if ex' = true then m1.size else m1.size + 1 })
      ((hd :: post') :: below') := by
    refine ⟨by rw [hcmp1]; exact hG, ⟨hd, post', below', rfl, hhd⟩, ⟨hd0, tl0', hb0', hz0⟩, ?_, ?_⟩
    · have := congrArg List.length hO
      simp only [List.length_map] at this
      rw [this]; exact hp1.levels
    · show (if ex' = true then m1.size else m1.size + 1) = _
      rw [hkvb, ins_length hc k v _ hlvb.sortedKV_level, hex, hp1.size]
      split_ifs <;> simp
  obtain ⟨m', e1, hi', e2, e3, -⟩ := shrink_spec hp2
  refine ⟨m', (hd :: post') :: below', e1, hi', e3.trans hcmp1, ?_, hO, ?_, ?_⟩
  · rw [e2]; exact hG
  · rw [List.map_cons, kvs_cons_none hhk, hKV, hlv1, List.map_cons, kvs_cons_none hhk]
  · intro a ha
    rcases hor a ha with h | h
    · exact Or.inl h
    · exact Or.inr (le_trans hlen1' h)

/-! ## Headers and absent keys -/

/-- When no level holds the key, the loop of `Add` leaves the levels above the
drawn level as they are and inserts the entry into every other level. -/
theorem addG_absent (cmp : Comparator K) (k : K) (v : V) (nl : Int) :
    ∀ (ls : List (List (K × V))) (cl : Int), (∀ l ∈ ls, hasKey cmp k l = false) →
      addG cmp k v nl cl ls =
        ls.take (cl - nl).toNat ++ (ls.drop (cl - nl).toNat).map (ins cmp k v)
  | [], _, _ => by simp [addG]
  | l :: below, cl, h => by
    have hl := h l (List.mem_cons_self _ _)
    have ih := fun c => addG_absent cmp k v nl below c
      (fun x hx => h x (List.mem_cons_of_mem _ hx))
    rw [addG]
    by_cases h1 : cl > nl
    · rw [if_pos h1, hl]
      simp only [Bool.false_eq_true, if_false]
      have e : (cl - nl).toNat = (cl - 1 - nl).toNat + 1 := by omega
      rw [e, List.take_succ_cons, List.drop_succ_cons, ih]
      rfl
    · rw [if_neg h1]
      have e : (cl - nl).toNat = 0 := by omega
      rw [e, ih, e]
      rfl

theorem Good.drop {cmp : Comparator K} {h : List (node K V)} :
    ∀ (pre : List (List (Cell K V))) {g : List (List (Cell K V))},
      Good cmp h (pre ++ g) → Good cmp h g
  | [], _, hg => hg
  | _ :: t, _, hg => Good.drop t hg.tail

theorem headers_others {cmp : Comparator K} (k : K) :
    ∀ g : List (List (Cell K V)), (∀ l ∈ g, LevelOK cmp l) →
      headers (g.map (others cmp k)) = headers g
  | [], _ => rfl
  | l :: g, h => by
    have ih := headers_others k g (fun x hx => h x (List.mem_cons_of_mem _ hx))
    obtain ⟨hd, tl, rfl, hk⟩ := (h l (List.mem_cons_self _ _)).hdr
    have e : others cmp k (hd :: tl) = hd :: others cmp k tl := by
      show List.filter _ (hd :: tl) = _
      rw [List.filter_cons_of_pos (by unfold isOther; rw [hk])]; rfl
    unfold headers at ih ⊢
    rw [List.map_cons, List.filterMap_cons, List.filterMap_cons, e, ih]
    rfl

theorem headers_growG : ∀ (n a : Nat) (g : List (List (Cell K V))), (∀ l ∈ g, l ≠ []) →
    g ≠ [] →
    ∃ news : List Nat, headers (growG n a g) = news ++ headers g ∧ news.length = n ∧
      ∀ x ∈ news, a ≤ x
  | 0, _, g, _, _ => ⟨[], rfl, rfl, fun _ h => by cases h⟩
  | n + 1, a, g, hne, hg => by
    match g, hne, hg with
    | (hd :: tl) :: rest, hne, _ =>
      obtain ⟨news, e1, e2, e3⟩ := headers_growG n (a + 1)
        ([headerCell a hd.addr] :: (hd :: tl) :: rest)
        (by
          intro l hl
          rcases List.mem_cons.1 hl with rfl | hl
          · simp
          · exact hne l hl)
        (by simp)
      refine ⟨news ++ [a], ?_, by simp [e2], ?_⟩
      · show headers (growG n (a + 1) ([headerCell a hd.addr] :: (hd :: tl) :: rest)) = _
        rw [e1, List.append_assoc]
        rfl
      · intro x hx
        rcases List.mem_append.1 hx with h | h
        · have := e3 x h; omega
        · simp at h; omega
    | [] :: rest, hne, _ => exact absurd rfl (hne [] (List.mem_cons_self _ _))

theorem header_addrs {cmp : Comparator K} : ∀ {cs : List (Cell K V)}
    {g : List (List (Cell K V))},
    List.Forall₂ (fun c l => c ∈ l ∧ c.key = none) cs g → (∀ l ∈ g, LevelOK cmp l) →
    cs.map Cell.addr = headers g
  | _, _, .nil, _ => rfl
  | _, _, @List.Forall₂.cons _ _ _ c l cs g hab ht, hall => by
    have hl := hall l (List.mem_cons_self _ _)
    obtain ⟨a, ta, e1, -⟩ := hl.hdr
    subst e1
    have := LevelOK.header_unique hl hab.1 hab.2
    subst this
    show c.addr :: List.map Cell.addr cs = _
    rw [header_addrs ht (fun x hx => hall x (List.mem_cons_of_mem _ hx))]
    rfl

/-- Following `down` from the head of a well-formed map visits the headers of
its levels. -/
theorem Inv.header_chain {m : mapImpl K V} {g : List (List (Cell K V))} (hi : Inv m g) :
    downChain m.heap (m.heap.length + 1) m.head = some (headers g) := by
  have hg := hi.good
  obtain ⟨hd, tl, rest, hge, hhead⟩ := hi.head
  have hglen := hg.length_le
  have hfuel : rest.length + 1 ≤ m.heap.length + 1 := by
    rw [hge] at hglen; simp at hglen; omega
  have hhk : hd.key = none := by
    obtain ⟨a, ta, e1, e2⟩ := (hg.lvl (hd :: tl) (by rw [hge]; simp)).hdr
    cases e1; exact e2
  obtain ⟨cs, hcs, hf⟩ := downChain_spec rest (hd :: tl) hd (m.heap.length + 1)
    (by rw [← hge]; exact hg) (List.mem_cons_self _ _) hfuel
  rw [← hge] at hf
  rw [← hhead] at hcs
  rw [hcs]
  congr 1
  exact header_addrs (hf.imp fun _ _ h => ⟨h.1, h.2.trans hhk⟩) hg.lvl

/-! ## Adding a key that the map does not hold -/

theorem absent_levels {m : mapImpl K V} {g : List (List (Cell K V))} (hc : IsStrictTotal m.cmp)
    (hi : Inv m g) {k : K} (habs : ∀ p ∈ kvs (bottom g), m.cmp k p.1 ≠ 0) :
    ∀ l ∈ g, ∀ c ∈ l, c.key ≠ some k := by
  intro l hl c hcl hk
  obtain ⟨c', hc', hk'⟩ := hi.good.key_in_bottom' l hl c hcl
  rw [hk] at hk'
  have hne : g ≠ [] := by
    obtain ⟨hd, tl, rest, hge, -⟩ := hi.head
    rw [hge]; simp
  have hv := (hi.good.lvl _ (bottom_mem hne)).val c' hc' (by rw [hk']; simp)
  obtain ⟨w, hw⟩ : ∃ w, c'.value = some w := by
    cases h : c'.value with
    | none => exact absurd h hv
    | some w => exact ⟨w, rfl⟩
  have : (k, w) ∈ kvs (bottom g) := mem_kvs.2 ⟨c', hc', hk', hw⟩
  exact habs _ this (cmp_self hc k)

theorem nodup_addr_inj {g : List (List (Cell K V))} (hn : (addrs g.flatten).Nodup)
    {l1 l2 : List (Cell K V)} (h1 : l1 ∈ g) (h2 : l2 ∈ g) {c1 c2 : Cell K V} (hc1 : c1 ∈ l1)
    (hc2 : c2 ∈ l2) (e : c1.addr = c2.addr) : c1 = c2 :=
  List.inj_on_of_nodup_map hn (List.mem_flatten.2 ⟨l1, h1, hc1⟩)
    (List.mem_flatten.2 ⟨l2, h2, hc2⟩) e

theorem mem_of_map_others {cmp : Comparator K} {k : K} {g1 g2 : List (List (Cell K V))}
    (ho : g2.map (others cmp k) = g1.map (others cmp k)) {l1 : List (Cell K V)} (h1 : l1 ∈ g1)
    {c : Cell K V} (hc : c ∈ l1) (hk : isOther cmp k c = true) : ∃ l2 ∈ g2, c ∈ l2 := by
  have : others cmp k l1 ∈ g2.map (others cmp k) := by
    rw [ho]; exact List.mem_map_of_mem _ h1
  obtain ⟨l2, h2, e⟩ := List.mem_map.1 this
  refine ⟨l2, h2, ?_⟩
  have : c ∈ others cmp k l2 := by rw [e]; exact mem_others.2 ⟨hc, hk⟩
  exact (mem_others.1 this).1

/-- Method `Add` of a key that the map does not hold, with drawn level `nl`: the
header stack grows by `nl - levels` new headers when `nl` exceeds `levels`, the
levels above `nl` keep their entries, every level up to `nl` receives the
entry, and every cell that carries the key is new and holds the value. -/
theorem AddAt_absent {m : mapImpl K V} {g : List (List (Cell K V))} (hc : IsStrictTotal m.cmp)
    (hi : Inv m g) {nl : Int} (hnl : 0 ≤ nl) (k : K) (v : V)
    (habs : ∀ p ∈ kvs (bottom g), m.cmp k p.1 ≠ 0) :
    ∃ m' g2 news, AddAt m nl k v = some m' ∧ Inv m' g2 ∧ m'.cmp = m.cmp ∧
      m'.levels = max m.levels nl ∧
      headers g2 = news ++ headers g ∧ news.length = (nl - m.levels).toNat ∧
      (∀ x ∈ news, m.heap.length ≤ x) ∧
      g2.map kvs =
        (List.replicate (nl - m.levels).toNat [] ++ g.map kvs).take (m.levels - nl).toNat ++
          ((List.replicate (nl - m.levels).toNat [] ++ g.map kvs).drop
            (m.levels - nl).toNat).map (ins m.cmp k v) ∧
      (∀ l ∈ g2, ∀ c ∈ l, c.key = some k → c.value = some v ∧ m.heap.length ≤ c.addr) ∧
      (∀ l ∈ g2.drop (m.levels - nl).toNat, ∃ c ∈ l, c.key = some k) := by
  obtain ⟨m', g2, h1, h2, h3, hG, hO, hKV, hor⟩ := AddAt_cells hc hi hnl k v
  obtain ⟨hp1, -, hkv1, -, hcmp1, -⟩ := grow_cells hi.toPreInv nl
  have hlv1 : ∀ l ∈ growTo m nl g, LevelOK m.cmp l := by
    have := hp1.good.lvl
    rw [hcmp1] at this
    exact this
  have hgl := hi.levels
  obtain ⟨hd, tl, rest, hge, -⟩ := hi.head
  have habsL := absent_levels hc hi habs
  -- no level of the grown stack holds the key
  have hno : ∀ L ∈ (growTo m nl g).map kvs, hasKey m.cmp k L = false := by
    intro L hL
    rw [hkv1] at hL
    rcases List.mem_append.1 hL with h | h
    · rw [(List.mem_replicate.1 h).2]; rfl
    · obtain ⟨l, hl, rfl⟩ := List.mem_map.1 h
      cases e : hasKey m.cmp k (kvs l) with
      | false => rfl
      | true =>
        obtain ⟨c, hcl, hk⟩ := (hasKey_kvs hc (hi.good.lvl l hl)).1 e
        exact absurd hk (habsL l hl c hcl)
  have hno1 : ∀ l ∈ growTo m nl g, ∀ c ∈ l, isOther m.cmp k c = true := by
    intro l hl c hcl
    rw [isOther_iff hc]
    intro hk
    have := hno _ (List.mem_map_of_mem kvs hl)
    rw [(hasKey_kvs hc (hlv1 l hl)).2 ⟨c, hcl, hk⟩] at this
    cases this
  have hd' : (max m.levels nl - nl).toNat = (m.levels - nl).toNat := by
    rcases le_total m.levels nl with h | h
    · rw [max_eq_right h]
      have : (m.levels - nl).toNat = 0 := by omega
      rw [this]; simp
    · rw [max_eq_left h]
  have hKV2 := hKV
  rw [addG_absent m.cmp k v nl _ _ hno, hd', hkv1] at hKV2
  -- the top level of the result holds a key, so `shrink` pops nothing
  have hlen2 : g2.length = (growTo m nl g).length := by
    have := congrArg List.length hO
    simpa using this
  have hlen1 : ((growTo m nl g).length : Int) = max m.levels nl + 1 := by
    have := congrArg List.length hkv1
    simp only [List.length_map, List.length_append, List.length_replicate] at this
    rw [this]
    push_cast
    rcases le_total m.levels nl with h | h
    · rw [max_eq_right h]
      have : ((nl - m.levels).toNat : Int) = nl - m.levels := Int.toNat_of_nonneg (by omega)
      omega
    · rw [max_eq_left h]
      have : (nl - m.levels).toNat = 0 := by omega
      rw [this]; omega
  have htop : ∀ hd2 rest2, g2 = [hd2] :: rest2 → rest2 = [] := by
    intro hd2 rest2 e
    by_contra hne
    have hk0 : kvs [hd2] = [] := by
      have := kvs_tail_length (hG.lvl [hd2] (by rw [e]; simp))
      simpa using this
    rw [e, List.map_cons, hk0] at hKV2
    rcases le_total m.levels nl with h | h
    · have e0 : (m.levels - nl).toNat = 0 := by omega
      rw [e0, List.take_zero, List.nil_append, List.drop_zero] at hKV2
      cases hls : List.replicate (nl - m.levels).toNat [] ++ List.map kvs g with
      | nil =>
        rw [hge] at hls
        simp at hls
      | cons L Ls =>
        rw [hls, List.map_cons] at hKV2
        simp only [List.cons.injEq] at hKV2
        have := hKV2.1
        cases L with
        | nil => simp [ins] at this
        | cons p t =>
          rw [ins] at this
          split_ifs at this
    · have e0 : (nl - m.levels).toNat = 0 := by omega
      rw [e0, List.replicate_zero, List.nil_append, hge, List.map_cons] at hKV2
      by_cases hz : (m.levels - nl).toNat = 0
      · rw [hz, List.take_zero, List.nil_append, List.drop_zero, List.map_cons] at hKV2
        simp only [List.cons.injEq] at hKV2
        have := hKV2.1
        cases hL : kvs (hd :: tl) with
        | nil => rw [hL] at this; simp [ins] at this
        | cons p t =>
          rw [hL, ins] at this
          split_ifs at this
      · obtain ⟨d, hdz⟩ : ∃ d, (m.levels - nl).toNat = d + 1 := ⟨_, (Nat.succ_pred hz).symm⟩
        rw [hdz, List.take_succ_cons, List.cons_append] at hKV2
        simp only [List.cons.injEq] at hKV2
        have htl : tl = [] := by
          have := kvs_tail_length (hi.good.lvl (hd :: tl) (by rw [hge]; simp))
          rw [← hKV2.1] at this
          simp at this
          exact this
        subst htl
        have := hi.top hd rest hge
        subst this
        rw [hge] at hgl
        simp at hgl
        omega
  have hsh : shrinkG g2 = g2 := shrinkG_eq_self g2 hG.level_ne_nil htop
  rw [hsh] at h2
  -- the headers
  have hh2 : headers g2 = headers (growTo m nl g) := by
    rw [← headers_others k g2 hG.lvl, hO, headers_others k _ hlv1]
  obtain ⟨news, hn1, hn2, hn3⟩ : ∃ news : List Nat,
      headers (growTo m nl g) = news ++ headers g ∧ news.length = (nl - m.levels).toNat ∧
        ∀ x ∈ news, m.heap.length ≤ x := by
    unfold growTo
    by_cases h : m.levels < nl
    · rw [if_pos h]
      exact headers_growG _ _ g hi.good.level_ne_nil (by rw [hge]; simp)
    · rw [if_neg h]
      have : (nl - m.levels).toNat = 0 := by omega
      exact ⟨[], rfl, by rw [this]; rfl, fun _ hx => by cases hx⟩
  refine ⟨m', g2, news, h1, h2, h3, ?_, hh2.trans hn1, hn2, hn3, hKV2, ?_, ?_⟩
  · have := h2.levels
    rw [hlen2] at this
    omega
  · intro l hl c hcl hk
    constructor
    · -- the level holds `(k, v)` in a cell with the key of `c`
      have hin : (k, v) ∈ kvs l := by
        have hL : kvs l ∈ g2.map kvs := List.mem_map_of_mem kvs hl
        rw [hKV2] at hL
        rcases List.mem_append.1 hL with h | h
        · have h' := List.mem_of_mem_take h
          rw [← hkv1] at h'
          have := hno _ h'
          rw [(hasKey_kvs hc (hG.lvl l hl)).2 ⟨c, hcl, hk⟩] at this
          cases this
        · obtain ⟨L, hLm, e⟩ := List.mem_map.1 h
          have hLm' := List.mem_of_mem_drop hLm
          rw [← hkv1] at hLm'
          obtain ⟨l1, hl1, rfl⟩ := List.mem_map.1 hLm'
          rw [← e]
          exact (mem_ins hc k v _ (hlv1 l1 hl1).sortedKV_level _).2 (Or.inl rfl)
      obtain ⟨c2, hc2, hk2, hv2⟩ := mem_kvs.1 hin
      have := sorted_key_unique hc (hG.lvl l hl).sorted hcl hc2 hk hk2
      rw [this]; exact hv2
    · rcases hor c.addr (List.mem_map_of_mem Cell.addr (List.mem_flatten.2 ⟨l, hl, hcl⟩))
        with h | h
      · exfalso
        obtain ⟨c1, hc1, e1⟩ := List.mem_map.1 h
        obtain ⟨l1, hl1, hcl1⟩ := List.mem_flatten.1 hc1
        have ho1 := hno1 l1 hl1 c1 hcl1
        obtain ⟨l2, hl2, hcl2⟩ := mem_of_map_others hO hl1 hcl1 ho1
        have := nodup_addr_inj hG.nodup hl2 hl hcl2 hcl e1
        rw [this, isOther_iff hc] at ho1
        exact ho1 hk
      · exact h
  · intro l hl
    have hL : kvs l ∈ (g2.map kvs).drop (m.levels - nl).toNat := by
      rw [← List.map_drop]; exact List.mem_map_of_mem kvs hl
    have hle : (m.levels - nl).toNat ≤
        (List.replicate (nl - m.levels).toNat [] ++ List.map kvs g).length := by
      rw [← hkv1, List.length_map]
      have := hlen1
      rcases le_total m.levels nl with h | h
      · have : (m.levels - nl).toNat = 0 := by omega
        omega
      · rw [max_eq_left h] at this
        omega
    rw [hKV2, List.drop_append_of_le_length (by rw [List.length_take]; omega)] at hL
    rw [List.drop_of_length_le (by rw [List.length_take]; omega), List.nil_append] at hL
    obtain ⟨L, hLm, e⟩ := List.mem_map.1 hL
    have hLm' := List.mem_of_mem_drop hLm
    rw [← hkv1] at hLm'
    obtain ⟨l1, hl1, rfl⟩ := List.mem_map.1 hLm'
    have hin : (k, v) ∈ kvs l := by
      rw [← e]
      exact (mem_ins hc k v _ (hlv1 l1 hl1).sortedKV_level _).2 (Or.inl rfl)
    obtain ⟨c2, hc2, hk2, -⟩ := mem_kvs.1 hin
    exact ⟨c2, hc2, hk2⟩

theorem entryAt_cell {h : List (node K V)} {cs : List (Cell K V)} (hr : RepSeg h cs none)
    {c : Cell K V} (hc : c ∈ cs) {k : K} {v : V} (hk : c.key = some k) (hv : c.value = some v) :
    entryAt h c.addr = some (k, v) := by
  obtain ⟨r, hrd⟩ := RepSeg_mem hr hc
  unfold entryAt
  rw [hrd]
  show (c.key.bind fun k => c.value.map fun v => (k, v)) = _
  rw [hk, hv]; rfl

/-- Insertion of a key that the map does not hold, with the drawn level `nl`
given: the header stack, the entries of the levels and the tower of the key. -/
theorem AddAt_new_key {m : mapImpl K V} {g : List (List (Cell K V))}
    (hc : IsStrictTotal m.cmp) (hi : Inv m g) {nl : Int} (hnl : 0 ≤ nl) (k : K) (v : V)
    (habs : ∀ p ∈ kvs (bottom g), m.cmp k p.1 ≠ 0) :
    ∃ m' hs ls news lns ts,
      downChain m.heap (m.heap.length + 1) m.head = some hs ∧ levelEntries m = some ls ∧
      (∀ L ∈ ls, ∀ p ∈ L, m.cmp k p.1 ≠ 0) ∧
      AddAt m nl k v = some m' ∧ m'.levels = max m.levels nl ∧
      downChain m'.heap (m'.heap.length + 1) m'.head = some (news ++ hs) ∧
      news.length = (nl - m.levels).toNat ∧
      (∀ x ∈ news, m.heap.length ≤ x) ∧
      levelEntries m' = some
        ((List.replicate news.length [] ++ ls).take (m.levels - nl).toNat ++
          ((List.replicate news.length [] ++ ls).drop
            (m.levels - nl).toNat).map (ins m.cmp k v)) ∧
      levelNodes m' = some lns ∧
      List.Forall₂ (fun a nodes => a ∈ nodes ∧ entryAt m'.heap a = some (k, v) ∧
        m.heap.length ≤ a) ts (lns.drop (m.levels - nl).toNat) ∧
      (ts.length : Int) = nl + 1 ∧
      ∀ a, ts.head? = some a → downChain m'.heap (m'.heap.length + 1) a = some ts := by
  obtain ⟨m', g2, news, h1, h2, h3, h4, h5, h6, h7, h8, h9, h10⟩ :=
    AddAt_absent hc hi hnl k v habs
  have habsL := absent_levels hc hi habs
  have hG := h2.good
  rw [h3] at hG
  have hlen2 : (g2.length : Int) = max m.levels nl + 1 := by
    rw [← h2.levels, h4]
  -- the levels `0..nl` of the result
  have hdlen : (g2.drop (m.levels - nl).toNat).length = nl.toNat + 1 := by
    rw [List.length_drop]
    rcases le_total m.levels nl with h | h
    · rw [max_eq_right h] at hlen2
      have : (m.levels - nl).toNat = 0 := by omega
      omega
    · rw [max_eq_left h] at hlen2
      omega
  obtain ⟨l, rest2, hdrop⟩ : ∃ l rest2, g2.drop (m.levels - nl).toNat = l :: rest2 := by
    cases hd : g2.drop (m.levels - nl).toNat with
    | nil => rw [hd] at hdlen; simp at hdlen
    | cons l rest2 => exact ⟨l, rest2, rfl⟩
  have hsplit : g2 = g2.take (m.levels - nl).toNat ++ l :: rest2 := by
    rw [← hdrop, List.take_append_drop]
  have hG2 : Good m.cmp m'.heap (l :: rest2) := by
    rw [hsplit] at hG
    exact Good.drop _ hG
  have hsub : ∀ x ∈ l :: rest2, x ∈ g2 := by
    intro x hx
    rw [← hdrop] at hx
    exact List.mem_of_mem_drop hx
  obtain ⟨c, hcl, hck⟩ := h10 l (by rw [hdrop]; simp)
  obtain ⟨cs, hcs, hf⟩ := downChain_spec rest2 l c (m'.heap.length + 1) hG2 hcl (by
    have := hG.length_le
    have e1 := hdlen
    rw [hdrop] at e1
    simp only [List.length_cons] at e1
    have e2 := hdlen
    rw [List.length_drop] at e2
    omega)
  have hlns := h2.levelNodes_eq
  refine ⟨m', headers g, g.map kvs, news, g2.map addrs, cs.map Cell.addr, hi.header_chain,
    hi.levelNodes_eq.2, ?_, h1, h4, ?_, h6, h7, ?_, hlns.1, ?_, ?_, ?_⟩
  · intro L hL p hp h0
    obtain ⟨l0, hl0, rfl⟩ := List.mem_map.1 hL
    obtain ⟨c0, hc0, hk0, -⟩ := mem_kvs.1 hp
    have : k = p.1 := (hc.eq_iff _ _).1 h0
    rw [← this] at hk0
    exact habsL l0 hl0 c0 hc0 hk0
  · rw [h2.header_chain, h5]
  · rw [hlns.2, h8, h6]
  · rw [← List.map_drop, hdrop, List.forall₂_map_left_iff, List.forall₂_map_right_iff]
    refine forall₂_imp_mem hf ?_
    intro c' l' hl' hab
    have hl2 := hsub l' hl'
    have hkv := h9 l' hl2 c' hab.1 (hab.2.trans hck)
    exact ⟨List.mem_map_of_mem Cell.addr hab.1,
      entryAt_cell (hG.rep l' hl2) hab.1 (hab.2.trans hck) hkv.1, hkv.2⟩
  · rw [List.length_map, hf.length_eq, ← hdrop, hdlen]
    push_cast
    rw [Int.toNat_of_nonneg hnl]
  · intro a ha
    match cs, hf, hcs, ha with
    | c0 :: cs0, hf, hcs, ha =>
      have hab := (List.forall₂_cons.1 hf).1
      simp only [List.map_cons, List.head?_cons, Option.some.injEq] at ha
      have : c0 = c := sorted_key_unique hc (hG2.lvl l (List.mem_cons_self _ _)).sorted
        hab.1 hcl (hab.2.trans hck) hck
      rw [← ha, this]
      rw [this] at hcs
      exact hcs

/-- C16. Insertion of a new key: on every reachable map that does not hold `k`
(no level does), `Add(k, v)` with drawn level `l` returns a map with
`max(levels, l)` as level count.  The headers met along `down` from its head are
`l - levels` new headers (none when `l` does not exceed `levels`) followed by the
headers of the old map, so each new header points down to the previous top.
The levels above `l` keep their entries, and each of the levels `0..l` receives
the entry `(k, v)` at its sorted position: a new level holds it alone.  The
nodes `ts` that carry `k` are one node on each of the levels `0..l`, all
allocated by this call, and following `down` from the topmost of them visits
exactly `ts`. -/
theorem insert_new_key {cmp : Comparator K} (hc : IsStrictTotal cmp) {e : V}
    {m : mapImpl K V} (hr : Reachable cmp e m) (coin : Int) (_hcoin : coinOK coin) (k : K)
    (v : V) (es : List (K × V)) (hes : ForEach m (fun _ _ => true) = some (es, m))
    (habs : ∀ p ∈ es, cmp k p.1 ≠ 0) :
    ∃ m' hs ls news lns ts,
      downChain m.heap (m.heap.length + 1) m.head = some hs ∧ levelEntries m = some ls ∧
      (∀ L ∈ ls, ∀ p ∈ L, cmp k p.1 ≠ 0) ∧
      Add m coin k v = some m' ∧ m'.levels = max m.levels (randomLevel coin) ∧
      downChain m'.heap (m'.heap.length + 1) m'.head = some (news ++ hs) ∧
      news.length = (randomLevel coin - m.levels).toNat ∧
      (∀ x ∈ news, m.heap.length ≤ x) ∧
      levelEntries m' = some
        ((List.replicate news.length [] ++ ls).take (m.levels - randomLevel coin).toNat ++
          ((List.replicate news.length [] ++ ls).drop
            (m.levels - randomLevel coin).toNat).map (ins cmp k v)) ∧
      levelNodes m' = some lns ∧
      List.Forall₂ (fun a nodes => a ∈ nodes ∧ entryAt m'.heap a = some (k, v) ∧
        m.heap.length ≤ a) ts (lns.drop (m.levels - randomLevel coin).toNat) ∧
      (ts.length : Int) = randomLevel coin + 1 ∧
      ∀ a, ts.head? = some a → downChain m'.heap (m'.heap.length + 1) a = some ts := by
  obtain ⟨g, hi, hcm, -⟩ := hr.inv hc
  subst hcm
  rw [ForEach_entries hi hes] at habs
  exact AddAt_new_key hc hi (randomLevel_nonneg coin) k v habs

/-! ## The level draw -/

theorem randomLevelFrom_small (coin : Int) (h : coin ≤ 1) : ∀ n : Nat,
    randomLevelFrom coin n = 0
  | 0 => rfl
  | i + 1 => by
    rw [randomLevelFrom, if_neg, randomLevelFrom_small coin h i]
    have : (1 : Int) ≤ 2 ^ i := one_le_pow₀ (by norm_num)
    omega

theorem randomLevelFrom_between (coin : Int) (i : Nat) (h1 : 2 ^ i < coin)
    (h2 : coin ≤ 2 ^ (i + 1)) : ∀ n : Nat, i < n → randomLevelFrom coin n = 61 - (i : Int)
  | 0, h => by omega
  | j + 1, h => by
    rw [randomLevelFrom]
    by_cases hj : coin > 2 ^ j
    · rw [if_pos hj]
      have : j < i + 1 := by
        by_contra hc
        have : (2 : Int) ^ (i + 1) ≤ 2 ^ j := pow_le_pow_right₀ (by norm_num) (by omega)
        omega
      have : j = i := by omega
      rw [this]
    · rw [if_neg hj]
      apply randomLevelFrom_between coin i h1 h2 j
      by_contra hc
      have : (2 : Int) ^ j ≤ 2 ^ i := pow_le_pow_right₀ (by norm_num) (by omega)
      omega

theorem randomLevel_top (coin : Int) (h : 2 ^ 61 < coin) : randomLevel coin = 0 := by
  unfold randomLevel
  rw [randomLevelFrom, if_pos h]
  rfl

theorem randomLevel_between (coin : Int) (i : Nat) (hi : i ≤ 60) (h1 : 2 ^ i < coin)
    (h2 : coin ≤ 2 ^ (i + 1)) : randomLevel coin = 61 - (i : Int) :=
  randomLevelFrom_between coin i h1 h2 62 (by omega)

theorem randomLevel_small (coin : Int) (h : coin ≤ 1) : randomLevel coin = 0 :=
  randomLevelFrom_small coin h 62

/-- Every coin above 1 lies between two consecutive powers of two. -/
theorem between_pows (c : Nat) (h1 : 1 < c) (h2 : c ≤ 2 ^ 61) :
    ∃ i, i ≤ 60 ∧ 2 ^ i < c ∧ c ≤ 2 ^ (i + 1) := by
  have hfind : ∀ n : Nat, c ≤ 2 ^ (n + 1) → ∃ i, i ≤ n ∧ 2 ^ i < c ∧ c ≤ 2 ^ (i + 1) := by
    intro n
    induction n with
    | zero =>
      intro h
      exact ⟨0, le_refl _, by simpa using h1, h⟩
    | succ n ih =>
      intro h
      by_cases hc : c ≤ 2 ^ (n + 1)
      · obtain ⟨i, hi, a, b⟩ := ih hc
        exact ⟨i, by omega, a, b⟩
      · exact ⟨n + 1, le_refl _, by omega, h⟩
  exact hfind 60 h2

theorem randomLevel_eq_iff (c : Nat) (i : Nat) (hi : i ≤ 60) :
    randomLevel (c : Int) = 61 - (i : Int) ↔ 2 ^ i < c ∧ c ≤ 2 ^ (i + 1) := by
  constructor
  · intro h
    by_cases h0 : c ≤ 1
    · rw [randomLevel_small _ (by exact_mod_cast h0)] at h
      omega
    · by_cases h1 : 2 ^ 61 < c
      · rw [randomLevel_top _ (by exact_mod_cast h1)] at h
        omega
      · obtain ⟨j, hj, a, b⟩ := between_pows c (by omega) (by omega)
        rw [randomLevel_between _ j hj (by exact_mod_cast a) (by exact_mod_cast b)] at h
        have : j = i := by omega
        subst this
        exact ⟨a, b⟩
  · rintro ⟨a, b⟩
    exact randomLevel_between _ i hi (by exact_mod_cast a) (by exact_mod_cast b)

theorem randomLevel_zero_iff (c : Nat) :
    randomLevel (c : Int) = 0 ↔ c ≤ 1 ∨ 2 ^ 61 < c := by
  constructor
  · intro h
    by_contra hn
    push_neg at hn
    obtain ⟨j, hj, a, b⟩ := between_pows c hn.1 hn.2
    rw [randomLevel_between _ j hj (by exact_mod_cast a) (by exact_mod_cast b)] at h
    omega
  · rintro (h | h)
    · exact randomLevel_small _ (by exact_mod_cast h)
    · exact randomLevel_top _ (by exact_mod_cast h)

theorem levelCount_pos (i : Nat) (hi : i ≤ 60) : levelCount (61 - (i : Int)) = 2 ^ i := by
  unfold levelCount
  have : ((Finset.range (2 ^ 62)).filter fun c : Nat => randomLevel (c : Int) = 61 - (i : Int))
      = Finset.Ioc (2 ^ i) (2 ^ (i + 1)) := by
    ext c
    rw [Finset.mem_filter, Finset.mem_range, Finset.mem_Ioc, randomLevel_eq_iff c i hi]
    constructor
    · exact fun h => h.2
    · intro h
      refine ⟨?_, h⟩
      have : 2 ^ (i + 1) ≤ 2 ^ 61 := Nat.pow_le_pow_right (by norm_num) (by omega)
      have : (2 : Nat) ^ 61 < 2 ^ 62 := by norm_num
      omega
  rw [this, Nat.card_Ioc, pow_succ]
  omega

theorem levelCount_zero : levelCount 0 = 2 ^ 61 + 1 := by
  unfold levelCount
  have : ((Finset.range (2 ^ 62)).filter fun c : Nat => randomLevel (c : Int) = 0)
      = Finset.range 2 ∪ Finset.Ioo (2 ^ 61) (2 ^ 62) := by
    ext c
    rw [Finset.mem_filter, Finset.mem_range, Finset.mem_union, Finset.mem_range, Finset.mem_Ioo,
      randomLevel_zero_iff]
    constructor
    · rintro ⟨h1, h2 | h2⟩
      · exact Or.inl (by omega)
      · exact Or.inr ⟨h2, h1⟩
    · rintro (h | h)
      · exact ⟨by norm_num at *; omega, Or.inl (by omega)⟩
      · exact ⟨h.2, Or.inr h.1⟩
  rw [this, Finset.card_union_of_disjoint, Finset.card_range, Nat.card_Ioo]
  · norm_num
  · rw [Finset.disjoint_left]
    intro c h1 h2
    rw [Finset.mem_range] at h1
    rw [Finset.mem_Ioo] at h2
    have : (2 : Nat) ≤ 2 ^ 61 := by norm_num
    omega

theorem levelCount_above (l : Int) (h : 61 < l) : levelCount l = 0 := by
  unfold levelCount
  rw [Finset.card_eq_zero, Finset.filter_eq_empty_iff]
  intro c _ hc
  have := (randomLevelFrom_bounds (c : Int) 62 (le_refl _)).2
  unfold randomLevel at hc
  omega

/-- C17. Level draw bounds: for every coin `c` with `0 <= c < 2^62`, the
level `randomLevel` returns on `c` is at least 0 and at most 62. -/
theorem randomLevel_bounds (c : Int) (_h : coinOK c) :
    0 ≤ randomLevel c ∧ randomLevel c ≤ 62 := by
  have := randomLevelFrom_bounds c 62 (le_refl _)
  unfold randomLevel
  omega

theorem randomLevel_bounds_witness : 0 ≤ randomLevel 2 ∧ randomLevel 2 ≤ 62 :=
  randomLevel_bounds 2 ⟨by decide, by decide⟩

/-- The greatest level that `randomLevel` returns is 61, on the coin 2. -/
theorem randomLevel_max : randomLevel 2 = 61 ∧ ∀ c : Int, randomLevel c ≤ 61 :=
  ⟨by decide, fun c => (randomLevelFrom_bounds c 62 (le_refl _)).2⟩

/-- C18, as stated, fails at level 0: of the `2^62` coins, `2^61 + 1` yield
level 0, which is not half of them, and `2^60` yield level 1, which is not half
of the number that yield level 0; at the top, one coin yields level 61 and
none yields level 62. -/
theorem level_halving_fails :
    levelCount 0 = 2 ^ 61 + 1 ∧ levelCount 1 = 2 ^ 60 ∧ 2 * levelCount 0 ≠ 2 ^ 62 ∧
      2 * levelCount (0 + 1) ≠ levelCount 0 ∧ 2 * levelCount (61 + 1) ≠ levelCount 61 := by
  have h0 := levelCount_zero
  have h1 : levelCount 1 = 2 ^ 60 := levelCount_pos 60 (le_refl _)
  have h61 : levelCount 61 = 1 := levelCount_pos 0 (by norm_num)
  have h62 : levelCount (61 + 1) = 0 := levelCount_above _ (by norm_num)
  refine ⟨h0, h1, ?_, ?_, ?_⟩
  · rw [h0]; norm_num
  · rw [show ((0 : Int) + 1) = 1 from rfl, h1, h0]; norm_num
  · rw [h62, h61]; norm_num

/-- C18, amended. Level draw distribution: of the `2^62` coins, `2^61 + 1`
yield level 0 (one more than half), `2^60` yield level 1 (a quarter), and for
every `l` from 1 to 60 the number of coins that yield level `l + 1` is exactly
half the number that yield level `l`; one coin yields level 61 and no coin
yields a level above 61. -/
theorem level_distribution :
    levelCount 0 = 2 ^ 61 + 1 ∧ levelCount 1 = 2 ^ 60 ∧ 4 * levelCount 1 = 2 ^ 62 ∧
      (∀ l : Int, 1 ≤ l → l ≤ 60 → 2 * levelCount (l + 1) = levelCount l) ∧
      levelCount 61 = 1 ∧ ∀ l : Int, 61 < l → levelCount l = 0 := by
  have h1 : levelCount 1 = 2 ^ 60 := levelCount_pos 60 (le_refl _)
  refine ⟨levelCount_zero, h1, ?_, ?_, levelCount_pos 0 (by norm_num), levelCount_above⟩
  · rw [h1]; norm_num
  · intro l a b
    obtain ⟨i, hi⟩ : ∃ i : Nat, (i : Int) = 60 - l := ⟨(60 - l).toNat, Int.toNat_of_nonneg (by omega)⟩
    have e1 : l + 1 = 61 - (i : Int) := by omega
    have e2 : l = 61 - ((i + 1 : Nat) : Int) := by push_cast; omega
    rw [e1, levelCount_pos i (by omega)]
    rw [e2, levelCount_pos (i + 1) (by omega), pow_succ]
    ring

theorem level_distribution_witness : 2 * levelCount (1 + 1) = levelCount 1 :=
  level_distribution.2.2.2.1 1 (by decide) (by decide)

/-! ## Refinement of the sorted association list -/

theorem ins_eq_specAdd {cmp : Comparator K} (hc : IsStrictTotal cmp) (k : K) (v : V) :
    ∀ s : List (K × V), SortedKV cmp s → ins cmp k v s = specAdd cmp k v s
  | [], _ => rfl
  | p :: t, hs => by
    have hs' := List.pairwise_cons.1 hs
    have ih := ins_eq_specAdd hc k v t hs'.2
    have hsw := hc.swap k p.1
    have hsw' := hc.swap p.1 k
    rw [ins]
    unfold specAdd at ih ⊢
    by_cases h1 : cmp k p.1 < 0
    · -- every entry is above `k`
      rw [if_pos h1]
      have hall : ∀ q ∈ p :: t, cmp k q.1 < 0 := by
        intro q hq
        rcases List.mem_cons.1 hq with rfl | hq
        · exact h1
        · exact hc.trans _ _ _ h1 (hs'.1 q hq)
      have hany : (p :: t).any (fun q => decide (cmp k q.1 = 0)) = false := by
        rw [List.any_eq_false]
        intro q hq
        have := hall q hq
        simp only [decide_eq_true_eq]
        omega
      have hf1 : (p :: t).filter (fun q => decide (cmp q.1 k < 0)) = [] := by
        rw [List.filter_eq_nil_iff]
        intro q hq
        have := hall q hq
        have := hc.swap k q.1
        have := hc.swap q.1 k
        simp only [decide_eq_true_eq]
        omega
      have hf2 : (p :: t).filter (fun q => decide (cmp k q.1 < 0)) = p :: t := by
        rw [List.filter_eq_self]
        intro q hq
        simpa using hall q hq
      rw [hany, hf1, hf2]
      rfl
    · rw [if_neg h1]
      by_cases h2 : cmp k p.1 > 0
      · rw [if_pos h2, ih]
        have e1 : (p :: t).any (fun q => decide (cmp k q.1 = 0)) =
            t.any (fun q => decide (cmp k q.1 = 0)) := by
          rw [List.any_cons]
          have : decide (cmp k p.1 = 0) = false := by
            simp only [decide_eq_false_iff_not]; omega
          rw [this]; rfl
        rw [e1]
        by_cases h3 : t.any (fun q => decide (cmp k q.1 = 0)) = true
        · rw [if_pos h3, if_pos h3, List.map_cons, if_neg (by omega)]
        · rw [if_neg h3, if_neg h3]
          have hp1 : decide (cmp p.1 k < 0) = true := by
            simp only [decide_eq_true_eq]; omega
          have hp2 : decide (cmp k p.1 < 0) = false := by
            simp only [decide_eq_false_iff_not]; omega
          have f1 : (p :: t).filter (fun q => decide (cmp q.1 k < 0)) =
              p :: t.filter (fun q => decide (cmp q.1 k < 0)) := by
            rw [List.filter_cons, if_pos hp1]
          have f2 : (p :: t).filter (fun q => decide (cmp k q.1 < 0)) =
              t.filter (fun q => decide (cmp k q.1 < 0)) := by
            rw [List.filter_cons, if_neg (by rw [hp2]; simp)]
          rw [f1, f2]
          rfl
      · rw [if_neg h2]
        have h0 : cmp k p.1 = 0 := by omega
        have hk : k = p.1 := (hc.eq_iff _ _).1 h0
        have hany : (p :: t).any (fun q => decide (cmp k q.1 = 0)) = true := by
          rw [List.any_cons]
          simp [h0]
        rw [if_pos hany, List.map_cons, if_pos h0, ← hk]
        congr 1
        symm
        conv_rhs => rw [← List.map_id t]
        apply List.map_congr_left
        intro q hq
        have := hs'.1 q hq
        rw [← hk] at this
        have := hc.swap k q.1
        rw [if_neg (by omega)]
        rfl

theorem del_eq_specRemove (cmp : Comparator K) (k : K) (s : List (K × V)) :
    del cmp k s = specRemove cmp k s := rfl

/-- Every sequence of calls on a well-formed map returns a well-formed map whose
zero level holds the entries that the specification gives. -/
theorem runOps_entries : ∀ (ops : List (Op K V)) (m0 : mapImpl K V)
    (g0 : List (List (Cell K V))), IsStrictTotal m0.cmp → Inv m0 g0 →
    ∃ m g, runOps m0 ops = some m ∧ Inv m g ∧ m.cmp = m0.cmp ∧ m.emptyValue = m0.emptyValue ∧
      kvs (bottom g) = specRun m0.cmp (kvs (bottom g0)) ops
  | [], m0, g0, _, hi => ⟨m0, g0, rfl, hi, rfl, rfl, rfl⟩
  | o :: os, m0, g0, hc, hi => by
    obtain ⟨m1, g1, h1, h2, h3, h4, h5⟩ := applyOp_inv hc hi o
    obtain ⟨m, g, e1, e2, e3, e4, e5⟩ := runOps_entries os m1 g1 (by rw [h3]; exact hc) h2
    refine ⟨m, g, ?_, e2, e3.trans h3, e4.trans h4, ?_⟩
    · show (applyOp m0 o).bind _ = _
      rw [h1]; exact e1
    · rw [e5, h3, h5]
      show _ = specRun m0.cmp (specStep m0.cmp (kvs (bottom g0)) o) os
      congr 1
      cases o with
      | add c k v => exact ins_eq_specAdd hc k v _ hi.sortedKV
      | remove k => rfl

theorem specRun_sameCalls (cmp : Comparator K) : ∀ (ops1 ops2 : List (Op K V))
    (s : List (K × V)), sameCalls ops1 ops2 → specRun cmp s ops1 = specRun cmp s ops2
  | [], [], _, _ => rfl
  | [], _ :: _, _, h => by cases h
  | .add _ k v :: os, .add _ k' v' :: os', s, h => by
    obtain ⟨rfl, rfl, h'⟩ := h
    exact specRun_sameCalls cmp os os' _ h'
  | .remove k :: os, .remove k' :: os', s, h => by
    obtain ⟨rfl, h'⟩ := h
    exact specRun_sameCalls cmp os os' _ h'
  | .add _ _ _ :: _, [], _, h => by cases h
  | .remove _ :: _, [], _, h => by cases h
  | .add _ _ _ :: _, .remove _ :: _, _, h => by cases h
  | .remove _ :: _, .add _ _ _ :: _, _, h => by cases h

/-- The queries of two well-formed maps with the same order, the same empty
value and the same zero-level entries return the same results. -/
theorem queries_agree {m1 m2 : mapImpl K V} {g1 g2 : List (List (Cell K V))}
    (hc : IsStrictTotal m1.cmp) (i1 : Inv m1 g1) (i2 : Inv m2 g2) (hcm : m2.cmp = m1.cmp)
    (hev : m2.emptyValue = m1.emptyValue) (hs : kvs (bottom g2) = kvs (bottom g1)) (k : K) :
    (Get m1 k).map Prod.fst = (Get m2 k).map Prod.fst ∧
      (Lt m1 k).map Prod.fst = (Lt m2 k).map Prod.fst ∧
      (Gt m1 k).map Prod.fst = (Gt m2 k).map Prod.fst ∧
      (LtEq m1 k).map Prod.fst = (LtEq m2 k).map Prod.fst ∧
      (GtEq m1 k).map Prod.fst = (GtEq m2 k).map Prod.fst := by
  have hc2 : IsStrictTotal m2.cmp := by rw [hcm]; exact hc
  have hget : (Get m1 k).map Prod.fst = (Get m2 k).map Prod.fst := by
    rcases Get_spec hc i1 k with ⟨w, hw, e⟩ | ⟨hno, e⟩
    · rw [e, Get_of_mem hc2 i2 (by rw [hs]; exact hw)]; rfl
    · rw [e, Get_of_absent hc2 i2 (by
        rw [hs, hcm]
        intro p hp h0
        have : k = p.1 := (hc.eq_iff _ _).1 h0
        exact hno p.2 (by rw [this]; exact hp)), hev]
      rfl
  have hlt : (Lt m1 k).map Prod.fst = (Lt m2 k).map Prod.fst := by
    rcases Lt_spec hc i1 k with ⟨j, w, hw, a, b, e⟩ | ⟨hno, e⟩
    · rw [e, Lt_of_greatest hc2 i2 (by rw [hs]; exact hw) (by rw [hcm]; exact a)
        (by rw [hs, hcm]; exact b)]
      rfl
    · rw [e, Lt_of_none hc2 i2 (by rw [hs, hcm]; exact hno), hev]; rfl
  have hgt : (Gt m1 k).map Prod.fst = (Gt m2 k).map Prod.fst := by
    rcases Gt_spec hc i1 k with ⟨j, w, hw, a, b, e⟩ | ⟨hno, e⟩
    · rw [e, Gt_of_least hc2 i2 (by rw [hs]; exact hw) (by rw [hcm]; exact a)
        (by rw [hs, hcm]; exact b)]
      rfl
    · rw [e, Gt_of_none hc2 i2 (by rw [hs, hcm]; exact hno), hev]; rfl
  refine ⟨hget, hlt, hgt, ?_⟩
  rcases Get_spec hc i1 k with ⟨w, hw, e⟩ | ⟨hno, e⟩
  · have a1 := LtEq_of_mem hc i1 hw
    have a2 := LtEq_of_mem hc2 i2 (by rw [hs]; exact hw)
    rw [a1.1, a1.2, a2.1, a2.2]
    exact ⟨rfl, rfl⟩
  · have hab : ∀ p ∈ kvs (bottom g1), m1.cmp k p.1 ≠ 0 := by
      intro p hp h0
      have : k = p.1 := (hc.eq_iff _ _).1 h0
      exact hno p.2 (by rw [this]; exact hp)
    have a1 := LtEq_of_absent hc i1 hab
    have a2 := LtEq_of_absent hc2 i2 (by rw [hs, hcm]; exact hab)
    rw [a1.1, a1.2, a2.1, a2.2]
    exact ⟨hlt, hgt⟩

theorem sample_coins2 : coinsOK sampleOps2 :=
  ⟨⟨by decide, by decide⟩, ⟨by decide, by decide⟩, ⟨by decide, by decide⟩, trivial⟩

theorem sample_sameCalls : sameCalls sampleOps sampleOps2 :=
  ⟨rfl, rfl, rfl, rfl, rfl, rfl, rfl, trivial⟩

theorem mem_specAdd_other {cmp : Comparator K} (hc : IsStrictTotal cmp) (k : K) (v : V)
    {s : List (K × V)} (hs : SortedKV cmp s) (p : K × V) (hp : cmp k p.1 ≠ 0) :
    p ∈ specAdd cmp k v s ↔ p ∈ s := by
  rw [← ins_eq_specAdd hc k v s hs, mem_ins hc k v s hs]
  have hne : p.1 ≠ k := fun h => hp (by rw [h]; exact cmp_self hc k)
  constructor
  · rintro (h | h)
    · exact absurd (by rw [h]) hne
    · exact h.1
  · exact fun h => Or.inr ⟨h, hne⟩

theorem mem_specRemove_other (cmp : Comparator K) (k : K) (s : List (K × V)) (p : K × V)
    (hp : cmp k p.1 ≠ 0) : p ∈ specRemove cmp k s ↔ p ∈ s := by
  unfold specRemove
  rw [List.mem_filter]
  simp [hp]

/-- C19. Refinement of a sorted association list, independent of the level
draws.  Two sequences of calls on a new map that differ only in the coins drawn
both return, and the resulting maps have the same zero-level entries `s`, the
list the specification gives.  From such a map, `Add(k, v)` with any coin leaves
`s` with the entry of `k` replaced by `(k, v)`, or with `(k, v)` put at its
sorted position when `k` is not in `s`; `Remove(k)` leaves `s` without the
entry of `k`; entries of other keys are the same before and after.  `Get`,
`Lt`, `Gt`, `LtEq`, `GtEq`, `ForEach`, `ForEachRange` and `Size` return the same
results on the two maps. -/
theorem refines_sorted_list {cmp : Comparator K} (hc : IsStrictTotal cmp) (e : V)
    (ops1 ops2 : List (Op K V)) (_h1 : coinsOK ops1) (_h2 : coinsOK ops2)
    (hs : sameCalls ops1 ops2) :
    ∃ m1 m2 s, runOps (NewMap cmp e) ops1 = some m1 ∧ runOps (NewMap cmp e) ops2 = some m2 ∧
      s = specRun cmp [] ops1 ∧
      ForEach m1 (fun _ _ => true) = some (s, m1) ∧
      ForEach m2 (fun _ _ => true) = some (s, m2) ∧
      (∀ coin k v, ∃ m', Add m1 coin k v = some m' ∧
        ForEach m' (fun _ _ => true) = some (specAdd cmp k v s, m') ∧
        ∀ p, cmp k p.1 ≠ 0 → (p ∈ specAdd cmp k v s ↔ p ∈ s)) ∧
      (∀ k, ∃ r m', Remove m1 k = some (r, m') ∧
        ForEach m' (fun _ _ => true) = some (specRemove cmp k s, m') ∧
        ∀ p, cmp k p.1 ≠ 0 → (p ∈ specRemove cmp k s ↔ p ∈ s)) ∧
      (∀ k, (Get m1 k).map Prod.fst = (Get m2 k).map Prod.fst ∧
        (Lt m1 k).map Prod.fst = (Lt m2 k).map Prod.fst ∧
        (Gt m1 k).map Prod.fst = (Gt m2 k).map Prod.fst ∧
        (LtEq m1 k).map Prod.fst = (LtEq m2 k).map Prod.fst ∧
        (GtEq m1 k).map Prod.fst = (GtEq m2 k).map Prod.fst) ∧
      (∀ f, (ForEach m1 f).map Prod.fst = (ForEach m2 f).map Prod.fst) ∧
      (∀ a b f, (ForEachRange m1 a b f).map Prod.fst = (ForEachRange m2 a b f).map Prod.fst) ∧
      Size m1 = Size m2 := by
  have hc0 : IsStrictTotal (NewMap cmp e).cmp := hc
  obtain ⟨m1, g1, r1, i1, c1, v1, k1⟩ := runOps_entries ops1 _ _ hc0 (NewMap_inv cmp e)
  obtain ⟨m2, g2, r2, i2, c2, v2, k2⟩ := runOps_entries ops2 _ _ hc0 (NewMap_inv cmp e)
  have c1' : m1.cmp = cmp := c1
  have c2' : m2.cmp = cmp := c2
  have hk0 : kvs (bottom [[(⟨0, none, none, none⟩ : Cell K V)]]) = [] := rfl
  rw [hk0] at k1 k2
  have k1' : kvs (bottom g1) = specRun cmp [] ops1 := k1
  have k2' : kvs (bottom g2) = specRun cmp [] ops1 := by
    rw [k2]; exact (specRun_sameCalls cmp ops1 ops2 [] hs).symm
  have hc1 : IsStrictTotal m1.cmp := by rw [c1']; exact hc
  have hsort : SortedKV cmp (specRun cmp [] ops1) := by
    rw [← k1', ← c1']; exact i1.sortedKV
  refine ⟨m1, m2, _, r1, r2, rfl, ?_, ?_, ?_, ?_, ?_, ?_, ?_, ?_⟩
  · rw [ForEach_spec i1, visit_true, k1']
  · rw [ForEach_spec i2, visit_true, k2']
  · intro coin k v
    obtain ⟨m', g', a1, a2, a3, -, a5⟩ := Add_inv hc1 i1 coin k v
    refine ⟨m', a1, ?_, fun p hp => mem_specAdd_other hc k v hsort p hp⟩
    rw [ForEach_spec a2, visit_true, a5, c1', k1', ins_eq_specAdd hc k v _ hsort]
  · intro k
    obtain ⟨m', r, b1, b2, -, -, -, b6, -⟩ := Remove_spec hc1 i1 k
    refine ⟨r, m', b1, ?_, fun p hp => mem_specRemove_other cmp k _ p hp⟩
    rw [ForEach_spec b2, visit_true, b6, c1', k1']
    rfl
  · intro k
    exact queries_agree hc1 i1 i2 (c2'.trans c1'.symm) (v2.trans v1.symm) (k2'.trans k1'.symm) k
  · intro f
    rw [ForEach_spec i1, ForEach_spec i2, k1', k2']; rfl
  · intro a b f
    rw [ForEachRange_spec hc1 i1, ForEachRange_spec (by rw [c2']; exact hc) i2, k1', k2', c1', c2']
    rfl
  · show m1.size = m2.size
    rw [i1.size, i2.size, k1', k2']

theorem refines_sorted_list_witness :
    ∃ m1 m2 s, runOps (NewMap intCmp (0 : Int)) sampleOps = some m1 ∧
      runOps (NewMap intCmp (0 : Int)) sampleOps2 = some m2 ∧
      s = specRun intCmp [] sampleOps ∧
      ForEach m1 (fun _ _ => true) = some (s, m1) ∧
      ForEach m2 (fun _ _ => true) = some (s, m2) ∧
      (∀ coin k v, ∃ m', Add m1 coin k v = some m' ∧
        ForEach m' (fun _ _ => true) = some (specAdd intCmp k v s, m') ∧
        ∀ p, intCmp k p.1 ≠ 0 → (p ∈ specAdd intCmp k v s ↔ p ∈ s)) ∧
      (∀ k, ∃ r m', Remove m1 k = some (r, m') ∧
        ForEach m' (fun _ _ => true) = some (specRemove intCmp k s, m') ∧
        ∀ p, intCmp k p.1 ≠ 0 → (p ∈ specRemove intCmp k s ↔ p ∈ s)) ∧
      (∀ k, (Get m1 k).map Prod.fst = (Get m2 k).map Prod.fst ∧
        (Lt m1 k).map Prod.fst = (Lt m2 k).map Prod.fst ∧
        (Gt m1 k).map Prod.fst = (Gt m2 k).map Prod.fst ∧
        (LtEq m1 k).map Prod.fst = (LtEq m2 k).map Prod.fst ∧
        (GtEq m1 k).map Prod.fst = (GtEq m2 k).map Prod.fst) ∧
      (∀ f, (ForEach m1 f).map Prod.fst = (ForEach m2 f).map Prod.fst) ∧
      (∀ a b f, (ForEachRange m1 a b f).map Prod.fst = (ForEachRange m2 a b f).map Prod.fst) ∧
      Size m1 = Size m2 :=
  refines_sorted_list intCmp_total 0 sampleOps sampleOps2 sample_coins sample_coins2
    sample_sameCalls

/-! ## Re-insertion, and absence of failures -/

theorem headers_length : ∀ g : List (List (Cell K V)), (∀ l ∈ g, l ≠ []) →
    (headers g).length = g.length
  | [], _ => rfl
  | [] :: _, h => absurd rfl (h [] (List.mem_cons_self _ _))
  | (c :: t) :: g, h => by
    have ih := headers_length g (fun l hl => h l (List.mem_cons_of_mem _ hl))
    show (c.addr :: headers g).length = _
    rw [List.length_cons, ih, List.length_cons]

theorem headers_last : ∀ (g : List (List (Cell K V))) (hd0 : Cell K V) (tl0 : List (Cell K V)),
    (∀ l ∈ g, l ≠ []) → bottom g = hd0 :: tl0 → (headers g).getLast? = some hd0.addr
  | [], _, _, _, h => by cases h
  | [l], hd0, tl0, _, h => by
    rw [bottom_single] at h
    subst h
    rfl
  | l :: l2 :: g, hd0, tl0, hne, h => by
    rw [bottom_cons_cons] at h
    have ih := headers_last (l2 :: g) hd0 tl0 (fun x hx => hne x (List.mem_cons_of_mem _ hx)) h
    match l, hne l (List.mem_cons_self _ _), l2, hne l2 (by simp), ih with
    | c :: t, _, c2 :: t2, _, ih =>
      show (c.addr :: c2.addr :: headers g).getLast? = _
      rw [List.getLast?_cons_cons]
      exact ih

/-- Every node linked after the header of a level carries a key and a value. -/
theorem Inv.linked_keyed {m : mapImpl K V} {g : List (List (Cell K V))} (hi : Inv m g) :
    ∀ l ∈ g.map addrs, ∀ a ∈ l.tail,
      ∃ n y w, rd m.heap a = some n ∧ n.key = some y ∧ n.value = some w := by
  intro l hl a ha
  obtain ⟨cs, hcs, rfl⟩ := List.mem_map.1 hl
  have hlv := hi.good.lvl cs hcs
  obtain ⟨hd, tl, rfl, -⟩ := hlv.hdr
  have ha' : a ∈ addrs tl := ha
  obtain ⟨c, hc, rfl⟩ := List.mem_map.1 ha'
  obtain ⟨r, hrd⟩ := RepSeg_mem (hi.good.rep _ hcs) (List.mem_cons_of_mem hd hc)
  obtain ⟨y, hy⟩ := olt_isSome ((List.pairwise_cons.1 hlv.sorted).1 c hc)
  have hv := hlv.val c (List.mem_cons_of_mem hd hc) (by rw [hy]; simp)
  obtain ⟨w, hw⟩ : ∃ w, c.value = some w := by
    cases h : c.value with
    | none => exact absurd h hv
    | some w => exact ⟨w, rfl⟩
  exact ⟨_, y, w, hrd, hy, hw⟩

/-- C15. Demotion on re-insertion does not reach the drawn level.  On a new
integer map, `Add(5, 50)` with a coin that draws level 1 links key 5 on the
levels 0 and 1; `Add(5, 51)` with a coin that draws level 0 then leaves key 5
linked on the levels 0 and 1 again, not on level 0 alone.  With a first draw
of level 3 and a second of level 0 the key stays on the levels 0, 1 and 2. -/
theorem demotion_incomplete :
    randomLevel (2 ^ 61) = 1 ∧ randomLevel (2 ^ 59) = 3 ∧ randomLevel 0 = 0 ∧
      (Add (NewMap intCmp (0 : Int)) (2 ^ 61) 5 50).bind levelEntries =
        some [[(5, 50)], [(5, 50)]] ∧
      ((Add (NewMap intCmp (0 : Int)) (2 ^ 61) 5 50).bind fun m1 =>
        (Add m1 0 5 51).bind levelEntries) = some [[(5, 51)], [(5, 51)]] ∧
      (Add (NewMap intCmp (0 : Int)) (2 ^ 59) 5 50).bind levelEntries =
        some [[(5, 50)], [(5, 50)], [(5, 50)], [(5, 50)]] ∧
      ((Add (NewMap intCmp (0 : Int)) (2 ^ 59) 5 50).bind fun m1 =>
        (Add m1 0 5 51).bind levelEntries) = some [[(5, 51)], [(5, 51)], [(5, 51)]] :=
  ⟨by decide, by decide, by decide, rfl, rfl, rfl, rfl⟩

/-- C20. No nil dereference and termination: on every reachable map, following
`down` from `head` visits `levels + 1` headers, the last being `zeroLevel`, so
`levels` is the number of `down` steps from `head` to `zeroLevel`; every node
linked after the header of a level has a key and a value; and every public
operation returns: `Get`, `Lt`, `Gt`, `LtEq`, `GtEq`, `Remove` (and `getLt`) on
every key, `Add` on every coin, key and value, `ForEach` and `ForEachRange` on
every visitor.  An operation that dereferenced `nil`, or whose loop did not
stop within its budget of rounds, would not return. -/
theorem no_nil_dereference {cmp : Comparator K} (hc : IsStrictTotal cmp) {e : V}
    {m : mapImpl K V} (hr : Reachable cmp e m) :
    (∃ hs, downChain m.heap (m.heap.length + 1) m.head = some hs ∧
        (hs.length : Int) = m.levels + 1 ∧ hs.getLast? = some m.zeroLevel) ∧
      (∃ lns, levelNodes m = some lns ∧ ∀ l ∈ lns, ∀ a ∈ l.tail,
        ∃ n y w, rd m.heap a = some n ∧ n.key = some y ∧ n.value = some w) ∧
      (∀ k, (getLt m k).isSome ∧ (Get m k).isSome ∧ (Lt m k).isSome ∧ (Gt m k).isSome ∧
        (LtEq m k).isSome ∧ (GtEq m k).isSome ∧ (Remove m k).isSome) ∧
      (∀ coin k v, (Add m coin k v).isSome) ∧
      (∀ f, (ForEach m f).isSome) ∧
      ∀ a b f, (ForEachRange m a b f).isSome := by
  obtain ⟨g, hi, hcm, -⟩ := hr.inv hc
  subst hcm
  obtain ⟨hd0, tl0, hbe, hzero⟩ := hi.zero
  have hne := hi.good.level_ne_nil
  refine ⟨⟨headers g, hi.header_chain, ?_, ?_⟩, ⟨_, hi.levelNodes_eq.1, hi.linked_keyed⟩,
    ?_, ?_, ?_, ?_⟩
  · rw [headers_length g hne, ← hi.levels]
  · rw [headers_last g hd0 tl0 hne hbe, hzero]
  · intro k
    have hget : (Get m k).isSome := by
      rcases Get_spec hc hi k with ⟨w, -, h⟩ | ⟨-, h⟩ <;> rw [h] <;> rfl
    have hlt : (Lt m k).isSome := by
      rcases Lt_spec hc hi k with ⟨j, w, -, -, -, h⟩ | ⟨-, h⟩ <;> rw [h] <;> rfl
    have hgt : (Gt m k).isSome := by
      rcases Gt_spec hc hi k with ⟨j, w, -, -, -, h⟩ | ⟨-, h⟩ <;> rw [h] <;> rfl
    obtain ⟨pre, c, post, -, h0, -⟩ := getLt_spec hc hi k
    obtain ⟨m', r, hrem, -⟩ := Remove_spec hc hi k
    refine ⟨by rw [h0]; rfl, hget, hlt, hgt, ?_, ?_, by rw [hrem]; rfl⟩
    · obtain ⟨r, hr'⟩ := Option.isSome_iff_exists.1 hget
      have hf := floor_ceiling m k r hr'
      cases hb : r.1.2 with
      | true => rw [(hf.1 hb).1]; exact hget
      | false => rw [(hf.2 hb).1]; exact hlt
    · obtain ⟨r, hr'⟩ := Option.isSome_iff_exists.1 hget
      have hf := floor_ceiling m k r hr'
      cases hb : r.1.2 with
      | true => rw [(hf.1 hb).2]; exact hget
      | false => rw [(hf.2 hb).2]; exact hgt
  · intro coin k v
    obtain ⟨m', g', h, -⟩ := Add_inv hc hi coin k v
    rw [h]; rfl
  · intro f
    rw [ForEach_spec hi f]; rfl
  · intro a b f
    rw [ForEachRange_spec hc hi a b f]; rfl

theorem no_nil_dereference_witness :
    (∃ hs, downChain sampleMap.heap (sampleMap.heap.length + 1) sampleMap.head = some hs ∧
        (hs.length : Int) = sampleMap.levels + 1 ∧ hs.getLast? = some sampleMap.zeroLevel) ∧
      (∃ lns, levelNodes sampleMap = some lns ∧ ∀ l ∈ lns, ∀ a ∈ l.tail,
        ∃ n y w, rd sampleMap.heap a = some n ∧ n.key = some y ∧ n.value = some w) ∧
      (∀ k, (getLt sampleMap k).isSome ∧ (Get sampleMap k).isSome ∧ (Lt sampleMap k).isSome ∧
        (Gt sampleMap k).isSome ∧ (LtEq sampleMap k).isSome ∧ (GtEq sampleMap k).isSome ∧
        (Remove sampleMap k).isSome) ∧
      (∀ coin k v, (Add sampleMap coin k v).isSome) ∧
      (∀ f, (ForEach sampleMap f).isSome) ∧
      ∀ a b f, (ForEachRange sampleMap a b f).isSome :=
  no_nil_dereference intCmp_total sample_reachable

/-- A coin that draws level 3 for the key 6 on the sample map. -/
theorem insert_new_key_witness :
    ∃ m' hs ls news lns ts,
      downChain sampleMap.heap (sampleMap.heap.length + 1) sampleMap.head = some hs ∧
      levelEntries sampleMap = some ls ∧
      (∀ L ∈ ls, ∀ p ∈ L, intCmp 6 p.1 ≠ 0) ∧
      Add sampleMap (2 ^ 59) 6 60 = some m' ∧
      m'.levels = max sampleMap.levels (randomLevel (2 ^ 59)) ∧
      downChain m'.heap (m'.heap.length + 1) m'.head = some (news ++ hs) ∧
      news.length = (randomLevel (2 ^ 59) - sampleMap.levels).toNat ∧
      (∀ x ∈ news, sampleMap.heap.length ≤ x) ∧
      levelEntries m' = some
        ((List.replicate news.length [] ++ ls).take
            (sampleMap.levels - randomLevel (2 ^ 59)).toNat ++
          ((List.replicate news.length [] ++ ls).drop
            (sampleMap.levels - randomLevel (2 ^ 59)).toNat).map (ins intCmp 6 60)) ∧
      levelNodes m' = some lns ∧
      List.Forall₂ (fun a nodes => a ∈ nodes ∧ entryAt m'.heap a = some (6, 60) ∧
        sampleMap.heap.length ≤ a) ts
        (lns.drop (sampleMap.levels - randomLevel (2 ^ 59)).toNat) ∧
      (ts.length : Int) = randomLevel (2 ^ 59) + 1 ∧
      ∀ a, ts.head? = some a → downChain m'.heap (m'.heap.length + 1) a = some ts :=
  insert_new_key intCmp_total sample_reachable (2 ^ 59) ⟨by decide, by decide⟩ 6 60
    [(5, 50), (8, 80)] sample_entries (by decide)

end Skiplist
